import Mathlib

/-!
Verification model of the hybrid order book in `src/book.rs` (crate `orderbook`).

Modelling conventions:
- `u32` tick arithmetic is `ℕ` with an explicit `% 2^32` at every source site
  that can wrap (`add32`, `sub32`); the `as u16` cast is `toU16`.
- `f64` sizes are modelled as `ℚ`: the book never does arithmetic on sizes, it
  only stores, copies and compares them against `EPSILON`, so any order-embedding
  of the finite doubles is faithful; `eps` stands for the `EPSILON = 1e-15` constant.
- the `BTreeMap<u32, f64>` heaps are sorted association lists;
- arrays `[f64; CACHE_SLOTS]` are lists of length `CACHE_SLOTS`; the `for` loops of
  the rebalance routines are primitive recursions over the loop trip count.
- `CACHE_SLOTS` and `CACHE_EMPTY_SLOTS` are the parameters `N` and `E`.
-/

namespace OBook

/-- The 32-bit word size, `2^32`. -/
def W32 : ℕ := 4294967296

/-- The 16-bit word size, `2^16`. -/
def W16 : ℕ := 65536

/-- Wrapping 32-bit addition, the behaviour of `+` on `u32`. -/
def add32 (a b : ℕ) : ℕ := (a + b) % W32

/-- Wrapping 32-bit subtraction, the behaviour of `-` on `u32` (operands `< W32`). -/
def sub32 (a b : ℕ) : ℕ := (a + W32 - b) % W32

/-- Truncation to 16 bits, the behaviour of an `as u16` cast. -/
def toU16 (a : ℕ) : ℕ := a % W16

/-- `EPSILON = 1e-15` from `book.rs`, as a rational (`mkRat` keeps the
definition kernel-computable). -/
def eps : ℚ := mkRat 1 (10 ^ 15)

/-- `TickLevel { tick: u32, size: f64 }` from `lib.rs`. -/
structure TickLevel where
  tick : ℕ
  size : ℚ
deriving DecidableEq, Repr

/-- `TickUpdate` from `lib.rs`: a sequence id plus the ask levels (sorted
ascending by tick) and bid levels (sorted descending by tick). -/
structure TickUpdate where
  sequence_id : ℕ
  asks : List TickLevel
  bids : List TickLevel
deriving DecidableEq, Repr

/-- Model of `BTreeMap<u32, f64>`: an association list kept sorted by key. -/
abbrev Heap := List (ℕ × ℚ)

/-- `BTreeMap::get`. -/
def hget : Heap → ℕ → Option ℚ
  | [], _ => none
  | kv :: rest, k => if kv.1 = k then some kv.2 else hget rest k

/-- `BTreeMap::entry(k).and_modify(|sz| *sz = v).or_insert(v)`: upsert keeping order. -/
def hupsert : Heap → ℕ → ℚ → Heap
  | [], k, v => [(k, v)]
  | kv :: rest, k, v =>
      if k < kv.1 then (k, v) :: kv :: rest
      else if k = kv.1 then (k, v) :: rest
      else kv :: hupsert rest k v

/-- `BTreeMap::remove`. -/
def herase : Heap → ℕ → Heap
  | [], _ => []
  | kv :: rest, k => if kv.1 = k then rest else kv :: herase rest k

/-- The state of `OrderBook<CACHE_SLOTS, CACHE_EMPTY_SLOTS>` from `src/book.rs`
(the `tick_decimals` constant is threaded separately where a price is needed). -/
structure Book where
  sequence_id : ℕ
  asks_0_tick : ℕ
  bids_0_tick : ℕ
  best_ask_i : ℕ
  best_bid_i : ℕ
  asks : List ℚ
  bids : List ℚ
  asks_heap : Heap
  bids_heap : Heap
deriving DecidableEq, Repr

/-- Array read `a[i]` (all source reads are in bounds; out of range yields `0`). -/
def aget (l : List ℚ) (i : ℕ) : ℚ := l.getD i 0

/-- `OrderBook::new`: sentinel anchors `u32::MAX` / `0`, zeroed arrays, empty heaps. -/
def Book.new (N : ℕ) : Book where
  sequence_id := 0
  asks_0_tick := W32 - 1
  bids_0_tick := 0
  best_ask_i := 0
  best_bid_i := 0
  asks := List.replicate N 0
  bids := List.replicate N 0
  asks_heap := []
  bids_heap := []

/-- Eviction loop of `rebalance_asks_lower`: for `i` in `[i0, i0+cnt)`, spill a live
slot into the heap at tick `asks_0_tick + i` and zero it. -/
def evict_asks (a0 : ℕ) : ℕ → ℕ → List ℚ → Heap → List ℚ × Heap
  | _, 0, arr, h => (arr, h)
  | i, c + 1, arr, h =>
      if eps < aget arr i then
        evict_asks a0 (i + 1) c (arr.set i 0) (hupsert h (add32 a0 i) (aget arr i))
      else
        evict_asks a0 (i + 1) c arr h

/-- Eviction loop of `rebalance_bids_higher`: spill at tick `bids_0_tick - i`. -/
def evict_bids (b0 : ℕ) : ℕ → ℕ → List ℚ → Heap → List ℚ × Heap
  | _, 0, arr, h => (arr, h)
  | i, c + 1, arr, h =>
      if eps < aget arr i then
        evict_bids b0 (i + 1) c (arr.set i 0) (hupsert h (sub32 b0 i) (aget arr i))
      else
        evict_bids b0 (i + 1) c arr h

/-- The descending copy loop `for i in (0..cnt).rev() { a[i+shift] = a[i]; a[i] = 0.0 }`
shared by both favorable rebalances. -/
def spread_up (shift : ℕ) : ℕ → List ℚ → List ℚ
  | 0, arr => arr
  | c + 1, arr => spread_up shift c ((arr.set (c + shift) (aget arr c)).set c 0)

/-- The ascending copy loop `for i in i0..(i0+cnt) { a[i] = a[i+shift] }` of the
hysteretic compactions. -/
def compact_copy (shift : ℕ) : ℕ → ℕ → List ℚ → List ℚ
  | _, 0, arr => arr
  | i, c + 1, arr => compact_copy shift (i + 1) c (arr.set i (aget arr (i + shift)))

/-- Promotion loop of `rebalance_asks_higher_and_update_best`: for `i` in
`[i0, i0+cnt)`, pull tick `asks_0_tick + i` back from the heap, else zero the slot. -/
def promote_asks (a0 : ℕ) : ℕ → ℕ → List ℚ → Heap → List ℚ × Heap
  | _, 0, arr, h => (arr, h)
  | i, c + 1, arr, h =>
      match hget h (add32 a0 i) with
      | some sz => promote_asks a0 (i + 1) c (arr.set i sz) (herase h (add32 a0 i))
      | none => promote_asks a0 (i + 1) c (arr.set i 0) h

/-- Promotion loop of `rebalance_bids_lower_and_update_best`: tick `bids_0_tick - i`. -/
def promote_bids (b0 : ℕ) : ℕ → ℕ → List ℚ → Heap → List ℚ × Heap
  | _, 0, arr, h => (arr, h)
  | i, c + 1, arr, h =>
      match hget h (sub32 b0 i) with
      | some sz => promote_bids b0 (i + 1) c (arr.set i sz) (herase h (sub32 b0 i))
      | none => promote_bids b0 (i + 1) c (arr.set i 0) h

/-- The best scan `for i in 0..CACHE_SLOTS { if a[i] > EPSILON { best = i; break } }`:
index of the first slot strictly above `eps`, if any. -/
def find_live : List ℚ → Option ℕ
  | [] => none
  | x :: xs => if eps < x then some 0 else (find_live xs).map (· + 1)

/-- `insert_ask` from `src/book.rs`. -/
def insert_ask (N : ℕ) (b : Book) (l : TickLevel) : Book :=
  let i := sub32 l.tick b.asks_0_tick
  if i < N then { b with asks := b.asks.set i l.size }
  else if l.size < eps then { b with asks_heap := herase b.asks_heap l.tick }
  else { b with asks_heap := hupsert b.asks_heap l.tick l.size }

/-- `insert_bid` from `src/book.rs`. -/
def insert_bid (N : ℕ) (b : Book) (l : TickLevel) : Book :=
  let i := sub32 b.bids_0_tick l.tick
  if i < N then { b with bids := b.bids.set i l.size }
  else if l.size < eps then { b with bids_heap := herase b.bids_heap l.tick }
  else { b with bids_heap := hupsert b.bids_heap l.tick l.size }

/-- `rebalance_asks_lower` from `src/book.rs`: `saturating_sub` is `ℕ` subtraction. -/
def rebalance_asks_lower (N E : ℕ) (b : Book) (lowest_tick : ℕ) : Book :=
  let new_asks_0_tick := lowest_tick - E
  let shift := sub32 b.asks_0_tick new_asks_0_tick
  let i_eviction_start := if N ≤ shift then 0 else N - shift
  let p := evict_asks b.asks_0_tick i_eviction_start (N - i_eviction_start) b.asks b.asks_heap
  { b with
    asks := spread_up shift i_eviction_start p.1
    asks_heap := p.2
    asks_0_tick := new_asks_0_tick }

/-- `rebalance_bids_higher` from `src/book.rs`: `highest_tick + CACHE_EMPTY_SLOTS`
is a wrapping `u32` addition. -/
def rebalance_bids_higher (N E : ℕ) (b : Book) (highest_tick : ℕ) : Book :=
  let new_bids_0_tick := add32 highest_tick E
  let shift := sub32 new_bids_0_tick b.bids_0_tick
  let i_eviction_start := if N ≤ shift then 0 else N - shift
  let p := evict_bids b.bids_0_tick i_eviction_start (N - i_eviction_start) b.bids b.bids_heap
  { b with
    bids := spread_up shift i_eviction_start p.1
    bids_heap := p.2
    bids_0_tick := new_bids_0_tick }

/-- `rebalance_asks_higher_and_update_best` from `src/book.rs` (step C, ask side). -/
def rebalance_asks_higher_and_update_best (N E : ℕ) (b : Book) : Book :=
  if eps < aget b.asks b.best_ask_i then b
  else
    let best1 :=
      match find_live b.asks with
      | some i => i
      | none => b.best_ask_i
    if 2 * E < best1 then
      let shift := best1 - E
      let a0 := add32 b.asks_0_tick shift
      let a1 := compact_copy shift E (N - shift - E) b.asks
      let p := promote_asks a0 (N - shift) (N - (N - shift)) a1 b.asks_heap
      { b with asks_0_tick := a0, best_ask_i := best1 - shift, asks := p.1, asks_heap := p.2 }
    else { b with best_ask_i := best1 }

/-- `rebalance_bids_lower_and_update_best` from `src/book.rs` (step C, bid side). -/
def rebalance_bids_lower_and_update_best (N E : ℕ) (b : Book) : Book :=
  if eps < aget b.bids b.best_bid_i then b
  else
    let best1 :=
      match find_live b.bids with
      | some i => i
      | none => b.best_bid_i
    if 2 * E < best1 then
      let shift := best1 - E
      let b0 := sub32 b.bids_0_tick shift
      let a1 := compact_copy shift E (N - shift - E) b.bids
      let p := promote_bids b0 (N - shift) (N - (N - shift)) a1 b.bids_heap
      { b with bids_0_tick := b0, best_bid_i := best1 - shift, bids := p.1, bids_heap := p.2 }
    else { b with best_bid_i := best1 }

/-- Step A on the ask side of `process_tick_update` (the three cases on the first,
lowest, ask of the update). -/
def asks_step_a (N E : ℕ) (b : Book) (l : TickLevel) : Book :=
  if l.tick < b.asks_0_tick then
    let b1 := rebalance_asks_lower N E b l.tick
    { b1 with best_ask_i := toU16 (sub32 l.tick b1.asks_0_tick) }
  else if l.tick < add32 b.best_ask_i b.asks_0_tick then
    { b with best_ask_i := toU16 (sub32 l.tick b.asks_0_tick) }
  else b

/-- Steps A and B on the ask side: handle the first ask, then insert every ask. -/
def asks_phase_ab (N E : ℕ) (b : Book) (u : TickUpdate) : Book :=
  match u.asks with
  | [] => b
  | l :: rest => rest.foldl (insert_ask N) (insert_ask N (asks_step_a N E b l) l)

/-- Step A on the bid side (the three cases on the first, highest, bid). -/
def bids_step_a (N E : ℕ) (b : Book) (l : TickLevel) : Book :=
  if b.bids_0_tick < l.tick then
    let b1 := rebalance_bids_higher N E b l.tick
    { b1 with best_bid_i := toU16 (sub32 b1.bids_0_tick l.tick) }
  else if sub32 b.bids_0_tick b.best_bid_i < l.tick then
    { b with best_bid_i := toU16 (sub32 b.bids_0_tick l.tick) }
  else b

/-- Steps A and B on the bid side. -/
def bids_phase_ab (N E : ℕ) (b : Book) (u : TickUpdate) : Book :=
  match u.bids with
  | [] => b
  | l :: rest => rest.foldl (insert_bid N) (insert_bid N (bids_step_a N E b l) l)

/-- The whole ask side of `process_tick_update`: steps A, B, then C. -/
def asks_stage (N E : ℕ) (b : Book) (u : TickUpdate) : Book :=
  rebalance_asks_higher_and_update_best N E (asks_phase_ab N E b u)

/-- The whole bid side of `process_tick_update`: steps A, B, then C. -/
def bids_stage (N E : ℕ) (b : Book) (u : TickUpdate) : Book :=
  rebalance_bids_lower_and_update_best N E (bids_phase_ab N E b u)

/-- `process_tick_update` from `src/book.rs`: store the sequence id, run the ask
side, then the bid side. -/
def process_tick_update (N E : ℕ) (b : Book) (u : TickUpdate) : Book :=
  bids_stage N E (asks_stage N E { b with sequence_id := u.sequence_id } u) u

/-- A valid update per the spec's producer contract: asks sorted ascending by
tick, bids sorted descending, ticks in the `u32` range, sizes non-negative
(sizes are rationals, so never NaN).  Per spec section 7 arithmetic overflow is a
contract violation; on the bid side the favorable rebalance computes
`highest_tick + CACHE_EMPTY_SLOTS` in `u32`, so validity bounds bid ticks by
`2^32 - 1 - CACHE_EMPTY_SLOTS` (see the C4 theorems for the overflow itself). -/
def ValidUpdate (E : ℕ) (u : TickUpdate) : Prop :=
  u.asks.Pairwise (fun a b => a.tick ≤ b.tick) ∧
  u.bids.Pairwise (fun a b => b.tick ≤ a.tick) ∧
  (∀ l ∈ u.asks, l.tick < W32 ∧ 0 ≤ l.size) ∧
  (∀ l ∈ u.bids, l.tick + E < W32 ∧ 0 ≤ l.size)

/-- Update sizes that are exactly `EPSILON` sit on the boundary the code tests
with `>` and the spec words with `≥`; the amended conservation claim excludes them. -/
def StrictSizes (u : TickUpdate) : Prop :=
  (∀ l ∈ u.asks, l.size ≠ eps) ∧ (∀ l ∈ u.bids, l.size ≠ eps)

instance (E : ℕ) (u : TickUpdate) : Decidable (ValidUpdate E u) :=
  decidable_of_iff (u.asks.Pairwise (fun a b => a.tick ≤ b.tick) ∧
    u.bids.Pairwise (fun a b => b.tick ≤ a.tick) ∧
    (∀ l ∈ u.asks, l.tick < W32 ∧ 0 ≤ l.size) ∧
    (∀ l ∈ u.bids, l.tick + E < W32 ∧ 0 ≤ l.size))
    (by unfold ValidUpdate; exact Iff.rfl)

instance (u : TickUpdate) : Decidable (StrictSizes u) :=
  decidable_of_iff ((∀ l ∈ u.asks, l.size ≠ eps) ∧ (∀ l ∈ u.bids, l.size ≠ eps))
    (by unfold StrictSizes; exact Iff.rfl)

/-- Books reachable from a fresh book by valid updates. -/
inductive Reach (N E : ℕ) : Book → Prop
  | base : Reach N E (Book.new N)
  | step {b : Book} {u : TickUpdate} :
      Reach N E b → ValidUpdate E u → Reach N E (process_tick_update N E b u)

/-- Apply a sequence of updates to a fresh book. -/
def apply_updates (N E : ℕ) (us : List TickUpdate) : Book :=
  us.foldl (process_tick_update N E) (Book.new N)

/-- The live level the book holds at tick `t` on the ask side: an array slot
strictly above `eps` at its logical tick `asks_0_tick + i`, or a heap entry. -/
def live_ask (N : ℕ) (b : Book) (t : ℕ) : Option ℚ :=
  if b.asks_0_tick ≤ t ∧ t < b.asks_0_tick + N then
    if eps < aget b.asks (t - b.asks_0_tick) then some (aget b.asks (t - b.asks_0_tick))
    else none
  else hget b.asks_heap t

/-- The live level at tick `t` on the bid side (logical tick `bids_0_tick - i`). -/
def live_bid (N : ℕ) (b : Book) (t : ℕ) : Option ℚ :=
  if t ≤ b.bids_0_tick ∧ b.bids_0_tick < t + N then
    if eps < aget b.bids (b.bids_0_tick - t) then some (aget b.bids (b.bids_0_tick - t))
    else none
  else hget b.bids_heap t

/-- Last-writer-wins aggregation of one level over a map of live sizes, a size
not strictly above `eps` deleting the tick. -/
def apply_level (m : ℕ → Option ℚ) (l : TickLevel) : ℕ → Option ℚ :=
  fun t => if t = l.tick then (if eps < l.size then some l.size else none) else m t

/-- Aggregated ask-side state of an update stream. -/
def agg_asks (us : List TickUpdate) : ℕ → Option ℚ :=
  us.foldl (fun m u => u.asks.foldl apply_level m) (fun _ => none)

/-- Aggregated bid-side state of an update stream. -/
def agg_bids (us : List TickUpdate) : ℕ → Option ℚ :=
  us.foldl (fun m u => u.bids.foldl apply_level m) (fun _ => none)

/-- The live level at an ask tick as claim C1 words it: array liveness read as
`size ≥ 1e-15` rather than the code's strict test. -/
def live_ask_claimed (N : ℕ) (b : Book) (t : ℕ) : Option ℚ :=
  if b.asks_0_tick ≤ t ∧ t < b.asks_0_tick + N then
    if eps ≤ aget b.asks (t - b.asks_0_tick) then some (aget b.asks (t - b.asks_0_tick))
    else none
  else hget b.asks_heap t

/-- Aggregation of one level as claim C1 words it: a size below `1e-15` deletes. -/
def apply_level_claimed (m : ℕ → Option ℚ) (l : TickLevel) : ℕ → Option ℚ :=
  fun t => if t = l.tick then (if l.size < eps then none else some l.size) else m t

/-- Aggregated ask-side state of a stream as claim C1 words it. -/
def agg_asks_claimed (us : List TickUpdate) : ℕ → Option ℚ :=
  us.foldl (fun m u => u.asks.foldl apply_level_claimed m) (fun _ => none)

/-- `fast_tick_to_f64` modelled exactly over `ℚ`: the `10^-d` multiplier table entry
times the tick. -/
def price (d t : ℕ) : ℚ := t * (1 / 10 ^ d)

/-- `FloatLevel { price, size }`, sizes and prices as rationals. -/
structure FloatLevel where
  price : ℚ
  size : ℚ
deriving DecidableEq, Repr

/-- The `asks()` iterator: array slots from `best_ask_i` on, skipping sizes below
`EPSILON`, then the ask heap in ascending key order. -/
def asks_iter (N d : ℕ) (b : Book) : List FloatLevel :=
  (((List.range N).drop b.best_ask_i).filterMap fun i =>
      if aget b.asks i < eps then none
      else some ⟨price d (add32 b.asks_0_tick i), aget b.asks i⟩) ++
    b.asks_heap.map fun kv => ⟨price d kv.1, kv.2⟩

/-- The `bids()` iterator: array slots from `best_bid_i` on, then the bid heap in
reversed (descending) key order. -/
def bids_iter (N d : ℕ) (b : Book) : List FloatLevel :=
  (((List.range N).drop b.best_bid_i).filterMap fun i =>
      if aget b.bids i < eps then none
      else some ⟨price d (sub32 b.bids_0_tick i), aget b.bids i⟩) ++
    b.bids_heap.reverse.map fun kv => ⟨price d kv.1, kv.2⟩

/-- Ask-side state invariant holding between the inserts of an update and its
step C (and strengthened to `AskInv` after step C): array length, anchor and
best-index bounds, live slots carry in-range ticks, heap keys lie beyond the
window, the heap is sorted with no dead sizes, and every slot strictly below the
best index is dead. -/
structure AskMid (N E : ℕ) (b : Book) : Prop where
  alen : b.asks.length = N
  a0lt : b.asks_0_tick < W32
  best_le : b.best_ask_i ≤ 2 * E
  a8 : b.asks_0_tick + b.best_ask_i < W32
  a7 : ∀ i, eps ≤ aget b.asks i → b.asks_0_tick + i < W32
  hdom : ∀ kv ∈ b.asks_heap, b.asks_0_tick + N ≤ kv.1 ∧ kv.1 < W32
  hval : ∀ kv ∈ b.asks_heap, eps ≤ kv.2
  hsort : b.asks_heap.Pairwise (fun x y => x.1 < y.1)
  below : ∀ j < b.best_ask_i, ¬ eps < aget b.asks j

/-- Full ask-side invariant after a completed `process_tick_update`: additionally
the best index points at a live slot whenever any slot is live. -/
structure AskInv (N E : ℕ) (b : Book) extends AskMid N E b : Prop where
  bestOk : (∃ i, eps < aget b.asks i) → eps < aget b.asks b.best_ask_i

/-- Bid-side mirror of `AskMid`. -/
structure BidMid (N E : ℕ) (b : Book) : Prop where
  blen : b.bids.length = N
  b0lt : b.bids_0_tick < W32
  best_le : b.best_bid_i ≤ 2 * E
  b8 : b.best_bid_i ≤ b.bids_0_tick
  b7 : ∀ i, eps ≤ aget b.bids i → i ≤ b.bids_0_tick
  hdom : ∀ kv ∈ b.bids_heap, kv.1 + N ≤ b.bids_0_tick
  hval : ∀ kv ∈ b.bids_heap, eps ≤ kv.2
  hsort : b.bids_heap.Pairwise (fun x y => x.1 < y.1)
  below : ∀ j < b.best_bid_i, ¬ eps < aget b.bids j

/-- Bid-side mirror of `AskInv`. -/
structure BidInv (N E : ℕ) (b : Book) extends BidMid N E b : Prop where
  bestOk : (∃ i, eps < aget b.bids i) → eps < aget b.bids b.best_bid_i

/-- The whole state invariant of a reachable book. -/
def Inv (N E : ℕ) (b : Book) : Prop := AskInv N E b ∧ BidInv N E b

/-- Both heaps hold only sizes strictly above `eps` (preserved by streams whose
sizes never equal `eps`; used by the conservation claim). -/
def StrictHeaps (b : Book) : Prop :=
  (∀ kv ∈ b.asks_heap, eps < kv.2) ∧ (∀ kv ∈ b.bids_heap, eps < kv.2)

/- ------------------------------------------------------------------ -/
/- Theorems.                                                          -/
/- ------------------------------------------------------------------ -/

theorem eps_pos : 0 < eps := by decide

theorem add32_eq {a b : ℕ} (h : a + b < W32) : add32 a b = a + b := Nat.mod_eq_of_lt h

theorem sub32_eq {a b : ℕ} (hba : b ≤ a) (ha : a < W32) : sub32 a b = a - b := by
  unfold sub32
  rw [show a + W32 - b = a - b + W32 by omega, Nat.add_mod_right]
  exact Nat.mod_eq_of_lt (by omega)

theorem sub32_lt {a b : ℕ} : sub32 a b < W32 := Nat.mod_lt _ (by norm_num [W32])

theorem add32_lt {a b : ℕ} : add32 a b < W32 := Nat.mod_lt _ (by norm_num [W32])

theorem toU16_eq {a : ℕ} (h : a < W16) : toU16 a = a := Nat.mod_eq_of_lt h

theorem aget_nil (i : ℕ) : aget [] i = 0 := by simp [aget]

theorem aget_cons_zero (x : ℚ) (l : List ℚ) : aget (x :: l) 0 = x := rfl

theorem aget_cons_succ (x : ℚ) (l : List ℚ) (i : ℕ) : aget (x :: l) (i + 1) = aget l i := rfl

theorem aget_of_le {l : List ℚ} {i : ℕ} (h : l.length ≤ i) : aget l i = 0 := by
  simp [aget, List.getD, List.getElem?_eq_none h]

theorem aget_replicate (n i : ℕ) : aget (List.replicate n (0 : ℚ)) i = 0 := by
  induction n generalizing i with
  | zero => simp [aget]
  | succ n ih =>
      cases i with
      | zero => rfl
      | succ i => simpa [List.replicate_succ, aget_cons_succ] using ih i

theorem aget_set_eq {l : List ℚ} {i : ℕ} (h : i < l.length) (v : ℚ) :
    aget (l.set i v) i = v := by
  induction l generalizing i with
  | nil => simp at h
  | cons x xs ih =>
      cases i with
      | zero => rfl
      | succ i => exact ih (by simpa using h)

theorem aget_set_ne {l : List ℚ} {i j : ℕ} (h : i ≠ j) (v : ℚ) :
    aget (l.set i v) j = aget l j := by
  induction l generalizing i j with
  | nil => simp [List.set]
  | cons x xs ih =>
      cases i with
      | zero =>
          cases j with
          | zero => exact absurd rfl h
          | succ j => rfl
      | succ i =>
          cases j with
          | zero => rfl
          | succ j =>
              show aget (xs.set i v) j = aget xs j
              exact ih (by omega)

theorem aget_set {l : List ℚ} {i j : ℕ} (hi : i < l.length) (v : ℚ) :
    aget (l.set i v) j = if j = i then v else aget l j := by
  by_cases h : j = i
  · subst h; simp [aget_set_eq hi]
  · simp [h, aget_set_ne (fun hij => h hij.symm) v]

theorem hget_cons (kv : ℕ × ℚ) (rest : Heap) (k : ℕ) :
    hget (kv :: rest) k = if kv.1 = k then some kv.2 else hget rest k := rfl

theorem hget_hupsert (h : Heap) (k : ℕ) (v : ℚ) (k' : ℕ) :
    hget (hupsert h k v) k' = if k = k' then some v else hget h k' := by
  induction h with
  | nil => rfl
  | cons kv rest ih =>
      unfold hupsert
      by_cases h1 : k < kv.1
      · simp only [if_pos h1, hget_cons]
      · by_cases h2 : k = kv.1
        · subst h2
          simp only [if_neg h1, if_pos rfl, hget_cons]
          by_cases hk : kv.1 = k'
          · simp [hk, hget_cons]
          · simp [hk, hget_cons]
        · simp only [if_neg h1, if_neg h2, hget_cons, ih]
          by_cases hk : kv.1 = k'
          · simp [hk, show ¬ k = k' from by omega]
          · simp [hk]

theorem herase_sublist (h : Heap) (k : ℕ) : (herase h k).Sublist h := by
  induction h with
  | nil => simp [herase]
  | cons kv rest ih =>
      unfold herase
      by_cases h1 : kv.1 = k
      · simp [h1]
      · simpa [h1] using ih.cons₂ kv

theorem mem_herase {h : Heap} {k : ℕ} {x : ℕ × ℚ} (hx : x ∈ herase h k) : x ∈ h :=
  (herase_sublist h k).mem hx

theorem herase_pairwise {h : Heap} {k : ℕ}
    (hs : h.Pairwise (fun x y => x.1 < y.1)) :
    (herase h k).Pairwise (fun x y => x.1 < y.1) :=
  hs.sublist (herase_sublist h k)

theorem mem_hupsert {h : Heap} {k : ℕ} {v : ℚ} {x : ℕ × ℚ}
    (hx : x ∈ hupsert h k v) : x = (k, v) ∨ x ∈ h := by
  induction h with
  | nil => simpa [hupsert] using hx
  | cons kv rest ih =>
      unfold hupsert at hx
      by_cases h1 : k < kv.1
      · simp only [if_pos h1, List.mem_cons] at hx
        rcases hx with hx | hx | hx
        · exact Or.inl hx
        · exact Or.inr (by simp [hx])
        · exact Or.inr (by simp [hx])
      · by_cases h2 : k = kv.1
        · subst h2
          rw [if_neg h1, if_pos rfl] at hx
          rcases List.mem_cons.mp hx with hx | hx
          · exact Or.inl hx
          · exact Or.inr (List.mem_cons_of_mem _ hx)
        · simp only [if_neg h1, if_neg h2, List.mem_cons] at hx
          rcases hx with hx | hx
          · exact Or.inr (by simp [hx])
          · rcases ih hx with hx' | hx'
            · exact Or.inl hx'
            · exact Or.inr (by simp [hx'])

theorem hupsert_pairwise {h : Heap} {k : ℕ} {v : ℚ}
    (hs : h.Pairwise (fun x y => x.1 < y.1)) :
    (hupsert h k v).Pairwise (fun x y => x.1 < y.1) := by
  induction h with
  | nil => simp [hupsert]
  | cons kv rest ih =>
      rw [List.pairwise_cons] at hs
      obtain ⟨hkv, hrest⟩ := hs
      unfold hupsert
      by_cases h1 : k < kv.1
      · rw [if_pos h1]
        refine List.Pairwise.cons ?_ (List.Pairwise.cons hkv hrest)
        intro y hy
        rcases List.mem_cons.mp hy with hy | hy
        · subst hy; exact h1
        · exact lt_trans h1 (hkv y hy)
      · by_cases h2 : k = kv.1
        · subst h2
          rw [if_neg h1, if_pos rfl]
          exact List.Pairwise.cons hkv hrest
        · rw [if_neg h1, if_neg h2]
          refine List.Pairwise.cons ?_ (ih hrest)
          intro y hy
          rcases mem_hupsert hy with hy' | hy'
          · subst hy'; omega
          · exact hkv y hy'

theorem hget_eq_none {h : Heap} {k : ℕ} (hk : ∀ kv ∈ h, kv.1 ≠ k) : hget h k = none := by
  induction h with
  | nil => rfl
  | cons kv rest ih =>
      simp only [hget, hk kv (by simp), if_false]
      exact ih fun x hx => hk x (by simp [hx])

theorem hget_mem {h : Heap} {k : ℕ} {v : ℚ} (hv : hget h k = some v) : (k, v) ∈ h := by
  induction h with
  | nil => simp [hget] at hv
  | cons kv rest ih =>
      rw [hget_cons] at hv
      by_cases h1 : kv.1 = k
      · rw [if_pos h1, Option.some_inj] at hv
        have hkv : kv = (k, v) := Prod.ext h1 hv
        rw [← hkv]
        exact List.mem_cons_self kv rest
      · rw [if_neg h1] at hv
        exact List.mem_cons_of_mem _ (ih hv)

theorem hget_herase_ne {h : Heap} {k k' : ℕ} (hne : k' ≠ k) :
    hget (herase h k) k' = hget h k' := by
  induction h with
  | nil => rfl
  | cons kv rest ih =>
      unfold herase
      by_cases h1 : kv.1 = k
      · simp [h1, hget, show ¬ k = k' from fun hh => hne hh.symm]
      · simp [h1, hget, ih]

theorem hget_herase_self {h : Heap} {k : ℕ}
    (hs : h.Pairwise (fun x y => x.1 < y.1)) : hget (herase h k) k = none := by
  induction h with
  | nil => rfl
  | cons kv rest ih =>
      rw [List.pairwise_cons] at hs
      obtain ⟨hkv, hrest⟩ := hs
      unfold herase
      by_cases h1 : kv.1 = k
      · simp only [h1, if_pos rfl]
        exact hget_eq_none fun x hx => by have := hkv x hx; omega
      · simp [h1, hget, ih hrest]

theorem find_live_none {l : List ℚ} (h : find_live l = none) : ∀ j, ¬ eps < aget l j := by
  induction l with
  | nil => intro j; simp [aget_nil]; exact eps_pos.le
  | cons x xs ih =>
      unfold find_live at h
      by_cases hx : eps < x
      · simp [hx] at h
      · simp only [hx, if_false, Option.map_eq_none'] at h
        intro j
        cases j with
        | zero => simpa [aget_cons_zero] using hx
        | succ j => simpa [aget_cons_succ] using ih h j

theorem find_live_some {l : List ℚ} {i : ℕ} (h : find_live l = some i) :
    i < l.length ∧ eps < aget l i ∧ ∀ j < i, ¬ eps < aget l j := by
  induction l generalizing i with
  | nil => simp [find_live] at h
  | cons x xs ih =>
      unfold find_live at h
      by_cases hx : eps < x
      · simp [hx] at h
        subst h
        exact ⟨by simp, by simpa [aget_cons_zero] using hx, by omega⟩
      · simp only [hx, if_false, Option.map_eq_some'] at h
        obtain ⟨i', hi', rfl⟩ := h
        obtain ⟨h1, h2, h3⟩ := ih hi'
        refine ⟨by simpa using h1, by simpa [aget_cons_succ] using h2, ?_⟩
        intro j hj
        cases j with
        | zero => simpa [aget_cons_zero] using hx
        | succ j => simpa [aget_cons_succ] using h3 j (by omega)

theorem find_live_of_live {l : List ℚ} {i : ℕ} (h : eps < aget l i) :
    ∃ j, find_live l = some j := by
  cases hfl : find_live l with
  | none => exact absurd h (find_live_none hfl i)
  | some j => exact ⟨j, rfl⟩

theorem hget_none_forall {h : Heap} {t : ℕ} (hn : hget h t = none) :
    ∀ kv ∈ h, kv.1 ≠ t := by
  induction h with
  | nil => simp
  | cons kv rest ih =>
      rw [hget_cons] at hn
      by_cases h1 : kv.1 = t
      · simp [h1] at hn
      · rw [if_neg h1] at hn
        intro x hx
        rcases List.mem_cons.mp hx with hx | hx
        · subst hx; exact h1
        · exact ih hn x hx

theorem hget_none_of_sublist {h h' : Heap} {t : ℕ} (hs : h'.Sublist h)
    (hn : hget h t = none) : hget h' t = none :=
  hget_eq_none fun kv hkv => hget_none_forall hn kv (hs.mem hkv)

theorem add32_inj {a j k : ℕ} (hj : j < W32) (hk : k < W32)
    (h : add32 a j = add32 a k) : j = k := by
  unfold add32 at h
  unfold W32 at h hj hk
  omega

theorem sub32_inj {a j k : ℕ} (hj : j < W32) (hk : k < W32)
    (h : sub32 a j = sub32 a k) : j = k := by
  unfold sub32 at h
  unfold W32 at h hj hk
  omega

theorem evict_asks_length (a0 : ℕ) :
    ∀ (c i : ℕ) (arr : List ℚ) (h : Heap),
      (evict_asks a0 i c arr h).1.length = arr.length := by
  intro c
  induction c with
  | zero => intro i arr h; rfl
  | succ c ih =>
      intro i arr h
      unfold evict_asks
      by_cases hl : eps < aget arr i
      · rw [if_pos hl, ih]; simp
      · rw [if_neg hl, ih]

theorem evict_asks_aget (a0 : ℕ) :
    ∀ (c i : ℕ) (arr : List ℚ) (h : Heap) (j : ℕ),
      aget (evict_asks a0 i c arr h).1 j =
        if i ≤ j ∧ j < i + c ∧ eps < aget arr j then 0 else aget arr j := by
  intro c
  induction c with
  | zero =>
      intro i arr h j
      simp only [evict_asks]
      rw [if_neg (by omega)]
  | succ c ih =>
      intro i arr h j
      unfold evict_asks
      by_cases hl : eps < aget arr i
      · rw [if_pos hl, ih]
        have hlen : i < arr.length := by
          by_contra hc
          rw [aget_of_le (by omega)] at hl
          exact absurd hl (not_lt.mpr eps_pos.le)
        by_cases hij : j = i
        · subst hij
          rw [if_neg (by rintro ⟨hc1, -, -⟩; omega), aget_set_eq hlen,
            if_pos ⟨le_refl _, by omega, hl⟩]
        · rw [aget_set_ne (fun hh => hij hh.symm)]
          by_cases hcond : i + 1 ≤ j ∧ j < i + 1 + c ∧ eps < aget arr j
          · obtain ⟨hc1, hc2, hc3⟩ := hcond
            rw [if_pos ⟨hc1, hc2, hc3⟩, if_pos ⟨by omega, by omega, hc3⟩]
          · rw [if_neg hcond,
              if_neg (by rintro ⟨hd1, hd2, hd3⟩; exact hcond ⟨by omega, by omega, hd3⟩)]
      · rw [if_neg hl, ih]
        by_cases hcond : i + 1 ≤ j ∧ j < i + 1 + c ∧ eps < aget arr j
        · obtain ⟨hc1, hc2, hc3⟩ := hcond
          rw [if_pos ⟨hc1, hc2, hc3⟩, if_pos ⟨by omega, by omega, hc3⟩]
        · rw [if_neg hcond]
          by_cases hij : j = i
          · subst hij
            rw [if_neg (by rintro ⟨-, -, hd3⟩; exact hl hd3)]
          · rw [if_neg (by rintro ⟨hd1, hd2, hd3⟩; exact hcond ⟨by omega, by omega, hd3⟩)]

theorem evict_asks_hget_ne (a0 : ℕ) :
    ∀ (c i : ℕ) (arr : List ℚ) (h : Heap) (t : ℕ),
      (∀ j, i ≤ j → j < i + c → eps < aget arr j → add32 a0 j ≠ t) →
      hget (evict_asks a0 i c arr h).2 t = hget h t := by
  intro c
  induction c with
  | zero => intro i arr h t _; rfl
  | succ c ih =>
      intro i arr h t hne
      unfold evict_asks
      by_cases hl : eps < aget arr i
      · rw [if_pos hl]
        have hlen : i < arr.length := by
          by_contra hc
          rw [aget_of_le (by omega)] at hl
          exact absurd hl (not_lt.mpr eps_pos.le)
        rw [ih]
        · rw [hget_hupsert, if_neg (hne i (le_refl _) (by omega) hl)]
        · intro j hj1 hj2 hj3
          rw [aget_set_ne (by omega)] at hj3
          exact hne j (by omega) (by omega) hj3
      · rw [if_neg hl]
        rw [ih]
        intro j hj1 hj2 hj3
        exact hne j (by omega) (by omega) hj3

theorem evict_asks_hget_live (a0 : ℕ) :
    ∀ (c i : ℕ) (arr : List ℚ) (h : Heap) (j : ℕ),
      i ≤ j → j < i + c → eps < aget arr j →
      (∀ j', i ≤ j' → j' < i + c → eps < aget arr j' → a0 + j' < W32) →
      hget (evict_asks a0 i c arr h).2 (a0 + j) = some (aget arr j) := by
  intro c
  induction c with
  | zero => intro i arr h j h1 h2; exact absurd h2 (by omega)
  | succ c ih =>
      intro i arr h j h1 h2 h3 hw
      unfold evict_asks
      by_cases hl : eps < aget arr i
      · rw [if_pos hl]
        have hlen : i < arr.length := by
          by_contra hc
          rw [aget_of_le (by omega)] at hl
          exact absurd hl (not_lt.mpr eps_pos.le)
        by_cases hij : j = i
        · subst hij
          rw [evict_asks_hget_ne]
          · rw [add32_eq (hw j h1 (by omega) h3), hget_hupsert, if_pos rfl]
          · intro j' hj1 hj2 hj3
            rw [aget_set_ne (by omega)] at hj3
            rw [add32_eq (hw j' (by omega) (by omega) hj3)]
            omega
        · have h3' : eps < aget (arr.set i 0) j := by
            rw [aget_set_ne (fun hh => hij hh.symm)]; exact h3
          have := ih (i + 1) (arr.set i 0) (hupsert h (add32 a0 i) (aget arr i)) j
            (by omega) (by omega) h3'
            (by
              intro j' hj1 hj2 hj3
              rw [aget_set_ne (by omega)] at hj3
              exact hw j' (by omega) (by omega) hj3)
          rw [this, aget_set_ne (fun hh => hij hh.symm)]
      · rw [if_neg hl]
        have hij : j ≠ i := fun hh => hl (hh ▸ h3)
        exact ih (i + 1) arr h j (by omega) (by omega) h3
          (fun j' hj1 hj2 hj3 => hw j' (by omega) (by omega) hj3)

theorem evict_asks_heap_mem (a0 : ℕ) :
    ∀ (c i : ℕ) (arr : List ℚ) (h : Heap) (kv : ℕ × ℚ),
      kv ∈ (evict_asks a0 i c arr h).2 →
      kv ∈ h ∨ ∃ j, i ≤ j ∧ j < i + c ∧ eps < aget arr j ∧ kv = (add32 a0 j, aget arr j) := by
  intro c
  induction c with
  | zero => intro i arr h kv hkv; exact Or.inl hkv
  | succ c ih =>
      intro i arr h kv hkv
      unfold evict_asks at hkv
      by_cases hl : eps < aget arr i
      · rw [if_pos hl] at hkv
        rcases ih _ _ _ _ hkv with hm | ⟨j, hj1, hj2, hj3, hj4⟩
        · rcases mem_hupsert hm with hm' | hm'
          · exact Or.inr ⟨i, le_refl _, by omega, hl, hm'⟩
          · exact Or.inl hm'
        · rw [aget_set_ne (by omega)] at hj3 hj4
          exact Or.inr ⟨j, by omega, by omega, hj3, hj4⟩
      · rw [if_neg hl] at hkv
        rcases ih _ _ _ _ hkv with hm | ⟨j, hj1, hj2, hj3, hj4⟩
        · exact Or.inl hm
        · exact Or.inr ⟨j, by omega, by omega, hj3, hj4⟩

theorem evict_asks_pairwise (a0 : ℕ) :
    ∀ (c i : ℕ) (arr : List ℚ) (h : Heap),
      h.Pairwise (fun x y => x.1 < y.1) →
      (evict_asks a0 i c arr h).2.Pairwise (fun x y => x.1 < y.1) := by
  intro c
  induction c with
  | zero => intro i arr h hs; exact hs
  | succ c ih =>
      intro i arr h hs
      unfold evict_asks
      by_cases hl : eps < aget arr i
      · rw [if_pos hl]; exact ih _ _ _ (hupsert_pairwise hs)
      · rw [if_neg hl]; exact ih _ _ _ hs

theorem evict_bids_length (b0 : ℕ) :
    ∀ (c i : ℕ) (arr : List ℚ) (h : Heap),
      (evict_bids b0 i c arr h).1.length = arr.length := by
  intro c
  induction c with
  | zero => intro i arr h; rfl
  | succ c ih =>
      intro i arr h
      unfold evict_bids
      by_cases hl : eps < aget arr i
      · rw [if_pos hl, ih]; simp
      · rw [if_neg hl, ih]

theorem evict_bids_aget (b0 : ℕ) :
    ∀ (c i : ℕ) (arr : List ℚ) (h : Heap) (j : ℕ),
      aget (evict_bids b0 i c arr h).1 j =
        if i ≤ j ∧ j < i + c ∧ eps < aget arr j then 0 else aget arr j := by
  intro c
  induction c with
  | zero =>
      intro i arr h j
      simp only [evict_bids]
      rw [if_neg (by omega)]
  | succ c ih =>
      intro i arr h j
      unfold evict_bids
      by_cases hl : eps < aget arr i
      · rw [if_pos hl, ih]
        have hlen : i < arr.length := by
          by_contra hc
          rw [aget_of_le (by omega)] at hl
          exact absurd hl (not_lt.mpr eps_pos.le)
        by_cases hij : j = i
        · subst hij
          rw [if_neg (by rintro ⟨hc1, -, -⟩; omega), aget_set_eq hlen,
            if_pos ⟨le_refl _, by omega, hl⟩]
        · rw [aget_set_ne (fun hh => hij hh.symm)]
          by_cases hcond : i + 1 ≤ j ∧ j < i + 1 + c ∧ eps < aget arr j
          · obtain ⟨hc1, hc2, hc3⟩ := hcond
            rw [if_pos ⟨hc1, hc2, hc3⟩, if_pos ⟨by omega, by omega, hc3⟩]
          · rw [if_neg hcond,
              if_neg (by rintro ⟨hd1, hd2, hd3⟩; exact hcond ⟨by omega, by omega, hd3⟩)]
      · rw [if_neg hl, ih]
        by_cases hcond : i + 1 ≤ j ∧ j < i + 1 + c ∧ eps < aget arr j
        · obtain ⟨hc1, hc2, hc3⟩ := hcond
          rw [if_pos ⟨hc1, hc2, hc3⟩, if_pos ⟨by omega, by omega, hc3⟩]
        · rw [if_neg hcond]
          by_cases hij : j = i
          · subst hij
            rw [if_neg (by rintro ⟨-, -, hd3⟩; exact hl hd3)]
          · rw [if_neg (by rintro ⟨hd1, hd2, hd3⟩; exact hcond ⟨by omega, by omega, hd3⟩)]

theorem evict_bids_hget_ne (b0 : ℕ) :
    ∀ (c i : ℕ) (arr : List ℚ) (h : Heap) (t : ℕ),
      (∀ j, i ≤ j → j < i + c → eps < aget arr j → sub32 b0 j ≠ t) →
      hget (evict_bids b0 i c arr h).2 t = hget h t := by
  intro c
  induction c with
  | zero => intro i arr h t _; rfl
  | succ c ih =>
      intro i arr h t hne
      unfold evict_bids
      by_cases hl : eps < aget arr i
      · rw [if_pos hl]
        rw [ih]
        · rw [hget_hupsert, if_neg (hne i (le_refl _) (by omega) hl)]
        · intro j hj1 hj2 hj3
          rw [aget_set_ne (by omega)] at hj3
          exact hne j (by omega) (by omega) hj3
      · rw [if_neg hl]
        rw [ih]
        intro j hj1 hj2 hj3
        exact hne j (by omega) (by omega) hj3

theorem evict_bids_hget_live (b0 : ℕ) (hb0 : b0 < W32) :
    ∀ (c i : ℕ) (arr : List ℚ) (h : Heap) (j : ℕ),
      i ≤ j → j < i + c → eps < aget arr j →
      (∀ j', i ≤ j' → j' < i + c → eps < aget arr j' → j' ≤ b0) →
      hget (evict_bids b0 i c arr h).2 (b0 - j) = some (aget arr j) := by
  intro c
  induction c with
  | zero => intro i arr h j h1 h2; exact absurd h2 (by omega)
  | succ c ih =>
      intro i arr h j h1 h2 h3 hw
      unfold evict_bids
      by_cases hl : eps < aget arr i
      · rw [if_pos hl]
        by_cases hij : j = i
        · subst hij
          rw [evict_bids_hget_ne]
          · rw [sub32_eq (hw j h1 (by omega) h3) hb0, hget_hupsert, if_pos rfl]
          · intro j' hj1 hj2 hj3
            rw [aget_set_ne (by omega)] at hj3
            rw [sub32_eq (hw j' (by omega) (by omega) hj3) hb0]
            have hj'b := hw j' (by omega) (by omega) hj3
            have hjb := hw j h1 (by omega) h3
            omega
        · have h3' : eps < aget (arr.set i 0) j := by
            rw [aget_set_ne (fun hh => hij hh.symm)]; exact h3
          have := ih (i + 1) (arr.set i 0) (hupsert h (sub32 b0 i) (aget arr i)) j
            (by omega) (by omega) h3'
            (by
              intro j' hj1 hj2 hj3
              rw [aget_set_ne (by omega)] at hj3
              exact hw j' (by omega) (by omega) hj3)
          rw [this, aget_set_ne (fun hh => hij hh.symm)]
      · rw [if_neg hl]
        have hij : j ≠ i := fun hh => hl (hh ▸ h3)
        exact ih (i + 1) arr h j (by omega) (by omega) h3
          (fun j' hj1 hj2 hj3 => hw j' (by omega) (by omega) hj3)

theorem evict_bids_heap_mem (b0 : ℕ) :
    ∀ (c i : ℕ) (arr : List ℚ) (h : Heap) (kv : ℕ × ℚ),
      kv ∈ (evict_bids b0 i c arr h).2 →
      kv ∈ h ∨ ∃ j, i ≤ j ∧ j < i + c ∧ eps < aget arr j ∧ kv = (sub32 b0 j, aget arr j) := by
  intro c
  induction c with
  | zero => intro i arr h kv hkv; exact Or.inl hkv
  | succ c ih =>
      intro i arr h kv hkv
      unfold evict_bids at hkv
      by_cases hl : eps < aget arr i
      · rw [if_pos hl] at hkv
        rcases ih _ _ _ _ hkv with hm | ⟨j, hj1, hj2, hj3, hj4⟩
        · rcases mem_hupsert hm with hm' | hm'
          · exact Or.inr ⟨i, le_refl _, by omega, hl, hm'⟩
          · exact Or.inl hm'
        · rw [aget_set_ne (by omega)] at hj3 hj4
          exact Or.inr ⟨j, by omega, by omega, hj3, hj4⟩
      · rw [if_neg hl] at hkv
        rcases ih _ _ _ _ hkv with hm | ⟨j, hj1, hj2, hj3, hj4⟩
        · exact Or.inl hm
        · exact Or.inr ⟨j, by omega, by omega, hj3, hj4⟩

theorem evict_bids_pairwise (b0 : ℕ) :
    ∀ (c i : ℕ) (arr : List ℚ) (h : Heap),
      h.Pairwise (fun x y => x.1 < y.1) →
      (evict_bids b0 i c arr h).2.Pairwise (fun x y => x.1 < y.1) := by
  intro c
  induction c with
  | zero => intro i arr h hs; exact hs
  | succ c ih =>
      intro i arr h hs
      unfold evict_bids
      by_cases hl : eps < aget arr i
      · rw [if_pos hl]; exact ih _ _ _ (hupsert_pairwise hs)
      · rw [if_neg hl]; exact ih _ _ _ hs

theorem spread_up_length (shift : ℕ) :
    ∀ (c : ℕ) (arr : List ℚ), (spread_up shift c arr).length = arr.length := by
  intro c
  induction c with
  | zero => intro arr; rfl
  | succ c ih => intro arr; unfold spread_up; rw [ih]; simp

theorem spread_up_aget (shift : ℕ) (hsh : 1 ≤ shift) :
    ∀ (c : ℕ) (arr : List ℚ), shift + c ≤ arr.length → ∀ k,
      aget (spread_up shift c arr) k =
        if shift ≤ k ∧ k < shift + c then aget arr (k - shift)
        else if k < c then 0 else aget arr k := by
  intro c
  induction c with
  | zero =>
      intro arr hle k
      rw [if_neg (by omega), if_neg (by omega)]
      rfl
  | succ c ih =>
      intro arr hle k
      have hclen : c < arr.length := by omega
      have hcs : c + shift < arr.length := by omega
      have harr1 : ∀ m, aget ((arr.set (c + shift) (aget arr c)).set c 0) m =
          if m = c then 0 else if m = c + shift then aget arr c else aget arr m := by
        intro m
        rw [aget_set (by simpa using hclen) 0]
        by_cases hm : m = c
        · rw [if_pos hm, if_pos hm]
        · rw [if_neg hm, if_neg hm, aget_set hcs]
      unfold spread_up
      rw [ih _ (by simp; omega)]
      by_cases hA : shift ≤ k ∧ k < shift + c
      · rw [if_pos hA, if_pos ⟨hA.1, by omega⟩, harr1, if_neg (by omega), if_neg (by omega)]
      · by_cases hB : k = shift + c
        · rw [if_neg hA, if_neg (by omega), harr1, if_neg (by omega), if_pos (by omega),
            if_pos ⟨by omega, by omega⟩]
          congr 1
          omega
        · by_cases hC : k < c
          · rw [if_neg hA, if_pos hC, if_neg (by omega), if_pos (by omega)]
          · by_cases hD : k = c
            · subst hD
              have hks : ¬ shift ≤ k := by omega
              rw [if_neg hA, if_neg (by omega), harr1, if_pos rfl, if_neg (by omega),
                if_pos (by omega)]
            · rw [if_neg hA, if_neg (by omega), harr1, if_neg hD, if_neg (by omega),
                if_neg (by rintro ⟨h1, h2⟩; exact hA ⟨h1, by omega⟩), if_neg (by omega)]

theorem compact_copy_length (shift : ℕ) :
    ∀ (c i : ℕ) (arr : List ℚ), (compact_copy shift i c arr).length = arr.length := by
  intro c
  induction c with
  | zero => intro i arr; rfl
  | succ c ih => intro i arr; unfold compact_copy; rw [ih]; simp

theorem compact_copy_aget (shift : ℕ) :
    ∀ (c i : ℕ) (arr : List ℚ), i + c ≤ arr.length → ∀ k,
      aget (compact_copy shift i c arr) k =
        if i ≤ k ∧ k < i + c then aget arr (k + shift) else aget arr k := by
  intro c
  induction c with
  | zero =>
      intro i arr hle k
      rw [if_neg (by omega)]
      rfl
  | succ c ih =>
      intro i arr hle k
      have hilen : i < arr.length := by omega
      have harr1 : ∀ m, aget (arr.set i (aget arr (i + shift))) m =
          if m = i then aget arr (i + shift) else aget arr m := fun m => aget_set hilen _
      unfold compact_copy
      rw [ih _ _ (by simp; omega)]
      by_cases hA : i + 1 ≤ k ∧ k < i + 1 + c
      · rw [if_pos hA, if_pos ⟨by omega, by omega⟩, harr1, if_neg (by omega)]
      · by_cases hB : k = i
        · subst hB
          rw [if_neg hA, if_pos ⟨le_refl _, by omega⟩, harr1, if_pos rfl]
        · rw [if_neg hA, harr1, if_neg hB, if_neg (by rintro ⟨h1, h2⟩; exact hA ⟨by omega, by omega⟩)]

theorem promote_asks_length (a0 : ℕ) :
    ∀ (c i : ℕ) (arr : List ℚ) (h : Heap),
      (promote_asks a0 i c arr h).1.length = arr.length := by
  intro c
  induction c with
  | zero => intro i arr h; rfl
  | succ c ih =>
      intro i arr h
      unfold promote_asks
      cases hkey : hget h (add32 a0 i) with
      | some sz => simp only [ih]; simp
      | none => simp only [ih]; simp

theorem promote_asks_heap_sublist (a0 : ℕ) :
    ∀ (c i : ℕ) (arr : List ℚ) (h : Heap), (promote_asks a0 i c arr h).2.Sublist h := by
  intro c
  induction c with
  | zero => intro i arr h; exact List.Sublist.refl _
  | succ c ih =>
      intro i arr h
      unfold promote_asks
      cases hkey : hget h (add32 a0 i) with
      | some sz => exact (ih _ _ _).trans (herase_sublist _ _)
      | none => exact ih _ _ _

theorem promote_asks_aget (a0 : ℕ) :
    ∀ (c i : ℕ) (arr : List ℚ) (h : Heap), i + c ≤ arr.length → i + c < W32 →
      h.Pairwise (fun x y => x.1 < y.1) → ∀ k,
      aget (promote_asks a0 i c arr h).1 k =
        if i ≤ k ∧ k < i + c then (hget h (add32 a0 k)).getD 0 else aget arr k := by
  intro c
  induction c with
  | zero =>
      intro i arr h hle hW hs k
      rw [if_neg (by omega)]
      rfl
  | succ c ih =>
      intro i arr h hle hW hs k
      have hilen : i < arr.length := by omega
      unfold promote_asks
      cases hkey : hget h (add32 a0 i) with
      | some sz =>
          rw [ih _ _ _ (by simp; omega) (by omega) (herase_pairwise hs)]
          by_cases hB : k = i
          · subst hB
            rw [if_neg (by rintro ⟨h1, h2⟩; omega), if_pos ⟨le_refl _, by omega⟩, hkey,
              aget_set_eq hilen]
            rfl
          · by_cases hA : i + 1 ≤ k ∧ k < i + 1 + c
            · obtain ⟨hA1, hA2⟩ := hA
              rw [if_pos ⟨hA1, hA2⟩,
                hget_herase_ne (fun hh => by
                  have := @add32_inj a0 _ _ (by omega) (by omega) hh
                  omega),
                if_pos ⟨by omega, by omega⟩]
            · rw [if_neg hA, aget_set_ne (fun hh => hB hh.symm),
                if_neg (by rintro ⟨h1, h2⟩; exact hA ⟨by omega, by omega⟩)]
      | none =>
          rw [ih _ _ _ (by simp; omega) (by omega) hs]
          by_cases hB : k = i
          · subst hB
            rw [if_neg (by rintro ⟨h1, h2⟩; omega), if_pos ⟨le_refl _, by omega⟩, hkey,
              aget_set_eq hilen]
            rfl
          · by_cases hA : i + 1 ≤ k ∧ k < i + 1 + c
            · obtain ⟨hA1, hA2⟩ := hA
              rw [if_pos ⟨hA1, hA2⟩, if_pos ⟨by omega, by omega⟩]
            · rw [if_neg hA, aget_set_ne (fun hh => hB hh.symm),
                if_neg (by rintro ⟨h1, h2⟩; exact hA ⟨by omega, by omega⟩)]

theorem promote_asks_hget_ne (a0 : ℕ) :
    ∀ (c i : ℕ) (arr : List ℚ) (h : Heap) (t : ℕ),
      (∀ j, i ≤ j → j < i + c → add32 a0 j ≠ t) →
      hget (promote_asks a0 i c arr h).2 t = hget h t := by
  intro c
  induction c with
  | zero => intro i arr h t _; rfl
  | succ c ih =>
      intro i arr h t hne
      unfold promote_asks
      cases hkey : hget h (add32 a0 i) with
      | some sz =>
          rw [ih _ _ _ _ (fun j h1 h2 => hne j (by omega) (by omega)),
            hget_herase_ne (fun hh => hne i (le_refl _) (by omega) hh.symm)]
      | none => exact ih _ _ _ _ fun j h1 h2 => hne j (by omega) (by omega)

theorem promote_asks_hget_self (a0 : ℕ) :
    ∀ (c i : ℕ) (arr : List ℚ) (h : Heap), i + c < W32 →
      h.Pairwise (fun x y => x.1 < y.1) → ∀ j, i ≤ j → j < i + c →
      hget (promote_asks a0 i c arr h).2 (add32 a0 j) = none := by
  intro c
  induction c with
  | zero => intro i arr h hW hs j h1 h2; exact absurd h2 (by omega)
  | succ c ih =>
      intro i arr h hW hs j h1 h2
      unfold promote_asks
      cases hkey : hget h (add32 a0 i) with
      | some sz =>
          by_cases hij : j = i
          · subst hij
            exact hget_none_of_sublist (promote_asks_heap_sublist a0 c (j + 1) _ _)
              (hget_herase_self hs)
          · exact ih _ _ _ (by omega) (herase_pairwise hs) j (by omega) (by omega)
      | none =>
          by_cases hij : j = i
          · subst hij
            exact hget_none_of_sublist (promote_asks_heap_sublist a0 c (j + 1) _ _) hkey
          · exact ih _ _ _ (by omega) hs j (by omega) (by omega)

theorem promote_bids_length (b0 : ℕ) :
    ∀ (c i : ℕ) (arr : List ℚ) (h : Heap),
      (promote_bids b0 i c arr h).1.length = arr.length := by
  intro c
  induction c with
  | zero => intro i arr h; rfl
  | succ c ih =>
      intro i arr h
      unfold promote_bids
      cases hkey : hget h (sub32 b0 i) with
      | some sz => simp only [ih]; simp
      | none => simp only [ih]; simp

theorem promote_bids_heap_sublist (b0 : ℕ) :
    ∀ (c i : ℕ) (arr : List ℚ) (h : Heap), (promote_bids b0 i c arr h).2.Sublist h := by
  intro c
  induction c with
  | zero => intro i arr h; exact List.Sublist.refl _
  | succ c ih =>
      intro i arr h
      unfold promote_bids
      cases hkey : hget h (sub32 b0 i) with
      | some sz => exact (ih _ _ _).trans (herase_sublist _ _)
      | none => exact ih _ _ _

theorem promote_bids_aget (b0 : ℕ) :
    ∀ (c i : ℕ) (arr : List ℚ) (h : Heap), i + c ≤ arr.length → i + c < W32 →
      h.Pairwise (fun x y => x.1 < y.1) → ∀ k,
      aget (promote_bids b0 i c arr h).1 k =
        if i ≤ k ∧ k < i + c then (hget h (sub32 b0 k)).getD 0 else aget arr k := by
  intro c
  induction c with
  | zero =>
      intro i arr h hle hW hs k
      rw [if_neg (by omega)]
      rfl
  | succ c ih =>
      intro i arr h hle hW hs k
      have hilen : i < arr.length := by omega
      unfold promote_bids
      cases hkey : hget h (sub32 b0 i) with
      | some sz =>
          rw [ih _ _ _ (by simp; omega) (by omega) (herase_pairwise hs)]
          by_cases hB : k = i
          · subst hB
            rw [if_neg (by rintro ⟨h1, h2⟩; omega), if_pos ⟨le_refl _, by omega⟩, hkey,
              aget_set_eq hilen]
            rfl
          · by_cases hA : i + 1 ≤ k ∧ k < i + 1 + c
            · obtain ⟨hA1, hA2⟩ := hA
              rw [if_pos ⟨hA1, hA2⟩,
                hget_herase_ne (fun hh => by
                  have := @sub32_inj b0 _ _ (by omega) (by omega) hh
                  omega),
                if_pos ⟨by omega, by omega⟩]
            · rw [if_neg hA, aget_set_ne (fun hh => hB hh.symm),
                if_neg (by rintro ⟨h1, h2⟩; exact hA ⟨by omega, by omega⟩)]
      | none =>
          rw [ih _ _ _ (by simp; omega) (by omega) hs]
          by_cases hB : k = i
          · subst hB
            rw [if_neg (by rintro ⟨h1, h2⟩; omega), if_pos ⟨le_refl _, by omega⟩, hkey,
              aget_set_eq hilen]
            rfl
          · by_cases hA : i + 1 ≤ k ∧ k < i + 1 + c
            · obtain ⟨hA1, hA2⟩ := hA
              rw [if_pos ⟨hA1, hA2⟩, if_pos ⟨by omega, by omega⟩]
            · rw [if_neg hA, aget_set_ne (fun hh => hB hh.symm),
                if_neg (by rintro ⟨h1, h2⟩; exact hA ⟨by omega, by omega⟩)]

theorem promote_bids_hget_ne (b0 : ℕ) :
    ∀ (c i : ℕ) (arr : List ℚ) (h : Heap) (t : ℕ),
      (∀ j, i ≤ j → j < i + c → sub32 b0 j ≠ t) →
      hget (promote_bids b0 i c arr h).2 t = hget h t := by
  intro c
  induction c with
  | zero => intro i arr h t _; rfl
  | succ c ih =>
      intro i arr h t hne
      unfold promote_bids
      cases hkey : hget h (sub32 b0 i) with
      | some sz =>
          rw [ih _ _ _ _ (fun j h1 h2 => hne j (by omega) (by omega)),
            hget_herase_ne (fun hh => hne i (le_refl _) (by omega) hh.symm)]
      | none => exact ih _ _ _ _ fun j h1 h2 => hne j (by omega) (by omega)

theorem promote_bids_hget_self (b0 : ℕ) :
    ∀ (c i : ℕ) (arr : List ℚ) (h : Heap), i + c < W32 →
      h.Pairwise (fun x y => x.1 < y.1) → ∀ j, i ≤ j → j < i + c →
      hget (promote_bids b0 i c arr h).2 (sub32 b0 j) = none := by
  intro c
  induction c with
  | zero => intro i arr h hW hs j h1 h2; exact absurd h2 (by omega)
  | succ c ih =>
      intro i arr h hW hs j h1 h2
      unfold promote_bids
      cases hkey : hget h (sub32 b0 i) with
      | some sz =>
          by_cases hij : j = i
          · subst hij
            exact hget_none_of_sublist (promote_bids_heap_sublist b0 c (j + 1) _ _)
              (hget_herase_self hs)
          · exact ih _ _ _ (by omega) (herase_pairwise hs) j (by omega) (by omega)
      | none =>
          by_cases hij : j = i
          · subst hij
            exact hget_none_of_sublist (promote_bids_heap_sublist b0 c (j + 1) _ _) hkey
          · exact ih _ _ _ (by omega) hs j (by omega) (by omega)

theorem insert_ask_frame (N : ℕ) (b : Book) (l : TickLevel) :
    (insert_ask N b l).sequence_id = b.sequence_id ∧
    (insert_ask N b l).asks_0_tick = b.asks_0_tick ∧
    (insert_ask N b l).best_ask_i = b.best_ask_i ∧
    (insert_ask N b l).bids_0_tick = b.bids_0_tick ∧
    (insert_ask N b l).best_bid_i = b.best_bid_i ∧
    (insert_ask N b l).bids = b.bids ∧
    (insert_ask N b l).bids_heap = b.bids_heap := by
  unfold insert_ask
  dsimp only
  split_ifs <;> exact ⟨rfl, rfl, rfl, rfl, rfl, rfl, rfl⟩

theorem insert_bid_frame (N : ℕ) (b : Book) (l : TickLevel) :
    (insert_bid N b l).sequence_id = b.sequence_id ∧
    (insert_bid N b l).bids_0_tick = b.bids_0_tick ∧
    (insert_bid N b l).best_bid_i = b.best_bid_i ∧
    (insert_bid N b l).asks_0_tick = b.asks_0_tick ∧
    (insert_bid N b l).best_ask_i = b.best_ask_i ∧
    (insert_bid N b l).asks = b.asks ∧
    (insert_bid N b l).asks_heap = b.asks_heap := by
  unfold insert_bid
  dsimp only
  split_ifs <;> exact ⟨rfl, rfl, rfl, rfl, rfl, rfl, rfl⟩

theorem insert_ask_length (N : ℕ) (b : Book) (l : TickLevel) :
    (insert_ask N b l).asks.length = b.asks.length := by
  unfold insert_ask
  dsimp only
  split_ifs <;> simp

theorem insert_bid_length (N : ℕ) (b : Book) (l : TickLevel) :
    (insert_bid N b l).bids.length = b.bids.length := by
  unfold insert_bid
  dsimp only
  split_ifs <;> simp

theorem insert_ask_aget (N : ℕ) (b : Book) (l : TickLevel)
    (ht : l.tick < W32) (hge : b.asks_0_tick ≤ l.tick) (halen : b.asks.length = N) (j : ℕ) :
    aget (insert_ask N b l).asks j =
      if l.tick - b.asks_0_tick < N ∧ j = l.tick - b.asks_0_tick then l.size
      else aget b.asks j := by
  unfold insert_ask
  dsimp only
  rw [sub32_eq hge ht]
  by_cases hN : l.tick - b.asks_0_tick < N
  · rw [if_pos hN]
    show aget (b.asks.set (l.tick - b.asks_0_tick) l.size) j = _
    by_cases hj : j = l.tick - b.asks_0_tick
    · subst hj
      rw [aget_set_eq (by omega) _, if_pos ⟨hN, rfl⟩]
    · rw [aget_set_ne (fun hh => hj hh.symm), if_neg (by rintro ⟨-, h2⟩; exact hj h2)]
  · rw [if_neg hN,
      if_neg (show ¬ (l.tick - b.asks_0_tick < N ∧ j = l.tick - b.asks_0_tick) from
        fun hc => hN hc.1)]
    split_ifs <;> rfl

theorem insert_bid_aget (N : ℕ) (b : Book) (l : TickLevel)
    (hb0 : b.bids_0_tick < W32) (hle : l.tick ≤ b.bids_0_tick)
    (halen : b.bids.length = N) (j : ℕ) :
    aget (insert_bid N b l).bids j =
      if b.bids_0_tick - l.tick < N ∧ j = b.bids_0_tick - l.tick then l.size
      else aget b.bids j := by
  unfold insert_bid
  dsimp only
  rw [sub32_eq hle hb0]
  by_cases hN : b.bids_0_tick - l.tick < N
  · rw [if_pos hN]
    show aget (b.bids.set (b.bids_0_tick - l.tick) l.size) j = _
    by_cases hj : j = b.bids_0_tick - l.tick
    · subst hj
      rw [aget_set_eq (by omega) _, if_pos ⟨hN, rfl⟩]
    · rw [aget_set_ne (fun hh => hj hh.symm), if_neg (by rintro ⟨-, h2⟩; exact hj h2)]
  · rw [if_neg hN,
      if_neg (show ¬ (b.bids_0_tick - l.tick < N ∧ j = b.bids_0_tick - l.tick) from
        fun hc => hN hc.1)]
    split_ifs <;> rfl

theorem insert_ask_hget (N : ℕ) (b : Book) (l : TickLevel)
    (ht : l.tick < W32) (hge : b.asks_0_tick ≤ l.tick)
    (hs : b.asks_heap.Pairwise (fun x y => x.1 < y.1)) (t : ℕ) :
    hget (insert_ask N b l).asks_heap t =
      if l.tick - b.asks_0_tick < N then hget b.asks_heap t
      else if t = l.tick then (if l.size < eps then none else some l.size)
      else hget b.asks_heap t := by
  unfold insert_ask
  dsimp only
  rw [sub32_eq hge ht]
  by_cases hN : l.tick - b.asks_0_tick < N
  · rw [if_pos hN, if_pos hN]
  · rw [if_neg hN, if_neg hN]
    by_cases hsz : l.size < eps
    · rw [if_pos hsz]
      show hget (herase b.asks_heap l.tick) t = _
      by_cases htl : t = l.tick
      · subst htl
        rw [if_pos rfl, if_pos hsz, hget_herase_self hs]
      · rw [if_neg htl, hget_herase_ne htl]
    · rw [if_neg hsz]
      show hget (hupsert b.asks_heap l.tick l.size) t = _
      rw [hget_hupsert]
      by_cases htl : t = l.tick
      · rw [if_pos htl.symm, if_pos htl, if_neg hsz]
      · rw [if_neg (fun hh => htl hh.symm), if_neg htl]

theorem insert_bid_hget (N : ℕ) (b : Book) (l : TickLevel)
    (hb0 : b.bids_0_tick < W32) (hle : l.tick ≤ b.bids_0_tick)
    (hs : b.bids_heap.Pairwise (fun x y => x.1 < y.1)) (t : ℕ) :
    hget (insert_bid N b l).bids_heap t =
      if b.bids_0_tick - l.tick < N then hget b.bids_heap t
      else if t = l.tick then (if l.size < eps then none else some l.size)
      else hget b.bids_heap t := by
  unfold insert_bid
  dsimp only
  rw [sub32_eq hle hb0]
  by_cases hN : b.bids_0_tick - l.tick < N
  · rw [if_pos hN, if_pos hN]
  · rw [if_neg hN, if_neg hN]
    by_cases hsz : l.size < eps
    · rw [if_pos hsz]
      show hget (herase b.bids_heap l.tick) t = _
      by_cases htl : t = l.tick
      · subst htl
        rw [if_pos rfl, if_pos hsz, hget_herase_self hs]
      · rw [if_neg htl, hget_herase_ne htl]
    · rw [if_neg hsz]
      show hget (hupsert b.bids_heap l.tick l.size) t = _
      rw [hget_hupsert]
      by_cases htl : t = l.tick
      · rw [if_pos htl.symm, if_pos htl, if_neg hsz]
      · rw [if_neg (fun hh => htl hh.symm), if_neg htl]

theorem insert_ask_heap_mem (N : ℕ) (b : Book) (l : TickLevel) {kv : ℕ × ℚ}
    (hkv : kv ∈ (insert_ask N b l).asks_heap) :
    kv ∈ b.asks_heap ∨ (kv = (l.tick, l.size) ∧ ¬ sub32 l.tick b.asks_0_tick < N ∧ ¬ l.size < eps) := by
  unfold insert_ask at hkv
  dsimp only at hkv
  by_cases hN : sub32 l.tick b.asks_0_tick < N
  · rw [if_pos hN] at hkv; exact Or.inl hkv
  · rw [if_neg hN] at hkv
    by_cases hsz : l.size < eps
    · rw [if_pos hsz] at hkv
      exact Or.inl (mem_herase hkv)
    · rw [if_neg hsz] at hkv
      rcases mem_hupsert hkv with hm | hm
      · exact Or.inr ⟨hm, hN, hsz⟩
      · exact Or.inl hm

theorem insert_bid_heap_mem (N : ℕ) (b : Book) (l : TickLevel) {kv : ℕ × ℚ}
    (hkv : kv ∈ (insert_bid N b l).bids_heap) :
    kv ∈ b.bids_heap ∨ (kv = (l.tick, l.size) ∧ ¬ sub32 b.bids_0_tick l.tick < N ∧ ¬ l.size < eps) := by
  unfold insert_bid at hkv
  dsimp only at hkv
  by_cases hN : sub32 b.bids_0_tick l.tick < N
  · rw [if_pos hN] at hkv; exact Or.inl hkv
  · rw [if_neg hN] at hkv
    by_cases hsz : l.size < eps
    · rw [if_pos hsz] at hkv
      exact Or.inl (mem_herase hkv)
    · rw [if_neg hsz] at hkv
      rcases mem_hupsert hkv with hm | hm
      · exact Or.inr ⟨hm, hN, hsz⟩
      · exact Or.inl hm

theorem insert_ask_pairwise (N : ℕ) (b : Book) (l : TickLevel)
    (hs : b.asks_heap.Pairwise (fun x y => x.1 < y.1)) :
    (insert_ask N b l).asks_heap.Pairwise (fun x y => x.1 < y.1) := by
  unfold insert_ask
  dsimp only
  split_ifs
  · exact hs
  · exact herase_pairwise hs
  · exact hupsert_pairwise hs

theorem insert_bid_pairwise (N : ℕ) (b : Book) (l : TickLevel)
    (hs : b.bids_heap.Pairwise (fun x y => x.1 < y.1)) :
    (insert_bid N b l).bids_heap.Pairwise (fun x y => x.1 < y.1) := by
  unfold insert_bid
  dsimp only
  split_ifs
  · exact hs
  · exact herase_pairwise hs
  · exact hupsert_pairwise hs

theorem spread_up_zero (shift : ℕ) (arr : List ℚ) : spread_up shift 0 arr = arr := rfl

theorem rebalance_asks_lower_frame (N E : ℕ) (b : Book) (t0 : ℕ) :
    (rebalance_asks_lower N E b t0).sequence_id = b.sequence_id ∧
    (rebalance_asks_lower N E b t0).asks_0_tick = t0 - E ∧
    (rebalance_asks_lower N E b t0).best_ask_i = b.best_ask_i ∧
    (rebalance_asks_lower N E b t0).bids_0_tick = b.bids_0_tick ∧
    (rebalance_asks_lower N E b t0).best_bid_i = b.best_bid_i ∧
    (rebalance_asks_lower N E b t0).bids = b.bids ∧
    (rebalance_asks_lower N E b t0).bids_heap = b.bids_heap :=
  ⟨rfl, rfl, rfl, rfl, rfl, rfl, rfl⟩

theorem rebalance_asks_lower_length (N E : ℕ) (b : Book) (t0 : ℕ) :
    (rebalance_asks_lower N E b t0).asks.length = b.asks.length := by
  unfold rebalance_asks_lower
  dsimp only
  rw [spread_up_length, evict_asks_length]

theorem rebalance_asks_lower_aget (N E : ℕ) (b : Book) (t0 : ℕ)
    (halen : b.asks.length = N) (ha0 : b.asks_0_tick < W32) (hlow : t0 < b.asks_0_tick)
    (k : ℕ) :
    aget (rebalance_asks_lower N E b t0).asks k =
      if b.asks_0_tick - (t0 - E) ≤ k ∧ k < N then
        aget b.asks (k - (b.asks_0_tick - (t0 - E)))
      else if k < N - (b.asks_0_tick - (t0 - E)) then 0
      else if k < N then (if eps < aget b.asks k then 0 else aget b.asks k)
      else aget b.asks k := by
  have hsub : sub32 b.asks_0_tick (t0 - E) = b.asks_0_tick - (t0 - E) :=
    sub32_eq (by omega) ha0
  unfold rebalance_asks_lower
  dsimp only
  rw [hsub]
  set S := b.asks_0_tick - (t0 - E) with hSdef
  have hS1 : 1 ≤ S := by omega
  by_cases hNS : N ≤ S
  · rw [if_pos hNS, spread_up_zero, evict_asks_aget]
    by_cases hkN : k < N
    · by_cases hl : eps < aget b.asks k
      · rw [if_pos (show 0 ≤ k ∧ k < 0 + (N - 0) ∧ eps < aget b.asks k from
            ⟨by omega, by omega, hl⟩),
          if_neg (show ¬ (S ≤ k ∧ k < N) from by omega),
          if_neg (show ¬ k < N - S from by omega), if_pos hkN, if_pos hl]
      · rw [if_neg (show ¬ (0 ≤ k ∧ k < 0 + (N - 0) ∧ eps < aget b.asks k) from by
            rintro ⟨-, -, hd⟩; exact hl hd),
          if_neg (show ¬ (S ≤ k ∧ k < N) from by omega),
          if_neg (show ¬ k < N - S from by omega), if_pos hkN, if_neg hl]
    · rw [if_neg (show ¬ (0 ≤ k ∧ k < 0 + (N - 0) ∧ eps < aget b.asks k) from by
          rintro ⟨-, hd, -⟩; omega),
        if_neg (show ¬ (S ≤ k ∧ k < N) from by omega),
        if_neg (show ¬ k < N - S from by omega), if_neg hkN]
  · rw [if_neg hNS,
      spread_up_aget S hS1 (N - S) _ (by rw [evict_asks_length]; omega)]
    by_cases hc1 : S ≤ k ∧ k < N
    · obtain ⟨h1, h2⟩ := hc1
      rw [if_pos (show S ≤ k ∧ k < S + (N - S) from ⟨h1, by omega⟩), evict_asks_aget,
        if_neg (show ¬ (N - S ≤ k - S ∧ k - S < N - S + (N - (N - S)) ∧
            eps < aget b.asks (k - S)) from by rintro ⟨hd, -, -⟩; omega),
        if_pos ⟨h1, h2⟩]
    · by_cases hc2 : k < N - S
      · rw [if_neg (show ¬ (S ≤ k ∧ k < S + (N - S)) from by omega),
          if_pos hc2, if_neg (show ¬ (S ≤ k ∧ k < N) from by omega), if_pos hc2]
      · rw [if_neg (show ¬ (S ≤ k ∧ k < S + (N - S)) from by omega),
          if_neg hc2, evict_asks_aget]
        by_cases hc3 : k < N
        · by_cases hl : eps < aget b.asks k
          · rw [if_pos (show N - S ≤ k ∧ k < N - S + (N - (N - S)) ∧ eps < aget b.asks k from
                ⟨by omega, by omega, hl⟩),
              if_neg (show ¬ (S ≤ k ∧ k < N) from by omega), if_neg hc2, if_pos hc3,
              if_pos hl]
          · rw [if_neg (show ¬ (N - S ≤ k ∧ k < N - S + (N - (N - S)) ∧
                  eps < aget b.asks k) from by rintro ⟨-, -, hd⟩; exact hl hd),
              if_neg (show ¬ (S ≤ k ∧ k < N) from by omega), if_neg hc2, if_pos hc3,
              if_neg hl]
        · rw [if_neg (show ¬ (N - S ≤ k ∧ k < N - S + (N - (N - S)) ∧
                eps < aget b.asks k) from by rintro ⟨-, hd, -⟩; omega),
            if_neg (show ¬ (S ≤ k ∧ k < N) from by omega), if_neg hc2, if_neg hc3]

theorem rebalance_asks_lower_hget (N E : ℕ) (b : Book) (t0 : ℕ)
    (halen : b.asks.length = N) (ha0 : b.asks_0_tick < W32) (hlow : t0 < b.asks_0_tick)
    (ha7 : ∀ i, eps ≤ aget b.asks i → b.asks_0_tick + i < W32)
    (t : ℕ) (htW : t < W32) :
    hget (rebalance_asks_lower N E b t0).asks_heap t =
      if b.asks_0_tick ≤ t ∧ t < b.asks_0_tick + N ∧
          N - (b.asks_0_tick - (t0 - E)) ≤ t - b.asks_0_tick ∧
          eps < aget b.asks (t - b.asks_0_tick) then
        some (aget b.asks (t - b.asks_0_tick))
      else hget b.asks_heap t := by
  have hsub : sub32 b.asks_0_tick (t0 - E) = b.asks_0_tick - (t0 - E) :=
    sub32_eq (by omega) ha0
  unfold rebalance_asks_lower
  dsimp only
  rw [hsub]
  set S := b.asks_0_tick - (t0 - E) with hSdef
  rw [show (if N ≤ S then 0 else N - S) = N - S from by split <;> omega]
  have hw : ∀ j', N - S ≤ j' → j' < N - S + (N - (N - S)) → eps < aget b.asks j' →
      b.asks_0_tick + j' < W32 := fun j' _ _ hl => ha7 j' hl.le
  by_cases hc : b.asks_0_tick ≤ t ∧ t < b.asks_0_tick + N ∧
      N - S ≤ t - b.asks_0_tick ∧ eps < aget b.asks (t - b.asks_0_tick)
  · obtain ⟨h1, h2, h3, h4⟩ := hc
    have hlive := evict_asks_hget_live b.asks_0_tick (N - (N - S)) (N - S) b.asks b.asks_heap
      (t - b.asks_0_tick) h3 (by omega) h4 hw
    rw [show b.asks_0_tick + (t - b.asks_0_tick) = t from by omega] at hlive
    rw [if_pos ⟨h1, h2, h3, h4⟩, hlive]
  · rw [if_neg hc, evict_asks_hget_ne]
    intro j hj1 hj2 hj3
    rw [add32_eq (ha7 j hj3.le)]
    intro hjt
    exact hc ⟨by omega, by omega, by omega, by rwa [show t - b.asks_0_tick = j from by omega]⟩

theorem rebalance_asks_lower_heap_mem (N E : ℕ) (b : Book) (t0 : ℕ)
    (ha0 : b.asks_0_tick < W32) (hlow : t0 < b.asks_0_tick) {kv : ℕ × ℚ}
    (hkv : kv ∈ (rebalance_asks_lower N E b t0).asks_heap) :
    kv ∈ b.asks_heap ∨ ∃ j, N - (b.asks_0_tick - (t0 - E)) ≤ j ∧ j < N ∧
      eps < aget b.asks j ∧ kv = (add32 b.asks_0_tick j, aget b.asks j) := by
  have hsub : sub32 b.asks_0_tick (t0 - E) = b.asks_0_tick - (t0 - E) :=
    sub32_eq (by omega) ha0
  unfold rebalance_asks_lower at hkv
  dsimp only at hkv
  rw [hsub] at hkv
  set S := b.asks_0_tick - (t0 - E) with hSdef
  rw [show (if N ≤ S then 0 else N - S) = N - S from by split <;> omega] at hkv
  rcases evict_asks_heap_mem _ _ _ _ _ _ hkv with hm | ⟨j, hj1, hj2, hj3, hj4⟩
  · exact Or.inl hm
  · exact Or.inr ⟨j, hj1, by omega, hj3, hj4⟩

theorem rebalance_asks_lower_pairwise (N E : ℕ) (b : Book) (t0 : ℕ)
    (hs : b.asks_heap.Pairwise (fun x y => x.1 < y.1)) :
    (rebalance_asks_lower N E b t0).asks_heap.Pairwise (fun x y => x.1 < y.1) := by
  unfold rebalance_asks_lower
  dsimp only
  exact evict_asks_pairwise _ _ _ _ _ hs

theorem rebalance_bids_higher_frame (N E : ℕ) (b : Book) (t0 : ℕ) :
    (rebalance_bids_higher N E b t0).sequence_id = b.sequence_id ∧
    (rebalance_bids_higher N E b t0).bids_0_tick = add32 t0 E ∧
    (rebalance_bids_higher N E b t0).best_bid_i = b.best_bid_i ∧
    (rebalance_bids_higher N E b t0).asks_0_tick = b.asks_0_tick ∧
    (rebalance_bids_higher N E b t0).best_ask_i = b.best_ask_i ∧
    (rebalance_bids_higher N E b t0).asks = b.asks ∧
    (rebalance_bids_higher N E b t0).asks_heap = b.asks_heap :=
  ⟨rfl, rfl, rfl, rfl, rfl, rfl, rfl⟩

theorem rebalance_bids_higher_length (N E : ℕ) (b : Book) (t0 : ℕ) :
    (rebalance_bids_higher N E b t0).bids.length = b.bids.length := by
  unfold rebalance_bids_higher
  dsimp only
  rw [spread_up_length, evict_bids_length]

theorem rebalance_bids_higher_aget (N E : ℕ) (b : Book) (t0 : ℕ)
    (halen : b.bids.length = N) (hW : t0 + E < W32) (hhigh : b.bids_0_tick < t0)
    (k : ℕ) :
    aget (rebalance_bids_higher N E b t0).bids k =
      if t0 + E - b.bids_0_tick ≤ k ∧ k < N then
        aget b.bids (k - (t0 + E - b.bids_0_tick))
      else if k < N - (t0 + E - b.bids_0_tick) then 0
      else if k < N then (if eps < aget b.bids k then 0 else aget b.bids k)
      else aget b.bids k := by
  have hadd : add32 t0 E = t0 + E := add32_eq hW
  have hsub : sub32 (t0 + E) b.bids_0_tick = t0 + E - b.bids_0_tick :=
    sub32_eq (by omega) (by omega)
  unfold rebalance_bids_higher
  dsimp only
  rw [hadd, hsub]
  set S := t0 + E - b.bids_0_tick with hSdef
  have hS1 : 1 ≤ S := by omega
  by_cases hNS : N ≤ S
  · rw [if_pos hNS, spread_up_zero, evict_bids_aget]
    by_cases hkN : k < N
    · by_cases hl : eps < aget b.bids k
      · rw [if_pos (show 0 ≤ k ∧ k < 0 + (N - 0) ∧ eps < aget b.bids k from
            ⟨by omega, by omega, hl⟩),
          if_neg (show ¬ (S ≤ k ∧ k < N) from by omega),
          if_neg (show ¬ k < N - S from by omega), if_pos hkN, if_pos hl]
      · rw [if_neg (show ¬ (0 ≤ k ∧ k < 0 + (N - 0) ∧ eps < aget b.bids k) from by
            rintro ⟨-, -, hd⟩; exact hl hd),
          if_neg (show ¬ (S ≤ k ∧ k < N) from by omega),
          if_neg (show ¬ k < N - S from by omega), if_pos hkN, if_neg hl]
    · rw [if_neg (show ¬ (0 ≤ k ∧ k < 0 + (N - 0) ∧ eps < aget b.bids k) from by
          rintro ⟨-, hd, -⟩; omega),
        if_neg (show ¬ (S ≤ k ∧ k < N) from by omega),
        if_neg (show ¬ k < N - S from by omega), if_neg hkN]
  · rw [if_neg hNS,
      spread_up_aget S hS1 (N - S) _ (by rw [evict_bids_length]; omega)]
    by_cases hc1 : S ≤ k ∧ k < N
    · obtain ⟨h1, h2⟩ := hc1
      rw [if_pos (show S ≤ k ∧ k < S + (N - S) from ⟨h1, by omega⟩), evict_bids_aget,
        if_neg (show ¬ (N - S ≤ k - S ∧ k - S < N - S + (N - (N - S)) ∧
            eps < aget b.bids (k - S)) from by rintro ⟨hd, -, -⟩; omega),
        if_pos ⟨h1, h2⟩]
    · by_cases hc2 : k < N - S
      · rw [if_neg (show ¬ (S ≤ k ∧ k < S + (N - S)) from by omega),
          if_pos hc2, if_neg (show ¬ (S ≤ k ∧ k < N) from by omega), if_pos hc2]
      · rw [if_neg (show ¬ (S ≤ k ∧ k < S + (N - S)) from by omega),
          if_neg hc2, evict_bids_aget]
        by_cases hc3 : k < N
        · by_cases hl : eps < aget b.bids k
          · rw [if_pos (show N - S ≤ k ∧ k < N - S + (N - (N - S)) ∧ eps < aget b.bids k from
                ⟨by omega, by omega, hl⟩),
              if_neg (show ¬ (S ≤ k ∧ k < N) from by omega), if_neg hc2, if_pos hc3,
              if_pos hl]
          · rw [if_neg (show ¬ (N - S ≤ k ∧ k < N - S + (N - (N - S)) ∧
                  eps < aget b.bids k) from by rintro ⟨-, -, hd⟩; exact hl hd),
              if_neg (show ¬ (S ≤ k ∧ k < N) from by omega), if_neg hc2, if_pos hc3,
              if_neg hl]
        · rw [if_neg (show ¬ (N - S ≤ k ∧ k < N - S + (N - (N - S)) ∧
                eps < aget b.bids k) from by rintro ⟨-, hd, -⟩; omega),
            if_neg (show ¬ (S ≤ k ∧ k < N) from by omega), if_neg hc2, if_neg hc3]

theorem rebalance_bids_higher_hget (N E : ℕ) (b : Book) (t0 : ℕ)
    (halen : b.bids.length = N) (hW : t0 + E < W32) (hhigh : b.bids_0_tick < t0)
    (hb7 : ∀ i, eps ≤ aget b.bids i → i ≤ b.bids_0_tick)
    (t : ℕ) :
    hget (rebalance_bids_higher N E b t0).bids_heap t =
      if t ≤ b.bids_0_tick ∧ b.bids_0_tick < t + N ∧
          N - (t0 + E - b.bids_0_tick) ≤ b.bids_0_tick - t ∧
          eps < aget b.bids (b.bids_0_tick - t) then
        some (aget b.bids (b.bids_0_tick - t))
      else hget b.bids_heap t := by
  have hadd : add32 t0 E = t0 + E := add32_eq hW
  have hsub : sub32 (t0 + E) b.bids_0_tick = t0 + E - b.bids_0_tick :=
    sub32_eq (by omega) (by omega)
  have hb0 : b.bids_0_tick < W32 := by omega
  unfold rebalance_bids_higher
  dsimp only
  rw [hadd, hsub]
  set S := t0 + E - b.bids_0_tick with hSdef
  rw [show (if N ≤ S then 0 else N - S) = N - S from by split <;> omega]
  have hw : ∀ j', N - S ≤ j' → j' < N - S + (N - (N - S)) → eps < aget b.bids j' →
      j' ≤ b.bids_0_tick := fun j' _ _ hl => hb7 j' hl.le
  by_cases hc : t ≤ b.bids_0_tick ∧ b.bids_0_tick < t + N ∧
      N - S ≤ b.bids_0_tick - t ∧ eps < aget b.bids (b.bids_0_tick - t)
  · obtain ⟨h1, h2, h3, h4⟩ := hc
    have hlive := evict_bids_hget_live b.bids_0_tick hb0 (N - (N - S)) (N - S) b.bids
      b.bids_heap (b.bids_0_tick - t) h3 (by omega) h4 hw
    rw [show b.bids_0_tick - (b.bids_0_tick - t) = t from by omega] at hlive
    rw [if_pos ⟨h1, h2, h3, h4⟩, hlive]
  · rw [if_neg hc, evict_bids_hget_ne]
    intro j hj1 hj2 hj3
    have hjb := hb7 j hj3.le
    rw [sub32_eq hjb hb0]
    intro hjt
    exact hc ⟨by omega, by omega, by omega,
      by rwa [show b.bids_0_tick - t = j from by omega]⟩

theorem rebalance_bids_higher_heap_mem (N E : ℕ) (b : Book) (t0 : ℕ)
    (hW : t0 + E < W32) (hhigh : b.bids_0_tick < t0) {kv : ℕ × ℚ}
    (hkv : kv ∈ (rebalance_bids_higher N E b t0).bids_heap) :
    kv ∈ b.bids_heap ∨ ∃ j, N - (t0 + E - b.bids_0_tick) ≤ j ∧ j < N ∧
      eps < aget b.bids j ∧ kv = (sub32 b.bids_0_tick j, aget b.bids j) := by
  have hadd : add32 t0 E = t0 + E := add32_eq hW
  have hsub : sub32 (t0 + E) b.bids_0_tick = t0 + E - b.bids_0_tick :=
    sub32_eq (by omega) (by omega)
  unfold rebalance_bids_higher at hkv
  dsimp only at hkv
  rw [hadd, hsub] at hkv
  set S := t0 + E - b.bids_0_tick with hSdef
  rw [show (if N ≤ S then 0 else N - S) = N - S from by split <;> omega] at hkv
  rcases evict_bids_heap_mem _ _ _ _ _ _ hkv with hm | ⟨j, hj1, hj2, hj3, hj4⟩
  · exact Or.inl hm
  · exact Or.inr ⟨j, hj1, by omega, hj3, hj4⟩

theorem rebalance_bids_higher_pairwise (N E : ℕ) (b : Book) (t0 : ℕ)
    (hs : b.bids_heap.Pairwise (fun x y => x.1 < y.1)) :
    (rebalance_bids_higher N E b t0).bids_heap.Pairwise (fun x y => x.1 < y.1) := by
  unfold rebalance_bids_higher
  dsimp only
  exact evict_bids_pairwise _ _ _ _ _ hs

theorem add32_ge {a b : ℕ} (ha : a < W32) (hb : b < W32) (h : W32 ≤ a + b) :
    add32 a b = a + b - W32 := by
  unfold add32 at *
  unfold W32 at *
  omega

theorem W16_le_W32 : W16 ≤ W32 := by unfold W16 W32; omega

theorem rebalance_asks_higher_frame (N E : ℕ) (b : Book) :
    (rebalance_asks_higher_and_update_best N E b).sequence_id = b.sequence_id ∧
    (rebalance_asks_higher_and_update_best N E b).bids_0_tick = b.bids_0_tick ∧
    (rebalance_asks_higher_and_update_best N E b).best_bid_i = b.best_bid_i ∧
    (rebalance_asks_higher_and_update_best N E b).bids = b.bids ∧
    (rebalance_asks_higher_and_update_best N E b).bids_heap = b.bids_heap := by
  unfold rebalance_asks_higher_and_update_best
  dsimp only
  by_cases h1 : eps < aget b.asks b.best_ask_i
  · rw [if_pos h1]; exact ⟨rfl, rfl, rfl, rfl, rfl⟩
  · rw [if_neg h1]
    cases hfl : find_live b.asks <;> dsimp only <;> split_ifs <;> exact ⟨rfl, rfl, rfl, rfl, rfl⟩

theorem rebalance_bids_lower_frame (N E : ℕ) (b : Book) :
    (rebalance_bids_lower_and_update_best N E b).sequence_id = b.sequence_id ∧
    (rebalance_bids_lower_and_update_best N E b).asks_0_tick = b.asks_0_tick ∧
    (rebalance_bids_lower_and_update_best N E b).best_ask_i = b.best_ask_i ∧
    (rebalance_bids_lower_and_update_best N E b).asks = b.asks ∧
    (rebalance_bids_lower_and_update_best N E b).asks_heap = b.asks_heap := by
  unfold rebalance_bids_lower_and_update_best
  dsimp only
  by_cases h1 : eps < aget b.bids b.best_bid_i
  · rw [if_pos h1]; exact ⟨rfl, rfl, rfl, rfl, rfl⟩
  · rw [if_neg h1]
    cases hfl : find_live b.bids <;> dsimp only <;> split_ifs <;> exact ⟨rfl, rfl, rfl, rfl, rfl⟩

theorem asksC_spec (N E : ℕ) (hNE : 2 * E < N) (hNW : N < W16) {b : Book}
    (hm : AskMid N E b) :
    AskInv N E (rebalance_asks_higher_and_update_best N E b) ∧
    (∀ kv ∈ (rebalance_asks_higher_and_update_best N E b).asks_heap, kv ∈ b.asks_heap) := by
  obtain ⟨alen, a0lt, best_le, a8, a7, hdom, hval, hsort, below⟩ := hm
  unfold rebalance_asks_higher_and_update_best
  dsimp only
  by_cases h1 : eps < aget b.asks b.best_ask_i
  · rw [if_pos h1]
    exact ⟨⟨⟨alen, a0lt, best_le, a8, a7, hdom, hval, hsort, below⟩, fun _ => h1⟩,
      fun kv hkv => hkv⟩
  · rw [if_neg h1]
    cases hfl : find_live b.asks with
    | none =>
        dsimp only
        have hnone := find_live_none hfl
        rw [if_neg (show ¬ 2 * E < b.best_ask_i from by omega)]
        exact ⟨⟨⟨alen, a0lt, best_le, a8, a7, hdom, hval, hsort, below⟩,
          fun ⟨i, hi⟩ => absurd hi (hnone i)⟩, fun kv hkv => hkv⟩
    | some i =>
        dsimp only
        obtain ⟨hiN, hilive, himin⟩ := find_live_some hfl
        rw [alen] at hiN
        by_cases h2 : 2 * E < i
        · rw [if_pos h2]
          have ha0i : b.asks_0_tick + i < W32 := a7 i hilive.le
          have hA0eq : add32 b.asks_0_tick (i - E) = b.asks_0_tick + (i - E) :=
            add32_eq (by omega)
          rw [hA0eq]
          set sh := i - E with hshdef
          set A0 := b.asks_0_tick + sh with hA0def
          have hshpos : 1 ≤ sh := by omega
          have hshN : sh + E < N := by omega
          have hW3216 : W16 ≤ W32 := W16_le_W32
          have hlenc : (compact_copy sh E (N - sh - E) b.asks).length = N := by
            rw [compact_copy_length, alen]
          have hagetc : ∀ k, aget (compact_copy sh E (N - sh - E) b.asks) k =
              if E ≤ k ∧ k < E + (N - sh - E) then aget b.asks (k + sh)
              else aget b.asks k :=
            compact_copy_aget sh (N - sh - E) E b.asks (by omega)
          have hagetp : ∀ k,
              aget (promote_asks A0 (N - sh) (N - (N - sh))
                (compact_copy sh E (N - sh - E) b.asks) b.asks_heap).1 k =
              if N - sh ≤ k ∧ k < N - sh + (N - (N - sh)) then
                (hget b.asks_heap (add32 A0 k)).getD 0
              else aget (compact_copy sh E (N - sh - E) b.asks) k :=
            promote_asks_aget A0 (N - (N - sh)) (N - sh) _ _ (by omega) (by omega) hsort
          have hsubl : (promote_asks A0 (N - sh) (N - (N - sh))
              (compact_copy sh E (N - sh - E) b.asks) b.asks_heap).2.Sublist b.asks_heap :=
            promote_asks_heap_sublist A0 _ _ _ _
          have hself : ∀ j, N - sh ≤ j → j < N →
              hget (promote_asks A0 (N - sh) (N - (N - sh))
                (compact_copy sh E (N - sh - E) b.asks) b.asks_heap).2 (add32 A0 j) = none := by
            intro j hj1 hj2
            exact promote_asks_hget_self A0 (N - (N - sh)) (N - sh) _ _ (by omega) hsort j hj1
              (by omega)
          refine ⟨⟨⟨?_, ?_, ?_, ?_, ?_, ?_, ?_, ?_, ?_⟩, ?_⟩, ?_⟩
          · show (promote_asks _ _ _ _ _).1.length = N
            rw [promote_asks_length, hlenc]
          · show A0 < W32
            omega
          · show i - sh ≤ 2 * E
            omega
          · show A0 + (i - sh) < W32
            omega
          · show ∀ k, eps ≤ aget (promote_asks _ _ _ _ _).1 k → A0 + k < W32
            intro k hk
            rw [hagetp] at hk
            by_cases hc1 : N - sh ≤ k ∧ k < N - sh + (N - (N - sh))
            · rw [if_pos hc1] at hk
              cases hg : hget b.asks_heap (add32 A0 k) with
              | none => rw [hg] at hk; exact absurd hk (by simpa using eps_pos)
              | some v =>
                  obtain ⟨hd1, hd2⟩ := hdom _ (hget_mem hg)
                  by_cases hw : A0 + k < W32
                  · exact hw
                  · exfalso
                    rw [add32_ge (by omega) (by omega) (by omega)] at hg hd1 hd2
                    omega
            · rw [if_neg hc1, hagetc] at hk
              by_cases hc2 : E ≤ k ∧ k < E + (N - sh - E)
              · rw [if_pos hc2] at hk
                have := a7 (k + sh) hk
                omega
              · rw [if_neg hc2] at hk
                by_cases hc3 : k < N
                · have hkE : k < E := by omega
                  omega
                · rw [aget_of_le (by omega)] at hk
                  exact absurd hk (by simpa using eps_pos)
          · show ∀ kv ∈ (promote_asks _ _ _ _ _).2, A0 + N ≤ kv.1 ∧ kv.1 < W32
            intro kv hkv
            obtain ⟨hd1, hd2⟩ := hdom kv (hsubl.mem hkv)
            refine ⟨?_, hd2⟩
            by_contra hlt
            have hj : kv.1 = add32 A0 (kv.1 - A0) := by
              rw [add32_eq (by omega)]
              omega
            have := hself (kv.1 - A0) (by omega) (by omega)
            rw [← hj] at this
            exact hget_none_forall this kv hkv rfl
          · exact fun kv hkv => hval kv (hsubl.mem hkv)
          · exact hsort.sublist hsubl
          · show ∀ j < i - sh, ¬ eps < aget (promote_asks _ _ _ _ _).1 j
            intro j hj
            rw [hagetp, if_neg (by omega), hagetc, if_neg (by omega)]
            exact himin j (by omega)
          · intro _
            show eps < aget (promote_asks _ _ _ _ _).1 (i - sh)
            rw [hagetp, if_neg (by omega), hagetc, if_pos ⟨by omega, by omega⟩,
              show i - sh + sh = i from by omega]
            exact hilive
          · exact fun kv hkv => hsubl.mem hkv
        · rw [if_neg h2]
          refine ⟨⟨⟨alen, a0lt, ?_, ?_, a7, hdom, hval, hsort, ?_⟩, fun _ => hilive⟩,
            fun kv hkv => hkv⟩
          · show i ≤ 2 * E
            omega
          · show b.asks_0_tick + i < W32
            have := a7 i hilive.le
            omega
          · show ∀ j < i, ¬ eps < aget b.asks j
            exact fun j hj => himin j hj

theorem asksC_live (N E : ℕ) (hNE : 2 * E < N) (hNW : N < W16) {b : Book}
    (hm : AskMid N E b) (hstrict : ∀ kv ∈ b.asks_heap, eps < kv.2) :
    ∀ t, t < W32 →
      live_ask N (rebalance_asks_higher_and_update_best N E b) t = live_ask N b t := by
  obtain ⟨alen, a0lt, best_le, a8, a7, hdom, hval, hsort, below⟩ := hm
  intro t htW
  unfold rebalance_asks_higher_and_update_best
  dsimp only
  by_cases h1 : eps < aget b.asks b.best_ask_i
  · rw [if_pos h1]
  · rw [if_neg h1]
    cases hfl : find_live b.asks with
    | none =>
        dsimp only
        rw [if_neg (show ¬ 2 * E < b.best_ask_i from by omega)]
    | some i =>
        dsimp only
        obtain ⟨hiN, hilive, himin⟩ := find_live_some hfl
        rw [alen] at hiN
        by_cases h2 : 2 * E < i
        · rw [if_pos h2]
          have ha0i : b.asks_0_tick + i < W32 := a7 i hilive.le
          have hA0eq : add32 b.asks_0_tick (i - E) = b.asks_0_tick + (i - E) :=
            add32_eq (by omega)
          rw [hA0eq]
          set sh := i - E with hshdef
          set A0 := b.asks_0_tick + sh with hA0def
          have hshpos : 1 ≤ sh := by omega
          have hshN : sh + E < N := by omega
          have hW3216 : W16 ≤ W32 := W16_le_W32
          have hlenc : (compact_copy sh E (N - sh - E) b.asks).length = N := by
            rw [compact_copy_length, alen]
          have hagetc : ∀ k, aget (compact_copy sh E (N - sh - E) b.asks) k =
              if E ≤ k ∧ k < E + (N - sh - E) then aget b.asks (k + sh)
              else aget b.asks k :=
            compact_copy_aget sh (N - sh - E) E b.asks (by omega)
          have hagetp : ∀ k,
              aget (promote_asks A0 (N - sh) (N - (N - sh))
                (compact_copy sh E (N - sh - E) b.asks) b.asks_heap).1 k =
              if N - sh ≤ k ∧ k < N - sh + (N - (N - sh)) then
                (hget b.asks_heap (add32 A0 k)).getD 0
              else aget (compact_copy sh E (N - sh - E) b.asks) k :=
            promote_asks_aget A0 (N - (N - sh)) (N - sh) _ _ (by omega) (by omega) hsort
          have hsubl : (promote_asks A0 (N - sh) (N - (N - sh))
              (compact_copy sh E (N - sh - E) b.asks) b.asks_heap).2.Sublist b.asks_heap :=
            promote_asks_heap_sublist A0 _ _ _ _
          unfold live_ask
          dsimp only
          by_cases hr1 : A0 ≤ t ∧ t < A0 + N
          · obtain ⟨hr1a, hr1b⟩ := hr1
            rw [if_pos (show A0 ≤ t ∧ t < A0 + N from ⟨hr1a, hr1b⟩)]
            by_cases hk3 : N - sh ≤ t - A0
            · rw [hagetp, if_pos (show N - sh ≤ t - A0 ∧ t - A0 < N - sh + (N - (N - sh)) from
                  ⟨hk3, by omega⟩),
                show add32 A0 (t - A0) = t from by rw [add32_eq (by omega)]; omega,
                if_neg (show ¬ (b.asks_0_tick ≤ t ∧ t < b.asks_0_tick + N) from by omega)]
              cases hg : hget b.asks_heap t with
              | none =>
                  rw [Option.getD_none,
                    if_neg (show ¬ eps < (0 : ℚ) from by simpa using eps_pos.le)]
              | some v =>
                  rw [Option.getD_some, if_pos (hstrict _ (hget_mem hg))]
            · by_cases hk2 : E ≤ t - A0
              · rw [hagetp,
                  if_neg (show ¬ (N - sh ≤ t - A0 ∧ t - A0 < N - sh + (N - (N - sh))) from
                    by omega),
                  hagetc,
                  if_pos (show E ≤ t - A0 ∧ t - A0 < E + (N - sh - E) from ⟨hk2, by omega⟩),
                  show t - A0 + sh = t - b.asks_0_tick from by omega,
                  if_pos (show b.asks_0_tick ≤ t ∧ t < b.asks_0_tick + N from
                    ⟨by omega, by omega⟩)]
              · rw [hagetp,
                  if_neg (show ¬ (N - sh ≤ t - A0 ∧ t - A0 < N - sh + (N - (N - sh))) from
                    by omega),
                  hagetc,
                  if_neg (show ¬ (E ≤ t - A0 ∧ t - A0 < E + (N - sh - E)) from by omega),
                  if_neg (himin (t - A0) (by omega)),
                  if_pos (show b.asks_0_tick ≤ t ∧ t < b.asks_0_tick + N from
                    ⟨by omega, by omega⟩),
                  if_neg (himin (t - b.asks_0_tick) (by omega))]
          · rw [if_neg hr1]
            by_cases hr2 : t < A0
            · rw [hget_eq_none (fun kv hkv => by
                have := (hdom kv (hsubl.mem hkv)).1
                omega)]
              by_cases hr2a : b.asks_0_tick ≤ t
              · rw [if_pos (show b.asks_0_tick ≤ t ∧ t < b.asks_0_tick + N from
                    ⟨hr2a, by omega⟩),
                  if_neg (himin (t - b.asks_0_tick) (by omega))]
              · rw [if_neg (show ¬ (b.asks_0_tick ≤ t ∧ t < b.asks_0_tick + N) from by omega),
                  hget_eq_none (fun kv hkv => by
                    have := (hdom kv hkv).1
                    omega)]
            · rw [promote_asks_hget_ne A0 _ _ _ _ _ (by
                  intro j hj1 hj2
                  by_cases hw : A0 + j < W32
                  · rw [add32_eq hw]; omega
                  · rw [add32_ge (by omega) (by omega) (by omega)]; omega),
                if_neg (show ¬ (b.asks_0_tick ≤ t ∧ t < b.asks_0_tick + N) from by omega)]
        · rw [if_neg h2]
          rfl

theorem sub32_of_gt {a b : ℕ} (hb : b < W32) (h : a < b) : sub32 a b = a + W32 - b := by
  unfold sub32
  unfold W32 at *
  omega

theorem bidsC_spec (N E : ℕ) (hNE : 2 * E < N) (hNW : N < W16) {b : Book}
    (hm : BidMid N E b) :
    BidInv N E (rebalance_bids_lower_and_update_best N E b) ∧
    (∀ kv ∈ (rebalance_bids_lower_and_update_best N E b).bids_heap, kv ∈ b.bids_heap) := by
  obtain ⟨blen, b0lt, best_le, b8, b7, hdom, hval, hsort, below⟩ := hm
  unfold rebalance_bids_lower_and_update_best
  dsimp only
  by_cases h1 : eps < aget b.bids b.best_bid_i
  · rw [if_pos h1]
    exact ⟨⟨⟨blen, b0lt, best_le, b8, b7, hdom, hval, hsort, below⟩, fun _ => h1⟩,
      fun kv hkv => hkv⟩
  · rw [if_neg h1]
    cases hfl : find_live b.bids with
    | none =>
        dsimp only
        have hnone := find_live_none hfl
        rw [if_neg (show ¬ 2 * E < b.best_bid_i from by omega)]
        exact ⟨⟨⟨blen, b0lt, best_le, b8, b7, hdom, hval, hsort, below⟩,
          fun ⟨i, hi⟩ => absurd hi (hnone i)⟩, fun kv hkv => hkv⟩
    | some i =>
        dsimp only
        obtain ⟨hiN, hilive, himin⟩ := find_live_some hfl
        rw [blen] at hiN
        by_cases h2 : 2 * E < i
        · rw [if_pos h2]
          have hib0 : i ≤ b.bids_0_tick := b7 i hilive.le
          have hB0eq : sub32 b.bids_0_tick (i - E) = b.bids_0_tick - (i - E) :=
            sub32_eq (by omega) b0lt
          rw [hB0eq]
          set sh := i - E with hshdef
          set B0 := b.bids_0_tick - sh with hB0def
          have hshpos : 1 ≤ sh := by omega
          have hshN : sh + E < N := by omega
          have hEB0 : E ≤ B0 := by omega
          have hW3216 : W16 ≤ W32 := W16_le_W32
          have hlenc : (compact_copy sh E (N - sh - E) b.bids).length = N := by
            rw [compact_copy_length, blen]
          have hagetc : ∀ k, aget (compact_copy sh E (N - sh - E) b.bids) k =
              if E ≤ k ∧ k < E + (N - sh - E) then aget b.bids (k + sh)
              else aget b.bids k :=
            compact_copy_aget sh (N - sh - E) E b.bids (by omega)
          have hagetp : ∀ k,
              aget (promote_bids B0 (N - sh) (N - (N - sh))
                (compact_copy sh E (N - sh - E) b.bids) b.bids_heap).1 k =
              if N - sh ≤ k ∧ k < N - sh + (N - (N - sh)) then
                (hget b.bids_heap (sub32 B0 k)).getD 0
              else aget (compact_copy sh E (N - sh - E) b.bids) k :=
            promote_bids_aget B0 (N - (N - sh)) (N - sh) _ _ (by omega) (by omega) hsort
          have hsubl : (promote_bids B0 (N - sh) (N - (N - sh))
              (compact_copy sh E (N - sh - E) b.bids) b.bids_heap).2.Sublist b.bids_heap :=
            promote_bids_heap_sublist B0 _ _ _ _
          have hself : ∀ j, N - sh ≤ j → j < N →
              hget (promote_bids B0 (N - sh) (N - (N - sh))
                (compact_copy sh E (N - sh - E) b.bids) b.bids_heap).2 (sub32 B0 j) = none := by
            intro j hj1 hj2
            exact promote_bids_hget_self B0 (N - (N - sh)) (N - sh) _ _ (by omega) hsort j hj1
              (by omega)
          refine ⟨⟨⟨?_, ?_, ?_, ?_, ?_, ?_, ?_, ?_, ?_⟩, ?_⟩, ?_⟩
          · show (promote_bids _ _ _ _ _).1.length = N
            rw [promote_bids_length, hlenc]
          · show B0 < W32
            omega
          · show i - sh ≤ 2 * E
            omega
          · show i - sh ≤ B0
            omega
          · show ∀ k, eps ≤ aget (promote_bids _ _ _ _ _).1 k → k ≤ B0
            intro k hk
            rw [hagetp] at hk
            by_cases hc1 : N - sh ≤ k ∧ k < N - sh + (N - (N - sh))
            · rw [if_pos hc1] at hk
              by_cases hw : k ≤ B0
              · exact hw
              · exfalso
                rw [sub32_of_gt (by omega) (by omega)] at hk
                rw [hget_eq_none (fun kv hkv => by
                  have := hdom kv hkv
                  omega)] at hk
                exact absurd (by simpa using hk) (not_le.mpr eps_pos)
            · rw [if_neg hc1, hagetc] at hk
              by_cases hc2 : E ≤ k ∧ k < E + (N - sh - E)
              · rw [if_pos hc2] at hk
                have := b7 (k + sh) hk
                omega
              · rw [if_neg hc2] at hk
                by_cases hc3 : k < N
                · have hkE : k < E := by omega
                  omega
                · rw [aget_of_le (by omega)] at hk
                  exact absurd hk (by simpa using eps_pos)
          · show ∀ kv ∈ (promote_bids _ _ _ _ _).2, kv.1 + N ≤ B0
            intro kv hkv
            have hd1 := hdom kv (hsubl.mem hkv)
            by_contra hlt
            have hj : kv.1 = sub32 B0 (B0 - kv.1) := by
              rw [sub32_eq (by omega) (by omega)]
              omega
            have := hself (B0 - kv.1) (by omega) (by omega)
            rw [← hj] at this
            exact hget_none_forall this kv hkv rfl
          · exact fun kv hkv => hval kv (hsubl.mem hkv)
          · exact hsort.sublist hsubl
          · show ∀ j < i - sh, ¬ eps < aget (promote_bids _ _ _ _ _).1 j
            intro j hj
            rw [hagetp, if_neg (show ¬ (N - sh ≤ j ∧ j < N - sh + (N - (N - sh))) from
                by omega),
              hagetc, if_neg (show ¬ (E ≤ j ∧ j < E + (N - sh - E)) from by omega)]
            exact himin j (by omega)
          · intro _
            show eps < aget (promote_bids _ _ _ _ _).1 (i - sh)
            rw [hagetp, if_neg (show ¬ (N - sh ≤ i - sh ∧
                  i - sh < N - sh + (N - (N - sh))) from by omega),
              hagetc, if_pos (show E ≤ i - sh ∧ i - sh < E + (N - sh - E) from
                ⟨by omega, by omega⟩),
              show i - sh + sh = i from by omega]
            exact hilive
          · exact fun kv hkv => hsubl.mem hkv
        · rw [if_neg h2]
          refine ⟨⟨⟨blen, b0lt, ?_, ?_, b7, hdom, hval, hsort, ?_⟩, fun _ => hilive⟩,
            fun kv hkv => hkv⟩
          · show i ≤ 2 * E
            omega
          · show i ≤ b.bids_0_tick
            exact b7 i hilive.le
          · show ∀ j < i, ¬ eps < aget b.bids j
            exact fun j hj => himin j hj

theorem bidsC_live (N E : ℕ) (hNE : 2 * E < N) (hNW : N < W16) {b : Book}
    (hm : BidMid N E b) (hstrict : ∀ kv ∈ b.bids_heap, eps < kv.2) :
    ∀ t, t < W32 →
      live_bid N (rebalance_bids_lower_and_update_best N E b) t = live_bid N b t := by
  obtain ⟨blen, b0lt, best_le, b8, b7, hdom, hval, hsort, below⟩ := hm
  intro t htW
  unfold rebalance_bids_lower_and_update_best
  dsimp only
  by_cases h1 : eps < aget b.bids b.best_bid_i
  · rw [if_pos h1]
  · rw [if_neg h1]
    cases hfl : find_live b.bids with
    | none =>
        dsimp only
        rw [if_neg (show ¬ 2 * E < b.best_bid_i from by omega)]
    | some i =>
        dsimp only
        obtain ⟨hiN, hilive, himin⟩ := find_live_some hfl
        rw [blen] at hiN
        by_cases h2 : 2 * E < i
        · rw [if_pos h2]
          have hib0 : i ≤ b.bids_0_tick := b7 i hilive.le
          have hB0eq : sub32 b.bids_0_tick (i - E) = b.bids_0_tick - (i - E) :=
            sub32_eq (by omega) b0lt
          rw [hB0eq]
          set sh := i - E with hshdef
          set B0 := b.bids_0_tick - sh with hB0def
          have hshpos : 1 ≤ sh := by omega
          have hshN : sh + E < N := by omega
          have hEB0 : E ≤ B0 := by omega
          have hW3216 : W16 ≤ W32 := W16_le_W32
          have hlenc : (compact_copy sh E (N - sh - E) b.bids).length = N := by
            rw [compact_copy_length, blen]
          have hagetc : ∀ k, aget (compact_copy sh E (N - sh - E) b.bids) k =
              if E ≤ k ∧ k < E + (N - sh - E) then aget b.bids (k + sh)
              else aget b.bids k :=
            compact_copy_aget sh (N - sh - E) E b.bids (by omega)
          have hagetp : ∀ k,
              aget (promote_bids B0 (N - sh) (N - (N - sh))
                (compact_copy sh E (N - sh - E) b.bids) b.bids_heap).1 k =
              if N - sh ≤ k ∧ k < N - sh + (N - (N - sh)) then
                (hget b.bids_heap (sub32 B0 k)).getD 0
              else aget (compact_copy sh E (N - sh - E) b.bids) k :=
            promote_bids_aget B0 (N - (N - sh)) (N - sh) _ _ (by omega) (by omega) hsort
          have hsubl : (promote_bids B0 (N - sh) (N - (N - sh))
              (compact_copy sh E (N - sh - E) b.bids) b.bids_heap).2.Sublist b.bids_heap :=
            promote_bids_heap_sublist B0 _ _ _ _
          unfold live_bid
          dsimp only
          by_cases hr1 : t ≤ B0 ∧ B0 < t + N
          · obtain ⟨hr1a, hr1b⟩ := hr1
            rw [if_pos (show t ≤ B0 ∧ B0 < t + N from ⟨hr1a, hr1b⟩)]
            by_cases hk3 : N - sh ≤ B0 - t
            · rw [hagetp, if_pos (show N - sh ≤ B0 - t ∧ B0 - t < N - sh + (N - (N - sh)) from
                  ⟨hk3, by omega⟩),
                show sub32 B0 (B0 - t) = t from by rw [sub32_eq (by omega) (by omega)]; omega,
                if_neg (show ¬ (t ≤ b.bids_0_tick ∧ b.bids_0_tick < t + N) from by omega)]
              cases hg : hget b.bids_heap t with
              | none =>
                  rw [Option.getD_none,
                    if_neg (show ¬ eps < (0 : ℚ) from by simpa using eps_pos.le)]
              | some v =>
                  rw [Option.getD_some, if_pos (hstrict _ (hget_mem hg))]
            · by_cases hk2 : E ≤ B0 - t
              · rw [hagetp,
                  if_neg (show ¬ (N - sh ≤ B0 - t ∧ B0 - t < N - sh + (N - (N - sh))) from
                    by omega),
                  hagetc,
                  if_pos (show E ≤ B0 - t ∧ B0 - t < E + (N - sh - E) from ⟨hk2, by omega⟩),
                  show B0 - t + sh = b.bids_0_tick - t from by omega,
                  if_pos (show t ≤ b.bids_0_tick ∧ b.bids_0_tick < t + N from
                    ⟨by omega, by omega⟩)]
              · rw [hagetp,
                  if_neg (show ¬ (N - sh ≤ B0 - t ∧ B0 - t < N - sh + (N - (N - sh))) from
                    by omega),
                  hagetc,
                  if_neg (show ¬ (E ≤ B0 - t ∧ B0 - t < E + (N - sh - E)) from by omega),
                  if_neg (himin (B0 - t) (by omega)),
                  if_pos (show t ≤ b.bids_0_tick ∧ b.bids_0_tick < t + N from
                    ⟨by omega, by omega⟩),
                  if_neg (himin (b.bids_0_tick - t) (by omega))]
          · rw [if_neg hr1]
            by_cases hr2 : B0 < t
            · rw [hget_eq_none (fun kv hkv => by
                have := hdom kv (hsubl.mem hkv)
                omega)]
              by_cases hr2a : t ≤ b.bids_0_tick
              · rw [if_pos (show t ≤ b.bids_0_tick ∧ b.bids_0_tick < t + N from
                    ⟨hr2a, by omega⟩),
                  if_neg (himin (b.bids_0_tick - t) (by omega))]
              · rw [if_neg (show ¬ (t ≤ b.bids_0_tick ∧ b.bids_0_tick < t + N) from by omega),
                  hget_eq_none (fun kv hkv => by
                    have := hdom kv hkv
                    omega)]
            · rw [promote_bids_hget_ne B0 _ _ _ _ _ (by
                  intro j hj1 hj2
                  rw [sub32_eq (by omega) (by omega)]
                  omega),
                if_neg (show ¬ (t ≤ b.bids_0_tick ∧ b.bids_0_tick < t + N) from by omega)]
        · rw [if_neg h2]
          rfl

theorem rebalance_asks_lower_live (N E : ℕ) (b : Book) (t0 : ℕ)
    (halen : b.asks.length = N) (ha0 : b.asks_0_tick < W32) (hlow : t0 < b.asks_0_tick)
    (ha7 : ∀ i, eps ≤ aget b.asks i → b.asks_0_tick + i < W32)
    (hdom : ∀ kv ∈ b.asks_heap, b.asks_0_tick + N ≤ kv.1 ∧ kv.1 < W32) :
    ∀ t, t < W32 → live_ask N (rebalance_asks_lower N E b t0) t = live_ask N b t := by
  intro t htW
  have haget := rebalance_asks_lower_aget N E b t0 halen ha0 hlow
  have hhget := rebalance_asks_lower_hget N E b t0 halen ha0 hlow ha7
  have hmem := fun kv hkv => @rebalance_asks_lower_heap_mem N E b t0 ha0 hlow kv hkv
  set S := b.asks_0_tick - (t0 - E) with hSdef
  have hS1 : 1 ≤ S := by omega
  have ha0' : (rebalance_asks_lower N E b t0).asks_0_tick = t0 - E :=
    (rebalance_asks_lower_frame N E b t0).2.1
  have hSle : t0 - E + S = b.asks_0_tick := by omega
  unfold live_ask
  rw [ha0']
  by_cases hr1 : t0 - E ≤ t ∧ t < t0 - E + N
  · rw [if_pos hr1]
    obtain ⟨hr1a, hr1b⟩ := hr1
    rw [haget]
    by_cases hk1 : S ≤ t - (t0 - E)
    · rw [if_pos (show S ≤ t - (t0 - E) ∧ t - (t0 - E) < N from ⟨hk1, by omega⟩),
        show t - (t0 - E) - S = t - b.asks_0_tick from by omega,
        if_pos (show b.asks_0_tick ≤ t ∧ t < b.asks_0_tick + N from ⟨by omega, by omega⟩)]
    · rw [if_neg (show ¬ (S ≤ t - (t0 - E) ∧ t - (t0 - E) < N) from by omega),
        if_neg (show ¬ (b.asks_0_tick ≤ t ∧ t < b.asks_0_tick + N) from by omega),
        hget_eq_none (fun kv hkv => by have := (hdom kv hkv).1; omega)]
      by_cases hk2 : t - (t0 - E) < N - S
      · rw [if_pos hk2, if_neg (show ¬ eps < (0 : ℚ) from by simpa using eps_pos.le)]
      · rw [if_neg hk2, if_pos (show t - (t0 - E) < N from by omega)]
        by_cases hl : eps < aget b.asks (t - (t0 - E))
        · rw [if_pos hl, if_neg (show ¬ eps < (0 : ℚ) from by simpa using eps_pos.le)]
        · rw [if_neg hl, if_neg hl]
  · rw [if_neg hr1, hhget t htW]
    by_cases hr2 : t < t0 - E
    · rw [if_neg (show ¬ (b.asks_0_tick ≤ t ∧ t < b.asks_0_tick + N ∧
          N - S ≤ t - b.asks_0_tick ∧ eps < aget b.asks (t - b.asks_0_tick)) from by
          rintro ⟨hd1, -, -, -⟩; omega),
        if_neg (show ¬ (b.asks_0_tick ≤ t ∧ t < b.asks_0_tick + N) from by omega)]
    · by_cases hr3 : b.asks_0_tick ≤ t ∧ t < b.asks_0_tick + N
      · obtain ⟨hr3a, hr3b⟩ := hr3
        by_cases hl : eps < aget b.asks (t - b.asks_0_tick)
        · rw [if_pos (show b.asks_0_tick ≤ t ∧ t < b.asks_0_tick + N ∧
              N - S ≤ t - b.asks_0_tick ∧ eps < aget b.asks (t - b.asks_0_tick) from
              ⟨hr3a, hr3b, by omega, hl⟩),
            if_pos (show b.asks_0_tick ≤ t ∧ t < b.asks_0_tick + N from ⟨hr3a, hr3b⟩),
            if_pos hl]
        · rw [if_neg (show ¬ (b.asks_0_tick ≤ t ∧ t < b.asks_0_tick + N ∧
              N - S ≤ t - b.asks_0_tick ∧ eps < aget b.asks (t - b.asks_0_tick)) from by
              rintro ⟨-, -, -, hd⟩; exact hl hd),
            if_pos (show b.asks_0_tick ≤ t ∧ t < b.asks_0_tick + N from ⟨hr3a, hr3b⟩),
            if_neg hl,
            hget_eq_none (fun kv hkv => by have := (hdom kv hkv).1; omega)]
      · rw [if_neg (show ¬ (b.asks_0_tick ≤ t ∧ t < b.asks_0_tick + N ∧
            N - S ≤ t - b.asks_0_tick ∧ eps < aget b.asks (t - b.asks_0_tick)) from by
            rintro ⟨hd1, hd2, -, -⟩; exact hr3 ⟨hd1, hd2⟩),
          if_neg hr3]

theorem rebalance_bids_higher_live (N E : ℕ) (b : Book) (t0 : ℕ)
    (halen : b.bids.length = N) (hW : t0 + E < W32) (hhigh : b.bids_0_tick < t0)
    (hb7 : ∀ i, eps ≤ aget b.bids i → i ≤ b.bids_0_tick)
    (hdom : ∀ kv ∈ b.bids_heap, kv.1 + N ≤ b.bids_0_tick) :
    ∀ t, t < W32 → live_bid N (rebalance_bids_higher N E b t0) t = live_bid N b t := by
  intro t htW
  have haget := rebalance_bids_higher_aget N E b t0 halen hW hhigh
  have hhget := rebalance_bids_higher_hget N E b t0 halen hW hhigh hb7
  set S := t0 + E - b.bids_0_tick with hSdef
  have hS1 : 1 ≤ S := by omega
  have hb0' : (rebalance_bids_higher N E b t0).bids_0_tick = add32 t0 E :=
    (rebalance_bids_higher_frame N E b t0).2.1
  have hadd : add32 t0 E = t0 + E := add32_eq hW
  have hSle : b.bids_0_tick + S = t0 + E := by omega
  unfold live_bid
  rw [hb0', hadd]
  by_cases hr1 : t ≤ t0 + E ∧ t0 + E < t + N
  · rw [if_pos hr1]
    obtain ⟨hr1a, hr1b⟩ := hr1
    rw [haget]
    by_cases hk1 : S ≤ t0 + E - t
    · rw [if_pos (show S ≤ t0 + E - t ∧ t0 + E - t < N from ⟨hk1, by omega⟩),
        show t0 + E - t - S = b.bids_0_tick - t from by omega,
        if_pos (show t ≤ b.bids_0_tick ∧ b.bids_0_tick < t + N from ⟨by omega, by omega⟩)]
    · rw [if_neg (show ¬ (S ≤ t0 + E - t ∧ t0 + E - t < N) from by omega),
        if_neg (show ¬ (t ≤ b.bids_0_tick ∧ b.bids_0_tick < t + N) from by omega),
        hget_eq_none (fun kv hkv => by have := hdom kv hkv; omega)]
      by_cases hk2 : t0 + E - t < N - S
      · rw [if_pos hk2, if_neg (show ¬ eps < (0 : ℚ) from by simpa using eps_pos.le)]
      · rw [if_neg hk2, if_pos (show t0 + E - t < N from by omega)]
        by_cases hl : eps < aget b.bids (t0 + E - t)
        · rw [if_pos hl, if_neg (show ¬ eps < (0 : ℚ) from by simpa using eps_pos.le)]
        · rw [if_neg hl, if_neg hl]
  · rw [if_neg hr1, hhget t]
    by_cases hr2 : t0 + E < t
    · rw [if_neg (show ¬ (t ≤ b.bids_0_tick ∧ b.bids_0_tick < t + N ∧
          N - S ≤ b.bids_0_tick - t ∧ eps < aget b.bids (b.bids_0_tick - t)) from by
          rintro ⟨hd1, -, -, -⟩; omega),
        if_neg (show ¬ (t ≤ b.bids_0_tick ∧ b.bids_0_tick < t + N) from by omega)]
    · by_cases hr3 : t ≤ b.bids_0_tick ∧ b.bids_0_tick < t + N
      · obtain ⟨hr3a, hr3b⟩ := hr3
        by_cases hl : eps < aget b.bids (b.bids_0_tick - t)
        · rw [if_pos (show t ≤ b.bids_0_tick ∧ b.bids_0_tick < t + N ∧
              N - S ≤ b.bids_0_tick - t ∧ eps < aget b.bids (b.bids_0_tick - t) from
              ⟨hr3a, hr3b, by omega, hl⟩),
            if_pos (show t ≤ b.bids_0_tick ∧ b.bids_0_tick < t + N from ⟨hr3a, hr3b⟩),
            if_pos hl]
        · rw [if_neg (show ¬ (t ≤ b.bids_0_tick ∧ b.bids_0_tick < t + N ∧
              N - S ≤ b.bids_0_tick - t ∧ eps < aget b.bids (b.bids_0_tick - t)) from by
              rintro ⟨-, -, -, hd⟩; exact hl hd),
            if_pos (show t ≤ b.bids_0_tick ∧ b.bids_0_tick < t + N from ⟨hr3a, hr3b⟩),
            if_neg hl,
            hget_eq_none (fun kv hkv => by have := hdom kv hkv; omega)]
      · rw [if_neg (show ¬ (t ≤ b.bids_0_tick ∧ b.bids_0_tick < t + N ∧
            N - S ≤ b.bids_0_tick - t ∧ eps < aget b.bids (b.bids_0_tick - t)) from by
            rintro ⟨hd1, hd2, -, -⟩; exact hr3 ⟨hd1, hd2⟩),
          if_neg hr3]

theorem asks_step_a_spec (N E : ℕ) (hNE : 2 * E < N) (hNW : N < W16) {b : Book}
    (hinv : AskInv N E b) {l : TickLevel} (ht : l.tick < W32) :
    AskMid N E (asks_step_a N E b l) ∧
    (asks_step_a N E b l).asks_0_tick + (asks_step_a N E b l).best_ask_i ≤ l.tick ∧
    (asks_step_a N E b l).sequence_id = b.sequence_id ∧
    (asks_step_a N E b l).bids_0_tick = b.bids_0_tick ∧
    (asks_step_a N E b l).best_bid_i = b.best_bid_i ∧
    (asks_step_a N E b l).bids = b.bids ∧
    (asks_step_a N E b l).bids_heap = b.bids_heap ∧
    (∀ kv ∈ (asks_step_a N E b l).asks_heap, kv ∈ b.asks_heap ∨ eps < kv.2) := by
  obtain ⟨⟨alen, a0lt, best_le, a8, a7, hdom, hval, hsort, below⟩, bestOk⟩ := hinv
  have hW3216 : W16 ≤ W32 := W16_le_W32
  unfold asks_step_a
  dsimp only
  by_cases hc1 : l.tick < b.asks_0_tick
  · rw [if_pos hc1]
    have hfr := rebalance_asks_lower_frame N E b l.tick
    have hlen := rebalance_asks_lower_length N E b l.tick
    have haget := rebalance_asks_lower_aget N E b l.tick alen a0lt hc1
    have hS1 : 1 ≤ b.asks_0_tick - (l.tick - E) := by omega
    have hbS : l.tick - (l.tick - E) ≤ b.asks_0_tick - (l.tick - E) := by omega
    set S := b.asks_0_tick - (l.tick - E) with hS
    rw [hfr.2.1, sub32_eq (show l.tick - E ≤ l.tick from by omega) ht,
      toU16_eq (show l.tick - (l.tick - E) < W16 from by omega)]
    refine ⟨⟨?_, ?_, ?_, ?_, ?_, ?_, ?_, ?_, ?_⟩, ?_, hfr.1, hfr.2.2.2.1, hfr.2.2.2.2.1,
      hfr.2.2.2.2.2.1, hfr.2.2.2.2.2.2, ?_⟩
    · show (rebalance_asks_lower N E b l.tick).asks.length = N
      rw [hlen, alen]
    · show (rebalance_asks_lower N E b l.tick).asks_0_tick < W32
      rw [hfr.2.1]
      omega
    · show l.tick - (l.tick - E) ≤ 2 * E
      omega
    · show (rebalance_asks_lower N E b l.tick).asks_0_tick + (l.tick - (l.tick - E)) < W32
      rw [hfr.2.1]
      omega
    · show ∀ k, eps ≤ aget (rebalance_asks_lower N E b l.tick).asks k →
        (rebalance_asks_lower N E b l.tick).asks_0_tick + k < W32
      intro k hk
      rw [hfr.2.1]
      rw [haget] at hk
      by_cases hk1 : S ≤ k ∧ k < N
      · rw [if_pos hk1] at hk
        have := a7 (k - S) hk
        omega
      · rw [if_neg hk1] at hk
        by_cases hk2 : k < N - S
        · rw [if_pos hk2] at hk
          exact absurd hk (by simpa using eps_pos)
        · rw [if_neg hk2] at hk
          by_cases hk3 : k < N
          · rw [if_pos hk3] at hk
            by_cases hl : eps < aget b.asks k
            · rw [if_pos hl] at hk
              exact absurd hk (by simpa using eps_pos)
            · rw [if_neg hl] at hk
              have := a7 k hk
              omega
          · rw [if_neg hk3, aget_of_le (by omega)] at hk
            exact absurd hk (by simpa using eps_pos)
    · show ∀ kv ∈ (rebalance_asks_lower N E b l.tick).asks_heap,
        (rebalance_asks_lower N E b l.tick).asks_0_tick + N ≤ kv.1 ∧ kv.1 < W32
      intro kv hkv
      rw [hfr.2.1]
      rcases rebalance_asks_lower_heap_mem N E b l.tick a0lt hc1 hkv with hm | ⟨j, hj1, hj2, hj3, hj4⟩
      · have := hdom kv hm
        omega
      · have hjW := a7 j hj3.le
        rw [hj4]
        dsimp only
        rw [add32_eq hjW]
        omega
    · show ∀ kv ∈ (rebalance_asks_lower N E b l.tick).asks_heap, eps ≤ kv.2
      intro kv hkv
      rcases rebalance_asks_lower_heap_mem N E b l.tick a0lt hc1 hkv with hm | ⟨j, hj1, hj2, hj3, hj4⟩
      · exact hval kv hm
      · rw [hj4]
        exact hj3.le
    · exact rebalance_asks_lower_pairwise N E b l.tick hsort
    · show ∀ j < l.tick - (l.tick - E), ¬ eps < aget (rebalance_asks_lower N E b l.tick).asks j
      intro j hj
      rw [haget, if_neg (show ¬ (S ≤ j ∧ j < N) from by omega)]
      by_cases hk2 : j < N - S
      · rw [if_pos hk2]
        simpa using eps_pos.le
      · rw [if_neg hk2, if_pos (show j < N from by omega)]
        by_cases hl : eps < aget b.asks j
        · rw [if_pos hl]
          simpa using eps_pos.le
        · rw [if_neg hl]
          exact hl
    · show (rebalance_asks_lower N E b l.tick).asks_0_tick + (l.tick - (l.tick - E)) ≤ l.tick
      rw [hfr.2.1]
      omega
    · show ∀ kv ∈ (rebalance_asks_lower N E b l.tick).asks_heap, kv ∈ b.asks_heap ∨ eps < kv.2
      intro kv hkv
      rcases rebalance_asks_lower_heap_mem N E b l.tick a0lt hc1 hkv with hm | ⟨j, hj1, hj2, hj3, hj4⟩
      · exact Or.inl hm
      · right
        rw [hj4]
        exact hj3
  · rw [if_neg hc1]
    have haddeq : add32 b.best_ask_i b.asks_0_tick = b.best_ask_i + b.asks_0_tick :=
      add32_eq (by omega)
    rw [haddeq]
    by_cases hc2 : l.tick < b.best_ask_i + b.asks_0_tick
    · rw [if_pos hc2, sub32_eq (show b.asks_0_tick ≤ l.tick from by omega) ht,
        toU16_eq (show l.tick - b.asks_0_tick < W16 from by omega)]
      refine ⟨⟨alen, a0lt, ?_, ?_, a7, hdom, hval, hsort, ?_⟩, ?_, rfl, rfl, rfl, rfl, rfl,
        fun kv hkv => Or.inl hkv⟩
      · show l.tick - b.asks_0_tick ≤ 2 * E
        omega
      · show b.asks_0_tick + (l.tick - b.asks_0_tick) < W32
        omega
      · show ∀ j < l.tick - b.asks_0_tick, ¬ eps < aget b.asks j
        intro j hj
        exact below j (by omega)
      · show b.asks_0_tick + (l.tick - b.asks_0_tick) ≤ l.tick
        omega
    · rw [if_neg hc2]
      exact ⟨⟨alen, a0lt, best_le, a8, a7, hdom, hval, hsort, below⟩, by omega, rfl, rfl,
        rfl, rfl, rfl, fun kv hkv => Or.inl hkv⟩

theorem asks_step_a_live (N E : ℕ) {b : Book} (hinv : AskInv N E b) {l : TickLevel}
    (ht : l.tick < W32) :
    ∀ t, t < W32 → live_ask N (asks_step_a N E b l) t = live_ask N b t := by
  obtain ⟨⟨alen, a0lt, best_le, a8, a7, hdom, hval, hsort, below⟩, bestOk⟩ := hinv
  intro t htW
  unfold asks_step_a
  dsimp only
  by_cases hc1 : l.tick < b.asks_0_tick
  · rw [if_pos hc1]
    exact rebalance_asks_lower_live N E b l.tick alen a0lt hc1 a7 hdom t htW
  · rw [if_neg hc1]
    split_ifs <;> rfl

theorem bids_step_a_spec (N E : ℕ) (hNE : 2 * E < N) (hNW : N < W16) {b : Book}
    (hinv : BidInv N E b) {l : TickLevel} (hWt : l.tick + E < W32) :
    BidMid N E (bids_step_a N E b l) ∧
    l.tick ≤ (bids_step_a N E b l).bids_0_tick ∧
    l.tick + (bids_step_a N E b l).best_bid_i ≤ (bids_step_a N E b l).bids_0_tick ∧
    (bids_step_a N E b l).sequence_id = b.sequence_id ∧
    (bids_step_a N E b l).asks_0_tick = b.asks_0_tick ∧
    (bids_step_a N E b l).best_ask_i = b.best_ask_i ∧
    (bids_step_a N E b l).asks = b.asks ∧
    (bids_step_a N E b l).asks_heap = b.asks_heap ∧
    (∀ kv ∈ (bids_step_a N E b l).bids_heap, kv ∈ b.bids_heap ∨ eps < kv.2) := by
  obtain ⟨⟨blen, b0lt, best_le, b8, b7, hdom, hval, hsort, below⟩, bestOk⟩ := hinv
  have hW3216 : W16 ≤ W32 := W16_le_W32
  unfold bids_step_a
  dsimp only
  by_cases hc1 : b.bids_0_tick < l.tick
  · rw [if_pos hc1]
    have hfr := rebalance_bids_higher_frame N E b l.tick
    have hlen := rebalance_bids_higher_length N E b l.tick
    have haget := rebalance_bids_higher_aget N E b l.tick blen hWt hc1
    have hadd : add32 l.tick E = l.tick + E := add32_eq hWt
    have hS1 : 1 ≤ l.tick + E - b.bids_0_tick := by omega
    have hSE : E < l.tick + E - b.bids_0_tick := by omega
    set S := l.tick + E - b.bids_0_tick with hS
    rw [hfr.2.1, hadd, sub32_eq (show l.tick ≤ l.tick + E from by omega)
      (show l.tick + E < W32 from by omega),
      toU16_eq (show l.tick + E - l.tick < W16 from by omega)]
    refine ⟨⟨?_, ?_, ?_, ?_, ?_, ?_, ?_, ?_, ?_⟩, ?_, ?_, hfr.1, hfr.2.2.2.1,
      hfr.2.2.2.2.1, hfr.2.2.2.2.2.1, hfr.2.2.2.2.2.2, ?_⟩
    · show (rebalance_bids_higher N E b l.tick).bids.length = N
      rw [hlen, blen]
    · show (l.tick + E : ℕ) < W32
      omega
    · show l.tick + E - l.tick ≤ 2 * E
      omega
    · show l.tick + E - l.tick ≤ l.tick + E
      omega
    · show ∀ k, eps ≤ aget (rebalance_bids_higher N E b l.tick).bids k → k ≤ l.tick + E
      intro k hk
      rw [haget] at hk
      by_cases hk1 : S ≤ k ∧ k < N
      · rw [if_pos hk1] at hk
        have := b7 (k - S) hk
        omega
      · rw [if_neg hk1] at hk
        by_cases hk2 : k < N - S
        · rw [if_pos hk2] at hk
          exact absurd hk (by simpa using eps_pos)
        · rw [if_neg hk2] at hk
          by_cases hk3 : k < N
          · rw [if_pos hk3] at hk
            by_cases hl : eps < aget b.bids k
            · rw [if_pos hl] at hk
              exact absurd hk (by simpa using eps_pos)
            · rw [if_neg hl] at hk
              have := b7 k hk
              omega
          · rw [if_neg hk3, aget_of_le (by omega)] at hk
            exact absurd hk (by simpa using eps_pos)
    · show ∀ kv ∈ (rebalance_bids_higher N E b l.tick).bids_heap, kv.1 + N ≤ l.tick + E
      intro kv hkv
      rcases rebalance_bids_higher_heap_mem N E b l.tick hWt hc1 hkv with hm | ⟨j, hj1, hj2, hj3, hj4⟩
      · have := hdom kv hm
        omega
      · have hjb := b7 j hj3.le
        rw [hj4]
        dsimp only
        rw [sub32_eq hjb b0lt]
        omega
    · show ∀ kv ∈ (rebalance_bids_higher N E b l.tick).bids_heap, eps ≤ kv.2
      intro kv hkv
      rcases rebalance_bids_higher_heap_mem N E b l.tick hWt hc1 hkv with hm | ⟨j, hj1, hj2, hj3, hj4⟩
      · exact hval kv hm
      · rw [hj4]
        exact hj3.le
    · exact rebalance_bids_higher_pairwise N E b l.tick hsort
    · show ∀ j < l.tick + E - l.tick, ¬ eps < aget (rebalance_bids_higher N E b l.tick).bids j
      intro j hj
      rw [haget, if_neg (show ¬ (S ≤ j ∧ j < N) from by omega)]
      by_cases hk2 : j < N - S
      · rw [if_pos hk2]
        simpa using eps_pos.le
      · rw [if_neg hk2, if_pos (show j < N from by omega)]
        by_cases hl : eps < aget b.bids j
        · rw [if_pos hl]
          simpa using eps_pos.le
        · rw [if_neg hl]
          exact hl
    · show l.tick ≤ l.tick + E
      omega
    · show l.tick + (l.tick + E - l.tick) ≤ l.tick + E
      omega
    · show ∀ kv ∈ (rebalance_bids_higher N E b l.tick).bids_heap, kv ∈ b.bids_heap ∨ eps < kv.2
      intro kv hkv
      rcases rebalance_bids_higher_heap_mem N E b l.tick hWt hc1 hkv with hm | ⟨j, hj1, hj2, hj3, hj4⟩
      · exact Or.inl hm
      · right
        rw [hj4]
        exact hj3
  · rw [if_neg hc1]
    have hsubeq : sub32 b.bids_0_tick b.best_bid_i = b.bids_0_tick - b.best_bid_i :=
      sub32_eq b8 b0lt
    rw [hsubeq]
    by_cases hc2 : b.bids_0_tick - b.best_bid_i < l.tick
    · rw [if_pos hc2, sub32_eq (show l.tick ≤ b.bids_0_tick from by omega) b0lt,
        toU16_eq (show b.bids_0_tick - l.tick < W16 from by omega)]
      refine ⟨⟨blen, b0lt, ?_, ?_, b7, hdom, hval, hsort, ?_⟩,
        (show l.tick ≤ b.bids_0_tick from by omega), ?_, rfl, rfl, rfl,
        rfl, rfl, fun kv hkv => Or.inl hkv⟩
      · show b.bids_0_tick - l.tick ≤ 2 * E
        omega
      · show b.bids_0_tick - l.tick ≤ b.bids_0_tick
        omega
      · show ∀ j < b.bids_0_tick - l.tick, ¬ eps < aget b.bids j
        intro j hj
        exact below j (by omega)
      · show l.tick + (b.bids_0_tick - l.tick) ≤ b.bids_0_tick
        omega
    · rw [if_neg hc2]
      exact ⟨⟨blen, b0lt, best_le, b8, b7, hdom, hval, hsort, below⟩, by omega, by omega,
        rfl, rfl, rfl, rfl, rfl, fun kv hkv => Or.inl hkv⟩

theorem bids_step_a_live (N E : ℕ) {b : Book} (hinv : BidInv N E b) {l : TickLevel}
    (hWt : l.tick + E < W32) :
    ∀ t, t < W32 → live_bid N (bids_step_a N E b l) t = live_bid N b t := by
  obtain ⟨⟨blen, b0lt, best_le, b8, b7, hdom, hval, hsort, below⟩, bestOk⟩ := hinv
  intro t htW
  unfold bids_step_a
  dsimp only
  by_cases hc1 : b.bids_0_tick < l.tick
  · rw [if_pos hc1]
    exact rebalance_bids_higher_live N E b l.tick blen hWt hc1 b7 hdom t htW
  · rw [if_neg hc1]
    split_ifs <;> rfl

theorem insert_ask_mid (N E : ℕ) {b : Book} (hm : AskMid N E b) {l : TickLevel}
    (ht : l.tick < W32) (hbest : b.asks_0_tick + b.best_ask_i ≤ l.tick) :
    AskMid N E (insert_ask N b l) := by
  obtain ⟨alen, a0lt, best_le, a8, a7, hdom, hval, hsort, below⟩ := hm
  have hfr := insert_ask_frame N b l
  have hlen := insert_ask_length N b l
  have haget := insert_ask_aget N b l ht (by omega) alen
  refine ⟨?_, ?_, ?_, ?_, ?_, ?_, ?_, ?_, ?_⟩
  · rw [hlen, alen]
  · rw [hfr.2.1]; exact a0lt
  · rw [hfr.2.2.1]; exact best_le
  · rw [hfr.2.1, hfr.2.2.1]; exact a8
  · intro i hi
    rw [hfr.2.1]
    rw [haget] at hi
    by_cases hc : l.tick - b.asks_0_tick < N ∧ i = l.tick - b.asks_0_tick
    · omega
    · rw [if_neg hc] at hi
      exact a7 i hi
  · intro kv hkv
    rw [hfr.2.1]
    rcases insert_ask_heap_mem N b l hkv with hmm | ⟨heq, hN, -⟩
    · exact hdom kv hmm
    · rw [sub32_eq (by omega) ht] at hN
      rw [heq]
      exact ⟨by omega, ht⟩
  · intro kv hkv
    rcases insert_ask_heap_mem N b l hkv with hmm | ⟨heq, -, hsz⟩
    · exact hval kv hmm
    · rw [heq]
      exact le_of_not_lt hsz
  · exact insert_ask_pairwise N b l hsort
  · intro j hj
    rw [hfr.2.2.1] at hj
    rw [haget, if_neg (show ¬ (l.tick - b.asks_0_tick < N ∧ j = l.tick - b.asks_0_tick) from by
      rintro ⟨-, hj2⟩; omega)]
    exact below j hj

theorem insert_bid_mid (N E : ℕ) {b : Book} (hm : BidMid N E b) {l : TickLevel}
    (hbest : l.tick + b.best_bid_i ≤ b.bids_0_tick) :
    BidMid N E (insert_bid N b l) := by
  obtain ⟨blen, b0lt, best_le, b8, b7, hdom, hval, hsort, below⟩ := hm
  have hfr := insert_bid_frame N b l
  have hlen := insert_bid_length N b l
  have haget := insert_bid_aget N b l b0lt (by omega) blen
  refine ⟨?_, ?_, ?_, ?_, ?_, ?_, ?_, ?_, ?_⟩
  · rw [hlen, blen]
  · rw [hfr.2.1]; exact b0lt
  · rw [hfr.2.2.1]; exact best_le
  · rw [hfr.2.1, hfr.2.2.1]; exact b8
  · intro i hi
    rw [hfr.2.1]
    rw [haget] at hi
    by_cases hc : b.bids_0_tick - l.tick < N ∧ i = b.bids_0_tick - l.tick
    · omega
    · rw [if_neg hc] at hi
      exact b7 i hi
  · intro kv hkv
    rw [hfr.2.1]
    rcases insert_bid_heap_mem N b l hkv with hmm | ⟨heq, hN, -⟩
    · exact hdom kv hmm
    · rw [sub32_eq (by omega) b0lt] at hN
      rw [heq]
      omega
  · intro kv hkv
    rcases insert_bid_heap_mem N b l hkv with hmm | ⟨heq, -, hsz⟩
    · exact hval kv hmm
    · rw [heq]
      exact le_of_not_lt hsz
  · exact insert_bid_pairwise N b l hsort
  · intro j hj
    rw [hfr.2.2.1] at hj
    rw [haget, if_neg (show ¬ (b.bids_0_tick - l.tick < N ∧ j = b.bids_0_tick - l.tick) from by
      rintro ⟨-, hj2⟩; omega)]
    exact below j hj

theorem insert_ask_live (N : ℕ) {b : Book} {l : TickLevel}
    (halen : b.asks.length = N) (hsort : b.asks_heap.Pairwise (fun x y => x.1 < y.1))
    (ht : l.tick < W32) (hge : b.asks_0_tick ≤ l.tick) (hne : l.size ≠ eps) :
    ∀ t, live_ask N (insert_ask N b l) t = apply_level (live_ask N b) l t := by
  intro t
  have hfr := insert_ask_frame N b l
  have haget := insert_ask_aget N b l ht hge halen
  unfold live_ask apply_level
  dsimp only
  rw [hfr.2.1]
  by_cases hw : b.asks_0_tick ≤ t ∧ t < b.asks_0_tick + N
  · rw [if_pos hw, haget]
    by_cases hteq : t = l.tick
    · subst hteq
      rw [if_pos (show l.tick - b.asks_0_tick < N ∧
            l.tick - b.asks_0_tick = l.tick - b.asks_0_tick from ⟨by omega, rfl⟩),
        if_pos (show l.tick = l.tick from rfl)]
    · rw [if_neg (show ¬ (l.tick - b.asks_0_tick < N ∧ t - b.asks_0_tick = l.tick - b.asks_0_tick)
          from by rintro ⟨-, h2⟩; omega),
        if_neg hteq, if_pos hw]
  · rw [if_neg hw, insert_ask_hget N b l ht hge hsort t]
    by_cases hN : l.tick - b.asks_0_tick < N
    · rw [if_pos hN, if_neg (show t ≠ l.tick from by rintro rfl; omega), if_neg hw]
    · rw [if_neg hN]
      by_cases hteq : t = l.tick
      · rw [if_pos hteq, if_pos hteq]
        by_cases hsz : l.size < eps
        · rw [if_pos hsz, if_neg (show ¬ eps < l.size from not_lt_of_lt hsz)]
        · rw [if_neg hsz, if_pos (lt_of_le_of_ne (le_of_not_lt hsz) (Ne.symm hne))]
      · rw [if_neg hteq, if_neg hteq, if_neg hw]

theorem insert_bid_live (N : ℕ) {b : Book} {l : TickLevel}
    (hblen : b.bids.length = N) (hsort : b.bids_heap.Pairwise (fun x y => x.1 < y.1))
    (hb0 : b.bids_0_tick < W32) (hle : l.tick ≤ b.bids_0_tick) (hne : l.size ≠ eps) :
    ∀ t, live_bid N (insert_bid N b l) t = apply_level (live_bid N b) l t := by
  intro t
  have hfr := insert_bid_frame N b l
  have haget := insert_bid_aget N b l hb0 hle hblen
  unfold live_bid apply_level
  dsimp only
  rw [hfr.2.1]
  by_cases hw : t ≤ b.bids_0_tick ∧ b.bids_0_tick < t + N
  · rw [if_pos hw, haget]
    by_cases hteq : t = l.tick
    · subst hteq
      rw [if_pos (show b.bids_0_tick - l.tick < N ∧
            b.bids_0_tick - l.tick = b.bids_0_tick - l.tick from ⟨by omega, rfl⟩),
        if_pos (show l.tick = l.tick from rfl)]
    · rw [if_neg (show ¬ (b.bids_0_tick - l.tick < N ∧ b.bids_0_tick - t = b.bids_0_tick - l.tick)
          from by rintro ⟨-, h2⟩; omega),
        if_neg hteq, if_pos hw]
  · rw [if_neg hw, insert_bid_hget N b l hb0 hle hsort t]
    by_cases hN : b.bids_0_tick - l.tick < N
    · rw [if_pos hN, if_neg (show t ≠ l.tick from by rintro rfl; omega), if_neg hw]
    · rw [if_neg hN]
      by_cases hteq : t = l.tick
      · rw [if_pos hteq, if_pos hteq]
        by_cases hsz : l.size < eps
        · rw [if_pos hsz, if_neg (show ¬ eps < l.size from not_lt_of_lt hsz)]
        · rw [if_neg hsz, if_pos (lt_of_le_of_ne (le_of_not_lt hsz) (Ne.symm hne))]
      · rw [if_neg hteq, if_neg hteq, if_neg hw]

theorem foldl_insert_ask_spec (N E : ℕ) (ls : List TickLevel) {b : Book} (hm : AskMid N E b)
    (hall : ∀ x ∈ ls, x.tick < W32 ∧ b.asks_0_tick + b.best_ask_i ≤ x.tick) :
    AskMid N E (ls.foldl (insert_ask N) b) ∧
    (ls.foldl (insert_ask N) b).sequence_id = b.sequence_id ∧
    (ls.foldl (insert_ask N) b).asks_0_tick = b.asks_0_tick ∧
    (ls.foldl (insert_ask N) b).best_ask_i = b.best_ask_i ∧
    (ls.foldl (insert_ask N) b).bids_0_tick = b.bids_0_tick ∧
    (ls.foldl (insert_ask N) b).best_bid_i = b.best_bid_i ∧
    (ls.foldl (insert_ask N) b).bids = b.bids ∧
    (ls.foldl (insert_ask N) b).bids_heap = b.bids_heap ∧
    (∀ kv ∈ (ls.foldl (insert_ask N) b).asks_heap,
      kv ∈ b.asks_heap ∨ ∃ x ∈ ls, kv = (x.tick, x.size)) := by
  induction ls generalizing b with
  | nil => exact ⟨hm, rfl, rfl, rfl, rfl, rfl, rfl, rfl, fun kv hkv => Or.inl hkv⟩
  | cons l ls ih =>
      have h1 := hall l (List.mem_cons_self l ls)
      have hmid := insert_ask_mid N E hm h1.1 h1.2
      have hfr := insert_ask_frame N b l
      have hall' : ∀ x ∈ ls, x.tick < W32 ∧
          (insert_ask N b l).asks_0_tick + (insert_ask N b l).best_ask_i ≤ x.tick := by
        intro x hx
        have h2 := hall x (List.mem_cons_of_mem l hx)
        exact ⟨h2.1, by rw [hfr.2.1, hfr.2.2.1]; exact h2.2⟩
      obtain ⟨hmidF, hseq, ha0, hbi, hb0, hbb, hbds, hbh, hheap⟩ := ih hmid hall'
      rw [List.foldl_cons]
      refine ⟨hmidF, hseq.trans hfr.1, ha0.trans hfr.2.1, hbi.trans hfr.2.2.1,
        hb0.trans hfr.2.2.2.1, hbb.trans hfr.2.2.2.2.1, hbds.trans hfr.2.2.2.2.2.1,
        hbh.trans hfr.2.2.2.2.2.2, ?_⟩
      intro kv hkv
      rcases hheap kv hkv with hin | ⟨x, hx, heq⟩
      · rcases insert_ask_heap_mem N b l hin with hin2 | ⟨heq, -, -⟩
        · exact Or.inl hin2
        · exact Or.inr ⟨l, List.mem_cons_self l ls, heq⟩
      · exact Or.inr ⟨x, List.mem_cons_of_mem l hx, heq⟩

theorem foldl_insert_bid_spec (N E : ℕ) (ls : List TickLevel) {b : Book} (hm : BidMid N E b)
    (hall : ∀ x ∈ ls, x.tick + b.best_bid_i ≤ b.bids_0_tick) :
    BidMid N E (ls.foldl (insert_bid N) b) ∧
    (ls.foldl (insert_bid N) b).sequence_id = b.sequence_id ∧
    (ls.foldl (insert_bid N) b).bids_0_tick = b.bids_0_tick ∧
    (ls.foldl (insert_bid N) b).best_bid_i = b.best_bid_i ∧
    (ls.foldl (insert_bid N) b).asks_0_tick = b.asks_0_tick ∧
    (ls.foldl (insert_bid N) b).best_ask_i = b.best_ask_i ∧
    (ls.foldl (insert_bid N) b).asks = b.asks ∧
    (ls.foldl (insert_bid N) b).asks_heap = b.asks_heap ∧
    (∀ kv ∈ (ls.foldl (insert_bid N) b).bids_heap,
      kv ∈ b.bids_heap ∨ ∃ x ∈ ls, kv = (x.tick, x.size)) := by
  induction ls generalizing b with
  | nil => exact ⟨hm, rfl, rfl, rfl, rfl, rfl, rfl, rfl, fun kv hkv => Or.inl hkv⟩
  | cons l ls ih =>
      have h1 := hall l (List.mem_cons_self l ls)
      have hmid := insert_bid_mid N E hm h1
      have hfr := insert_bid_frame N b l
      have hall' : ∀ x ∈ ls,
          x.tick + (insert_bid N b l).best_bid_i ≤ (insert_bid N b l).bids_0_tick := by
        intro x hx
        have h2 := hall x (List.mem_cons_of_mem l hx)
        rw [hfr.2.1, hfr.2.2.1]
        exact h2
      obtain ⟨hmidF, hseq, hb0, hbi, ha0, hba, hass, hah, hheap⟩ := ih hmid hall'
      rw [List.foldl_cons]
      refine ⟨hmidF, hseq.trans hfr.1, hb0.trans hfr.2.1, hbi.trans hfr.2.2.1,
        ha0.trans hfr.2.2.2.1, hba.trans hfr.2.2.2.2.1, hass.trans hfr.2.2.2.2.2.1,
        hah.trans hfr.2.2.2.2.2.2, ?_⟩
      intro kv hkv
      rcases hheap kv hkv with hin | ⟨x, hx, heq⟩
      · rcases insert_bid_heap_mem N b l hin with hin2 | ⟨heq, -, -⟩
        · exact Or.inl hin2
        · exact Or.inr ⟨l, List.mem_cons_self l ls, heq⟩
      · exact Or.inr ⟨x, List.mem_cons_of_mem l hx, heq⟩

theorem foldl_insert_ask_live (N : ℕ) (ls : List TickLevel) {b : Book}
    (halen : b.asks.length = N) (hsort : b.asks_heap.Pairwise (fun x y => x.1 < y.1))
    (hall : ∀ x ∈ ls, x.tick < W32 ∧ b.asks_0_tick ≤ x.tick ∧ x.size ≠ eps) :
    ∀ t, live_ask N (ls.foldl (insert_ask N) b) t = ls.foldl apply_level (live_ask N b) t := by
  induction ls generalizing b with
  | nil => intro t; rfl
  | cons l ls ih =>
      intro t
      have h1 := hall l (List.mem_cons_self l ls)
      have hfr := insert_ask_frame N b l
      have hall' : ∀ x ∈ ls, x.tick < W32 ∧ (insert_ask N b l).asks_0_tick ≤ x.tick ∧
          x.size ≠ eps := by
        intro x hx
        have h2 := hall x (List.mem_cons_of_mem l hx)
        exact ⟨h2.1, by rw [hfr.2.1]; exact h2.2.1, h2.2.2⟩
      have hlive : live_ask N (insert_ask N b l) = apply_level (live_ask N b) l :=
        funext (insert_ask_live N halen hsort h1.1 h1.2.1 h1.2.2)
      rw [List.foldl_cons, List.foldl_cons,
        ih ((insert_ask_length N b l).trans halen) (insert_ask_pairwise N b l hsort) hall' t,
        hlive]

theorem foldl_insert_bid_live (N : ℕ) (ls : List TickLevel) {b : Book}
    (hblen : b.bids.length = N) (hsort : b.bids_heap.Pairwise (fun x y => x.1 < y.1))
    (hb0 : b.bids_0_tick < W32)
    (hall : ∀ x ∈ ls, x.tick ≤ b.bids_0_tick ∧ x.size ≠ eps) :
    ∀ t, live_bid N (ls.foldl (insert_bid N) b) t = ls.foldl apply_level (live_bid N b) t := by
  induction ls generalizing b with
  | nil => intro t; rfl
  | cons l ls ih =>
      intro t
      have h1 := hall l (List.mem_cons_self l ls)
      have hfr := insert_bid_frame N b l
      have hall' : ∀ x ∈ ls, x.tick ≤ (insert_bid N b l).bids_0_tick ∧ x.size ≠ eps := by
        intro x hx
        have h2 := hall x (List.mem_cons_of_mem l hx)
        exact ⟨by rw [hfr.2.1]; exact h2.1, h2.2⟩
      have hlive : live_bid N (insert_bid N b l) = apply_level (live_bid N b) l :=
        funext (insert_bid_live N hblen hsort hb0 h1.1 h1.2)
      rw [List.foldl_cons, List.foldl_cons,
        ih ((insert_bid_length N b l).trans hblen) (insert_bid_pairwise N b l hsort)
          (by rw [hfr.2.1]; exact hb0) hall' t,
        hlive]

theorem foldl_apply_level_congr (ls : List TickLevel) :
    ∀ {m m' : ℕ → Option ℚ} {t : ℕ}, m t = m' t →
      ls.foldl apply_level m t = ls.foldl apply_level m' t := by
  induction ls with
  | nil => intro m m' t h; exact h
  | cons l ls ih =>
      intro m m' t h
      rw [List.foldl_cons, List.foldl_cons]
      refine ih ?_
      unfold apply_level
      by_cases hteq : t = l.tick
      · rw [if_pos hteq, if_pos hteq]
      · rw [if_neg hteq, if_neg hteq]
        exact h

theorem asks_phase_ab_spec (N E : ℕ) (hNE : 2 * E < N) (hNW : N < W16) {b : Book}
    (hinv : AskInv N E b) {u : TickUpdate}
    (hsorted : u.asks.Pairwise (fun x y => x.tick ≤ y.tick))
    (hticks : ∀ l ∈ u.asks, l.tick < W32) :
    AskMid N E (asks_phase_ab N E b u) ∧
    (asks_phase_ab N E b u).sequence_id = b.sequence_id ∧
    (asks_phase_ab N E b u).bids_0_tick = b.bids_0_tick ∧
    (asks_phase_ab N E b u).best_bid_i = b.best_bid_i ∧
    (asks_phase_ab N E b u).bids = b.bids ∧
    (asks_phase_ab N E b u).bids_heap = b.bids_heap ∧
    (∀ kv ∈ (asks_phase_ab N E b u).asks_heap,
      kv ∈ b.asks_heap ∨ eps < kv.2 ∨ ∃ x ∈ u.asks, kv = (x.tick, x.size)) := by
  unfold asks_phase_ab
  cases hu : u.asks with
  | nil => exact ⟨hinv.toAskMid, rfl, rfl, rfl, rfl, rfl, fun kv hkv => Or.inl hkv⟩
  | cons l rest =>
      rw [hu] at hsorted hticks
      dsimp only
      have hsr := List.pairwise_cons.mp hsorted
      have htl := hticks l (List.mem_cons_self l rest)
      obtain ⟨hmid1, hble, hseq1, hb01, hbb1, hbds1, hbh1, hheap1⟩ :=
        asks_step_a_spec N E hNE hNW hinv htl
      set b1 := asks_step_a N E b l with hb1
      have hmid2 := insert_ask_mid N E hmid1 htl hble
      have hfr2 := insert_ask_frame N b1 l
      set b2 := insert_ask N b1 l with hb2
      have hall : ∀ x ∈ rest, x.tick < W32 ∧ b2.asks_0_tick + b2.best_ask_i ≤ x.tick := by
        intro x hx
        refine ⟨hticks x (List.mem_cons_of_mem l hx), ?_⟩
        rw [hfr2.2.1, hfr2.2.2.1]
        exact le_trans hble (hsr.1 x hx)
      obtain ⟨hmidF, hseqF, ha0F, hbiF, hb0F, hbbF, hbdsF, hbhF, hheapF⟩ :=
        foldl_insert_ask_spec N E rest hmid2 hall
      refine ⟨hmidF, hseqF.trans (hfr2.1.trans hseq1),
        hb0F.trans (hfr2.2.2.2.1.trans hb01),
        hbbF.trans (hfr2.2.2.2.2.1.trans hbb1),
        hbdsF.trans (hfr2.2.2.2.2.2.1.trans hbds1),
        hbhF.trans (hfr2.2.2.2.2.2.2.trans hbh1), ?_⟩
      intro kv hkv
      rcases hheapF kv hkv with hin2 | ⟨x, hx, heq⟩
      · rcases insert_ask_heap_mem N b1 l hin2 with hin1 | ⟨heq, -, -⟩
        · rcases hheap1 kv hin1 with hin0 | hlt
          · exact Or.inl hin0
          · exact Or.inr (Or.inl hlt)
        · exact Or.inr (Or.inr ⟨l, List.mem_cons_self l rest, heq⟩)
      · exact Or.inr (Or.inr ⟨x, List.mem_cons_of_mem l hx, heq⟩)

theorem bids_phase_ab_spec (N E : ℕ) (hNE : 2 * E < N) (hNW : N < W16) {b : Book}
    (hinv : BidInv N E b) {u : TickUpdate}
    (hsorted : u.bids.Pairwise (fun x y => y.tick ≤ x.tick))
    (hticks : ∀ l ∈ u.bids, l.tick + E < W32) :
    BidMid N E (bids_phase_ab N E b u) ∧
    (bids_phase_ab N E b u).sequence_id = b.sequence_id ∧
    (bids_phase_ab N E b u).asks_0_tick = b.asks_0_tick ∧
    (bids_phase_ab N E b u).best_ask_i = b.best_ask_i ∧
    (bids_phase_ab N E b u).asks = b.asks ∧
    (bids_phase_ab N E b u).asks_heap = b.asks_heap ∧
    (∀ kv ∈ (bids_phase_ab N E b u).bids_heap,
      kv ∈ b.bids_heap ∨ eps < kv.2 ∨ ∃ x ∈ u.bids, kv = (x.tick, x.size)) := by
  unfold bids_phase_ab
  cases hu : u.bids with
  | nil => exact ⟨hinv.toBidMid, rfl, rfl, rfl, rfl, rfl, fun kv hkv => Or.inl hkv⟩
  | cons l rest =>
      rw [hu] at hsorted hticks
      dsimp only
      have hsr := List.pairwise_cons.mp hsorted
      have htl := hticks l (List.mem_cons_self l rest)
      obtain ⟨hmid1, hlle, hble, hseq1, ha01, hba1, hass1, hah1, hheap1⟩ :=
        bids_step_a_spec N E hNE hNW hinv htl
      set b1 := bids_step_a N E b l with hb1
      have hmid2 := insert_bid_mid N E hmid1 hble
      have hfr2 := insert_bid_frame N b1 l
      set b2 := insert_bid N b1 l with hb2
      have hall : ∀ x ∈ rest, x.tick + b2.best_bid_i ≤ b2.bids_0_tick := by
        intro x hx
        rw [hfr2.2.1, hfr2.2.2.1]
        exact le_trans (by have := hsr.1 x hx; omega) hble
      obtain ⟨hmidF, hseqF, hb0F, hbiF, ha0F, hbaF, hassF, hahF, hheapF⟩ :=
        foldl_insert_bid_spec N E rest hmid2 hall
      refine ⟨hmidF, hseqF.trans (hfr2.1.trans hseq1),
        ha0F.trans (hfr2.2.2.2.1.trans ha01),
        hbaF.trans (hfr2.2.2.2.2.1.trans hba1),
        hassF.trans (hfr2.2.2.2.2.2.1.trans hass1),
        hahF.trans (hfr2.2.2.2.2.2.2.trans hah1), ?_⟩
      intro kv hkv
      rcases hheapF kv hkv with hin2 | ⟨x, hx, heq⟩
      · rcases insert_bid_heap_mem N b1 l hin2 with hin1 | ⟨heq, -, -⟩
        · rcases hheap1 kv hin1 with hin0 | hlt
          · exact Or.inl hin0
          · exact Or.inr (Or.inl hlt)
        · exact Or.inr (Or.inr ⟨l, List.mem_cons_self l rest, heq⟩)
      · exact Or.inr (Or.inr ⟨x, List.mem_cons_of_mem l hx, heq⟩)

theorem asks_phase_ab_live (N E : ℕ) (hNE : 2 * E < N) (hNW : N < W16) {b : Book}
    (hinv : AskInv N E b) {u : TickUpdate}
    (hsorted : u.asks.Pairwise (fun x y => x.tick ≤ y.tick))
    (hticks : ∀ l ∈ u.asks, l.tick < W32) (hne : ∀ l ∈ u.asks, l.size ≠ eps) :
    ∀ t, t < W32 →
      live_ask N (asks_phase_ab N E b u) t = u.asks.foldl apply_level (live_ask N b) t := by
  intro t htW
  unfold asks_phase_ab
  cases hu : u.asks with
  | nil => rfl
  | cons l rest =>
      rw [hu] at hsorted hticks hne
      dsimp only
      have hsr := List.pairwise_cons.mp hsorted
      have htl := hticks l (List.mem_cons_self l rest)
      obtain ⟨hmid1, hble, -, -, -, -, -, -⟩ := asks_step_a_spec N E hNE hNW hinv htl
      have hlive1 := asks_step_a_live N E hinv htl
      set b1 := asks_step_a N E b l with hb1
      have hmid2 := insert_ask_mid N E hmid1 htl hble
      have hfr2 := insert_ask_frame N b1 l
      have hlive2 : live_ask N (insert_ask N b1 l) = apply_level (live_ask N b1) l :=
        funext (insert_ask_live N hmid1.alen hmid1.hsort htl (by omega)
          (hne l (List.mem_cons_self l rest)))
      set b2 := insert_ask N b1 l with hb2
      have hall : ∀ x ∈ rest, x.tick < W32 ∧ b2.asks_0_tick ≤ x.tick ∧ x.size ≠ eps := by
        intro x hx
        refine ⟨hticks x (List.mem_cons_of_mem l hx), ?_,
          hne x (List.mem_cons_of_mem l hx)⟩
        rw [hfr2.2.1]
        calc b1.asks_0_tick ≤ l.tick := by omega
          _ ≤ x.tick := hsr.1 x hx
      rw [List.foldl_cons,
        foldl_insert_ask_live N rest (hmid2.alen) (hmid2.hsort) hall t]
      refine foldl_apply_level_congr rest ?_
      rw [hlive2]
      unfold apply_level
      by_cases hteq : t = l.tick
      · rw [if_pos hteq, if_pos hteq]
      · rw [if_neg hteq, if_neg hteq]
        exact hlive1 t htW

theorem bids_phase_ab_live (N E : ℕ) (hNE : 2 * E < N) (hNW : N < W16) {b : Book}
    (hinv : BidInv N E b) {u : TickUpdate}
    (hsorted : u.bids.Pairwise (fun x y => y.tick ≤ x.tick))
    (hticks : ∀ l ∈ u.bids, l.tick + E < W32) (hne : ∀ l ∈ u.bids, l.size ≠ eps) :
    ∀ t, t < W32 →
      live_bid N (bids_phase_ab N E b u) t = u.bids.foldl apply_level (live_bid N b) t := by
  intro t htW
  unfold bids_phase_ab
  cases hu : u.bids with
  | nil => rfl
  | cons l rest =>
      rw [hu] at hsorted hticks hne
      dsimp only
      have hsr := List.pairwise_cons.mp hsorted
      have htl := hticks l (List.mem_cons_self l rest)
      obtain ⟨hmid1, hlle, hble, -, -, -, -, -⟩ := bids_step_a_spec N E hNE hNW hinv htl
      have hlive1 := bids_step_a_live N E hinv htl
      set b1 := bids_step_a N E b l with hb1
      have hmid2 := insert_bid_mid N E hmid1 hble
      have hfr2 := insert_bid_frame N b1 l
      have hlive2 : live_bid N (insert_bid N b1 l) = apply_level (live_bid N b1) l :=
        funext (insert_bid_live N hmid1.blen hmid1.hsort hmid1.b0lt (by omega)
          (hne l (List.mem_cons_self l rest)))
      set b2 := insert_bid N b1 l with hb2
      have hall : ∀ x ∈ rest, x.tick ≤ b2.bids_0_tick ∧ x.size ≠ eps := by
        intro x hx
        refine ⟨?_, hne x (List.mem_cons_of_mem l hx)⟩
        rw [hfr2.2.1]
        calc x.tick ≤ l.tick := hsr.1 x hx
          _ ≤ b1.bids_0_tick := hlle
      rw [List.foldl_cons,
        foldl_insert_bid_live N rest (hmid2.blen) (hmid2.hsort)
          (by rw [hfr2.2.1]; exact hmid1.b0lt) hall t]
      refine foldl_apply_level_congr rest ?_
      rw [hlive2]
      unfold apply_level
      by_cases hteq : t = l.tick
      · rw [if_pos hteq, if_pos hteq]
      · rw [if_neg hteq, if_neg hteq]
        exact hlive1 t htW

theorem live_ask_congr (N : ℕ) {b b' : Book} (h0 : b'.asks_0_tick = b.asks_0_tick)
    (ha : b'.asks = b.asks) (hh : b'.asks_heap = b.asks_heap) (t : ℕ) :
    live_ask N b' t = live_ask N b t := by
  unfold live_ask
  rw [h0, ha, hh]

theorem live_bid_congr (N : ℕ) {b b' : Book} (h0 : b'.bids_0_tick = b.bids_0_tick)
    (ha : b'.bids = b.bids) (hh : b'.bids_heap = b.bids_heap) (t : ℕ) :
    live_bid N b' t = live_bid N b t := by
  unfold live_bid
  rw [h0, ha, hh]

theorem askinv_congr (N E : ℕ) {b b' : Book} (hi : AskInv N E b)
    (h0 : b'.asks_0_tick = b.asks_0_tick) (hb : b'.best_ask_i = b.best_ask_i)
    (ha : b'.asks = b.asks) (hh : b'.asks_heap = b.asks_heap) : AskInv N E b' := by
  obtain ⟨⟨alen, a0lt, best_le, a8, a7, hdom, hval, hsort, below⟩, bestOk⟩ := hi
  refine ⟨⟨?_, ?_, ?_, ?_, ?_, ?_, ?_, ?_, ?_⟩, ?_⟩
  · rw [ha]; exact alen
  · rw [h0]; exact a0lt
  · rw [hb]; exact best_le
  · rw [h0, hb]; exact a8
  · intro i hi
    rw [ha] at hi
    rw [h0]
    exact a7 i hi
  · intro kv hkv
    rw [hh] at hkv
    rw [h0]
    exact hdom kv hkv
  · intro kv hkv
    rw [hh] at hkv
    exact hval kv hkv
  · rw [hh]; exact hsort
  · intro j hj
    rw [hb] at hj
    rw [ha]
    exact below j hj
  · rintro ⟨i, hi⟩
    rw [ha] at hi
    rw [ha, hb]
    exact bestOk ⟨i, hi⟩

theorem bidinv_congr (N E : ℕ) {b b' : Book} (hi : BidInv N E b)
    (h0 : b'.bids_0_tick = b.bids_0_tick) (hb : b'.best_bid_i = b.best_bid_i)
    (ha : b'.bids = b.bids) (hh : b'.bids_heap = b.bids_heap) : BidInv N E b' := by
  obtain ⟨⟨blen, b0lt, best_le, b8, b7, hdom, hval, hsort, below⟩, bestOk⟩ := hi
  refine ⟨⟨?_, ?_, ?_, ?_, ?_, ?_, ?_, ?_, ?_⟩, ?_⟩
  · rw [ha]; exact blen
  · rw [h0]; exact b0lt
  · rw [hb]; exact best_le
  · rw [h0, hb]; exact b8
  · intro i hi
    rw [ha] at hi
    rw [h0]
    exact b7 i hi
  · intro kv hkv
    rw [hh] at hkv
    rw [h0]
    exact hdom kv hkv
  · intro kv hkv
    rw [hh] at hkv
    exact hval kv hkv
  · rw [hh]; exact hsort
  · intro j hj
    rw [hb] at hj
    rw [ha]
    exact below j hj
  · rintro ⟨i, hi⟩
    rw [ha] at hi
    rw [ha, hb]
    exact bestOk ⟨i, hi⟩

theorem asks_stage_spec (N E : ℕ) (hNE : 2 * E < N) (hNW : N < W16) {b : Book}
    (hinv : AskInv N E b) {u : TickUpdate}
    (hsorted : u.asks.Pairwise (fun x y => x.tick ≤ y.tick))
    (hticks : ∀ l ∈ u.asks, l.tick < W32) :
    AskInv N E (asks_stage N E b u) ∧
    (asks_stage N E b u).sequence_id = b.sequence_id ∧
    (asks_stage N E b u).bids_0_tick = b.bids_0_tick ∧
    (asks_stage N E b u).best_bid_i = b.best_bid_i ∧
    (asks_stage N E b u).bids = b.bids ∧
    (asks_stage N E b u).bids_heap = b.bids_heap ∧
    (∀ kv ∈ (asks_stage N E b u).asks_heap,
      kv ∈ b.asks_heap ∨ eps < kv.2 ∨ ∃ x ∈ u.asks, kv = (x.tick, x.size)) := by
  obtain ⟨hmid, hseq, hb0, hbb, hbds, hbh, hheap⟩ :=
    asks_phase_ab_spec N E hNE hNW hinv hsorted hticks
  have hC := asksC_spec N E hNE hNW hmid
  have hCfr := rebalance_asks_higher_frame N E (asks_phase_ab N E b u)
  unfold asks_stage
  exact ⟨hC.1, hCfr.1.trans hseq, hCfr.2.1.trans hb0, hCfr.2.2.1.trans hbb,
    hCfr.2.2.2.1.trans hbds, hCfr.2.2.2.2.trans hbh,
    fun kv hkv => hheap kv (hC.2 kv hkv)⟩

theorem bids_stage_spec (N E : ℕ) (hNE : 2 * E < N) (hNW : N < W16) {b : Book}
    (hinv : BidInv N E b) {u : TickUpdate}
    (hsorted : u.bids.Pairwise (fun x y => y.tick ≤ x.tick))
    (hticks : ∀ l ∈ u.bids, l.tick + E < W32) :
    BidInv N E (bids_stage N E b u) ∧
    (bids_stage N E b u).sequence_id = b.sequence_id ∧
    (bids_stage N E b u).asks_0_tick = b.asks_0_tick ∧
    (bids_stage N E b u).best_ask_i = b.best_ask_i ∧
    (bids_stage N E b u).asks = b.asks ∧
    (bids_stage N E b u).asks_heap = b.asks_heap ∧
    (∀ kv ∈ (bids_stage N E b u).bids_heap,
      kv ∈ b.bids_heap ∨ eps < kv.2 ∨ ∃ x ∈ u.bids, kv = (x.tick, x.size)) := by
  obtain ⟨hmid, hseq, ha0, hba, hass, hah, hheap⟩ :=
    bids_phase_ab_spec N E hNE hNW hinv hsorted hticks
  have hC := bidsC_spec N E hNE hNW hmid
  have hCfr := rebalance_bids_lower_frame N E (bids_phase_ab N E b u)
  unfold bids_stage
  exact ⟨hC.1, hCfr.1.trans hseq, hCfr.2.1.trans ha0, hCfr.2.2.1.trans hba,
    hCfr.2.2.2.1.trans hass, hCfr.2.2.2.2.trans hah,
    fun kv hkv => hheap kv (hC.2 kv hkv)⟩

theorem asks_stage_live (N E : ℕ) (hNE : 2 * E < N) (hNW : N < W16) {b : Book}
    (hinv : AskInv N E b) {u : TickUpdate}
    (hsorted : u.asks.Pairwise (fun x y => x.tick ≤ y.tick))
    (hticks : ∀ l ∈ u.asks, l.tick < W32) (hne : ∀ l ∈ u.asks, l.size ≠ eps)
    (hsh : ∀ kv ∈ b.asks_heap, eps < kv.2) :
    (∀ kv ∈ (asks_stage N E b u).asks_heap, eps < kv.2) ∧
    (∀ t, t < W32 →
      live_ask N (asks_stage N E b u) t = u.asks.foldl apply_level (live_ask N b) t) := by
  obtain ⟨hmid, hseq, hb0, hbb, hbds, hbh, hheap⟩ :=
    asks_phase_ab_spec N E hNE hNW hinv hsorted hticks
  have hstrict : ∀ kv ∈ (asks_phase_ab N E b u).asks_heap, eps < kv.2 := by
    intro kv hkv
    rcases hheap kv hkv with h | h | ⟨x, hx, heq⟩
    · exact hsh kv h
    · exact h
    · have hv := hmid.hval kv hkv
      rw [heq] at hv ⊢
      exact lt_of_le_of_ne hv (Ne.symm (hne x hx))
  have hC := asksC_spec N E hNE hNW hmid
  have hCl := asksC_live N E hNE hNW hmid hstrict
  unfold asks_stage
  refine ⟨fun kv hkv => hstrict kv (hC.2 kv hkv), fun t htW => ?_⟩
  rw [hCl t htW]
  exact asks_phase_ab_live N E hNE hNW hinv hsorted hticks hne t htW

theorem bids_stage_live (N E : ℕ) (hNE : 2 * E < N) (hNW : N < W16) {b : Book}
    (hinv : BidInv N E b) {u : TickUpdate}
    (hsorted : u.bids.Pairwise (fun x y => y.tick ≤ x.tick))
    (hticks : ∀ l ∈ u.bids, l.tick + E < W32) (hne : ∀ l ∈ u.bids, l.size ≠ eps)
    (hsh : ∀ kv ∈ b.bids_heap, eps < kv.2) :
    (∀ kv ∈ (bids_stage N E b u).bids_heap, eps < kv.2) ∧
    (∀ t, t < W32 →
      live_bid N (bids_stage N E b u) t = u.bids.foldl apply_level (live_bid N b) t) := by
  obtain ⟨hmid, hseq, ha0, hba, hass, hah, hheap⟩ :=
    bids_phase_ab_spec N E hNE hNW hinv hsorted hticks
  have hstrict : ∀ kv ∈ (bids_phase_ab N E b u).bids_heap, eps < kv.2 := by
    intro kv hkv
    rcases hheap kv hkv with h | h | ⟨x, hx, heq⟩
    · exact hsh kv h
    · exact h
    · have hv := hmid.hval kv hkv
      rw [heq] at hv ⊢
      exact lt_of_le_of_ne hv (Ne.symm (hne x hx))
  have hC := bidsC_spec N E hNE hNW hmid
  have hCl := bidsC_live N E hNE hNW hmid hstrict
  unfold bids_stage
  refine ⟨fun kv hkv => hstrict kv (hC.2 kv hkv), fun t htW => ?_⟩
  rw [hCl t htW]
  exact bids_phase_ab_live N E hNE hNW hinv hsorted hticks hne t htW

theorem process_tick_update_spec (N E : ℕ) (hNE : 2 * E < N) (hNW : N < W16) {b : Book}
    (hinv : Inv N E b) {u : TickUpdate} (hu : ValidUpdate E u) :
    Inv N E (process_tick_update N E b u) ∧
    (process_tick_update N E b u).sequence_id = u.sequence_id := by
  obtain ⟨hA, hB⟩ := hinv
  obtain ⟨hsa, hsb, hta, htb⟩ := hu
  have hA0 : AskInv N E { b with sequence_id := u.sequence_id } :=
    askinv_congr N E hA rfl rfl rfl rfl
  have hB0 : BidInv N E { b with sequence_id := u.sequence_id } :=
    bidinv_congr N E hB rfl rfl rfl rfl
  obtain ⟨hAi, hseq1, hb01, hbb1, hbds1, hbh1, hheap1⟩ :=
    asks_stage_spec N E hNE hNW hA0 hsa (fun l hl => (hta l hl).1)
  set s1 := asks_stage N E { b with sequence_id := u.sequence_id } u with hs1
  have hB1 : BidInv N E s1 := bidinv_congr N E hB0 hb01 hbb1 hbds1 hbh1
  obtain ⟨hBi, hseq2, ha02, hba2, hass2, hah2, hheap2⟩ :=
    bids_stage_spec N E hNE hNW hB1 hsb (fun l hl => (htb l hl).1)
  have hA2 : AskInv N E (bids_stage N E s1 u) := askinv_congr N E hAi ha02 hba2 hass2 hah2
  unfold process_tick_update
  exact ⟨⟨hA2, hBi⟩, by rw [hseq2, hseq1]⟩

theorem process_tick_update_live (N E : ℕ) (hNE : 2 * E < N) (hNW : N < W16) {b : Book}
    (hinv : Inv N E b) {u : TickUpdate} (hu : ValidUpdate E u)
    (hsh : StrictHeaps b) (hss : StrictSizes u) :
    StrictHeaps (process_tick_update N E b u) ∧
    (∀ t, t < W32 →
      live_ask N (process_tick_update N E b u) t = u.asks.foldl apply_level (live_ask N b) t) ∧
    (∀ t, t < W32 →
      live_bid N (process_tick_update N E b u) t = u.bids.foldl apply_level (live_bid N b) t) := by
  obtain ⟨hA, hB⟩ := hinv
  obtain ⟨hsa, hsb, hta, htb⟩ := hu
  obtain ⟨hsha, hshb⟩ := hsh
  obtain ⟨hssa, hssb⟩ := hss
  have hA0 : AskInv N E { b with sequence_id := u.sequence_id } :=
    askinv_congr N E hA rfl rfl rfl rfl
  have hB0 : BidInv N E { b with sequence_id := u.sequence_id } :=
    bidinv_congr N E hB rfl rfl rfl rfl
  obtain ⟨hAi, hseq1, hb01, hbb1, hbds1, hbh1, hheap1⟩ :=
    asks_stage_spec N E hNE hNW hA0 hsa (fun l hl => (hta l hl).1)
  obtain ⟨hstrict1, hlive1⟩ :=
    asks_stage_live N E hNE hNW hA0 hsa (fun l hl => (hta l hl).1) hssa hsha
  set s1 := asks_stage N E { b with sequence_id := u.sequence_id } u with hs1
  have hB1 : BidInv N E s1 := bidinv_congr N E hB0 hb01 hbb1 hbds1 hbh1
  obtain ⟨hBi, hseq2, ha02, hba2, hass2, hah2, hheap2⟩ :=
    bids_stage_spec N E hNE hNW hB1 hsb (fun l hl => (htb l hl).1)
  have hshb1 : ∀ kv ∈ s1.bids_heap, eps < kv.2 := by
    intro kv hkv
    rw [hbh1] at hkv
    exact hshb kv hkv
  obtain ⟨hstrict2, hlive2⟩ :=
    bids_stage_live N E hNE hNW hB1 hsb (fun l hl => (htb l hl).1) hssb hshb1
  unfold process_tick_update
  refine ⟨⟨?_, hstrict2⟩, ?_, ?_⟩
  · intro kv hkv
    rw [hah2] at hkv
    exact hstrict1 kv hkv
  · intro t htW
    rw [live_ask_congr N ha02 hass2 hah2 t, hlive1 t htW]
    exact foldl_apply_level_congr u.asks rfl
  · intro t htW
    rw [hlive2 t htW]
    refine foldl_apply_level_congr u.bids ?_
    exact live_bid_congr N hb01 hbds1 hbh1 t

theorem book_new_inv (N E : ℕ) : Inv N E (Book.new N) := by
  constructor
  · refine ⟨⟨?_, ?_, ?_, ?_, ?_, ?_, ?_, ?_, ?_⟩, ?_⟩
    · exact List.length_replicate N 0
    · show W32 - 1 < W32
      unfold W32
      omega
    · exact Nat.zero_le _
    · show W32 - 1 + 0 < W32
      unfold W32
      omega
    · intro i hi
      rw [show (Book.new N).asks = List.replicate N 0 from rfl, aget_replicate] at hi
      exact absurd hi (by simpa using eps_pos)
    · intro kv hkv
      exact absurd hkv (List.not_mem_nil kv)
    · intro kv hkv
      exact absurd hkv (List.not_mem_nil kv)
    · exact List.Pairwise.nil
    · intro j hj
      exact absurd hj (Nat.not_lt_zero j)
    · rintro ⟨i, hi⟩
      rw [show (Book.new N).asks = List.replicate N 0 from rfl, aget_replicate] at hi
      exact absurd hi (by simpa using eps_pos.le)
  · refine ⟨⟨?_, ?_, ?_, ?_, ?_, ?_, ?_, ?_, ?_⟩, ?_⟩
    · exact List.length_replicate N 0
    · show (0 : ℕ) < W32
      unfold W32
      omega
    · exact Nat.zero_le _
    · exact Nat.zero_le _
    · intro i hi
      rw [show (Book.new N).bids = List.replicate N 0 from rfl, aget_replicate] at hi
      exact absurd hi (by simpa using eps_pos)
    · intro kv hkv
      exact absurd hkv (List.not_mem_nil kv)
    · intro kv hkv
      exact absurd hkv (List.not_mem_nil kv)
    · exact List.Pairwise.nil
    · intro j hj
      exact absurd hj (Nat.not_lt_zero j)
    · rintro ⟨i, hi⟩
      rw [show (Book.new N).bids = List.replicate N 0 from rfl, aget_replicate] at hi
      exact absurd hi (by simpa using eps_pos.le)

theorem book_new_strict (N : ℕ) : StrictHeaps (Book.new N) :=
  ⟨fun kv hkv => absurd hkv (List.not_mem_nil kv),
   fun kv hkv => absurd hkv (List.not_mem_nil kv)⟩

theorem book_new_live_ask (N : ℕ) : ∀ t, live_ask N (Book.new N) t = none := by
  intro t
  unfold live_ask
  by_cases hw : (Book.new N).asks_0_tick ≤ t ∧ t < (Book.new N).asks_0_tick + N
  · rw [if_pos hw,
      if_neg (show ¬ eps < aget (Book.new N).asks (t - (Book.new N).asks_0_tick) from by
        rw [show (Book.new N).asks = List.replicate N 0 from rfl, aget_replicate]
        simpa using eps_pos.le)]
  · rw [if_neg hw]
    rfl

theorem book_new_live_bid (N : ℕ) : ∀ t, live_bid N (Book.new N) t = none := by
  intro t
  unfold live_bid
  by_cases hw : t ≤ (Book.new N).bids_0_tick ∧ (Book.new N).bids_0_tick < t + N
  · rw [if_pos hw,
      if_neg (show ¬ eps < aget (Book.new N).bids ((Book.new N).bids_0_tick - t) from by
        rw [show (Book.new N).bids = List.replicate N 0 from rfl, aget_replicate]
        simpa using eps_pos.le)]
  · rw [if_neg hw]
    rfl

theorem reach_inv (N E : ℕ) (hNE : 2 * E < N) (hNW : N < W16) {b : Book}
    (hr : Reach N E b) : Inv N E b := by
  induction hr with
  | base => exact book_new_inv N E
  | step hr hv ih => exact (process_tick_update_spec N E hNE hNW ih hv).1

theorem conservation_aux (N E : ℕ) (hNE : 2 * E < N) (hNW : N < W16) :
    ∀ (us : List TickUpdate) (b : Book) (ma mb : ℕ → Option ℚ),
      (∀ u ∈ us, ValidUpdate E u ∧ StrictSizes u) →
      Inv N E b → StrictHeaps b →
      (∀ t, t < W32 → live_ask N b t = ma t) →
      (∀ t, t < W32 → live_bid N b t = mb t) →
      Inv N E (us.foldl (process_tick_update N E) b) ∧
      StrictHeaps (us.foldl (process_tick_update N E) b) ∧
      (∀ t, t < W32 → live_ask N (us.foldl (process_tick_update N E) b) t =
        us.foldl (fun m u => u.asks.foldl apply_level m) ma t) ∧
      (∀ t, t < W32 → live_bid N (us.foldl (process_tick_update N E) b) t =
        us.foldl (fun m u => u.bids.foldl apply_level m) mb t) := by
  intro us
  induction us with
  | nil =>
      intro b ma mb hv hinv hsh hla hlb
      exact ⟨hinv, hsh, hla, hlb⟩
  | cons u us ih =>
      intro b ma mb hv hinv hsh hla hlb
      have hu := hv u (List.mem_cons_self u us)
      have hps := process_tick_update_spec N E hNE hNW hinv hu.1
      have hpl := process_tick_update_live N E hNE hNW hinv hu.1 hsh hu.2
      simp only [List.foldl_cons]
      refine ih (process_tick_update N E b u) (u.asks.foldl apply_level ma)
        (u.bids.foldl apply_level mb)
        (fun v hv' => hv v (List.mem_cons_of_mem u hv')) hps.1 hpl.1 ?_ ?_
      · intro t htW
        rw [hpl.2.1 t htW]
        exact foldl_apply_level_congr u.asks (hla t htW)
      · intro t htW
        rw [hpl.2.2 t htW]
        exact foldl_apply_level_congr u.bids (hlb t htW)

theorem conservation (N E : ℕ) (hNE : 2 * E < N) (hNW : N < W16) (us : List TickUpdate)
    (hv : ∀ u ∈ us, ValidUpdate E u ∧ StrictSizes u) :
    (∀ t, t < W32 → live_ask N (apply_updates N E us) t = agg_asks us t) ∧
    (∀ t, t < W32 → live_bid N (apply_updates N E us) t = agg_bids us t) := by
  have h := conservation_aux N E hNE hNW us (Book.new N) (fun _ => none) (fun _ => none)
    hv (book_new_inv N E) (book_new_strict N)
    (fun t _ => book_new_live_ask N t) (fun t _ => book_new_live_bid N t)
  exact ⟨h.2.2.1, h.2.2.2⟩

theorem asksC_id (N E : ℕ) {b : Book} (hinv : AskInv N E b) :
    rebalance_asks_higher_and_update_best N E b = b := by
  obtain ⟨⟨alen, a0lt, best_le, a8, a7, hdom, hval, hsort, below⟩, bestOk⟩ := hinv
  unfold rebalance_asks_higher_and_update_best
  dsimp only
  by_cases h1 : eps < aget b.asks b.best_ask_i
  · rw [if_pos h1]
  · rw [if_neg h1]
    cases hfl : find_live b.asks with
    | some i =>
        obtain ⟨hiN, hilive, himin⟩ := find_live_some hfl
        exact absurd (bestOk ⟨i, hilive⟩) h1
    | none =>
        dsimp only
        rw [if_neg (show ¬ 2 * E < b.best_ask_i from by omega)]

theorem bidsC_id (N E : ℕ) {b : Book} (hinv : BidInv N E b) :
    rebalance_bids_lower_and_update_best N E b = b := by
  obtain ⟨⟨blen, b0lt, best_le, b8, b7, hdom, hval, hsort, below⟩, bestOk⟩ := hinv
  unfold rebalance_bids_lower_and_update_best
  dsimp only
  by_cases h1 : eps < aget b.bids b.best_bid_i
  · rw [if_pos h1]
  · rw [if_neg h1]
    cases hfl : find_live b.bids with
    | some i =>
        obtain ⟨hiN, hilive, himin⟩ := find_live_some hfl
        exact absurd (bestOk ⟨i, hilive⟩) h1
    | none =>
        dsimp only
        rw [if_neg (show ¬ 2 * E < b.best_bid_i from by omega)]

theorem price_lt_price (d : ℕ) {t1 t2 : ℕ} (h : t1 < t2) : price d t1 < price d t2 := by
  unfold price
  have h10 : (0 : ℚ) < 1 / 10 ^ d := by positivity
  have hc : (t1 : ℚ) < t2 := by exact_mod_cast h
  exact mul_lt_mul_of_pos_right hc h10

/-- Claim C1 (amended): for every sequence of valid tick updates applied to a fresh
book, the live level the book reports at each tick — an array slot strictly above
`EPSILON` at its logical tick, or a heap entry — equals the last-writer-wins
aggregation of the stream per tick, a size not strictly above `EPSILON` deleting
the tick.  The amendment replaces the claim's `≥ 1e-15` liveness and `< 1e-15`
deletion readings by the code's strict `> EPSILON` test and excludes sizes exactly
equal to `EPSILON` (see the counterexample for the boundary). -/
theorem C1_amended_conservation (N E : ℕ) (hNE : 2 * E < N) (hNW : N < W16)
    (us : List TickUpdate) (hv : ∀ u ∈ us, ValidUpdate E u ∧ StrictSizes u) :
    ∀ t, t < W32 →
      live_ask N (apply_updates N E us) t = agg_asks us t ∧
      live_bid N (apply_updates N E us) t = agg_bids us t := by
  intro t ht
  exact ⟨(conservation N E hNE hNW us hv).1 t ht, (conservation N E hNE hNW us hv).2 t ht⟩

/-- Claim C2 (amended): on every reachable book, with the code's strict
`> EPSILON` liveness test, if any ask array slot is live then `best_ask_i` is the
least live index, and symmetrically for `best_bid_i` on the bids array.  The
amendment replaces the claim's `≥ 1e-15` by `> EPSILON` (see the counterexample
for a slot holding exactly `EPSILON`). -/
theorem C2_amended_best_is_min (N E : ℕ) (hNE : 2 * E < N) (hNW : N < W16)
    {b : Book} (hr : Reach N E b) :
    ((∃ i, eps < aget b.asks i) → IsLeast {i | eps < aget b.asks i} b.best_ask_i) ∧
    ((∃ i, eps < aget b.bids i) → IsLeast {i | eps < aget b.bids i} b.best_bid_i) := by
  obtain ⟨hA, hB⟩ := reach_inv N E hNE hNW hr
  constructor
  · intro h
    exact ⟨hA.bestOk h, fun j hj => le_of_not_lt (fun hlt => hA.below j hlt hj)⟩
  · intro h
    exact ⟨hB.bestOk h, fun j hj => le_of_not_lt (fun hlt => hB.below j hlt hj)⟩

/-- Claim C3 (amended): when no array slot is live, the completed
scan-and-compact routine leaves the book — in particular `best_ask_i`, resp.
`best_bid_i` — unchanged; it does not reset the best index to 0 as claimed (see
the counterexample, where the index stays at its stale value 1). -/
theorem C3_amended_scan_keeps_best (N E : ℕ) {b c : Book}
    (hb2 : b.best_ask_i ≤ 2 * E) (hbE : 2 * E < N) (hblen : b.asks.length = N)
    (hbdead : ∀ i < N, ¬ eps < aget b.asks i)
    (hc2 : c.best_bid_i ≤ 2 * E) (hclen : c.bids.length = N)
    (hcdead : ∀ i < N, ¬ eps < aget c.bids i) :
    rebalance_asks_higher_and_update_best N E b = b ∧
    rebalance_bids_lower_and_update_best N E c = c := by
  constructor
  · unfold rebalance_asks_higher_and_update_best
    dsimp only
    rw [if_neg (hbdead b.best_ask_i (by omega))]
    cases hfl : find_live b.asks with
    | some i =>
        obtain ⟨hiN, hilive, -⟩ := find_live_some hfl
        rw [hblen] at hiN
        exact absurd hilive (hbdead i hiN)
    | none =>
        dsimp only
        rw [if_neg (show ¬ 2 * E < b.best_ask_i from by omega)]
  · unfold rebalance_bids_lower_and_update_best
    dsimp only
    rw [if_neg (hcdead c.best_bid_i (by omega))]
    cases hfl : find_live c.bids with
    | some i =>
        obtain ⟨hiN, hilive, -⟩ := find_live_some hfl
        rw [hclen] at hiN
        exact absurd hilive (hcdead i hiN)
    | none =>
        dsimp only
        rw [if_neg (show ¬ 2 * E < c.best_bid_i from by omega)]

/-- Claim C4 (amended): the favorable bid rebalance computes the new anchor
`highest_tick + CACHE_EMPTY_SLOTS` without wrapping only on the sub-range of
ticks with `highest_tick + CACHE_EMPTY_SLOTS < 2^32`; the claim's "for all ticks
up to 2^32 − 1" fails because the `u32` addition wraps (see the counterexample,
where tick `2^32 − 1` yields anchor 0). -/
theorem C4_amended_no_overflow (N E : ℕ) (b : Book) (t0 : ℕ) (hW : t0 + E < W32) :
    (rebalance_bids_higher N E b t0).bids_0_tick = t0 + E := by
  unfold rebalance_bids_higher
  dsimp only
  exact add32_eq hW

/-- Claim C6: on every reachable book, no tick is simultaneously represented by a
live array slot (size `≥ 1e-15` at its logical tick, the claim's reading) and a
key of the same side's heap: a tick whose window slot is live has no heap entry
(the heap in fact never holds any key inside the window). -/
theorem C6_no_duplication (N E : ℕ) (hNE : 2 * E < N) (hNW : N < W16)
    {b : Book} (hr : Reach N E b) :
    (∀ t, b.asks_0_tick ≤ t → t < b.asks_0_tick + N →
      eps ≤ aget b.asks (t - b.asks_0_tick) → hget b.asks_heap t = none) ∧
    (∀ t, t ≤ b.bids_0_tick → b.bids_0_tick < t + N →
      eps ≤ aget b.bids (b.bids_0_tick - t) → hget b.bids_heap t = none) := by
  obtain ⟨hA, hB⟩ := reach_inv N E hNE hNW hr
  constructor
  · intro t h1 h2 _
    exact hget_eq_none (fun kv hkv => by have := hA.hdom kv hkv; omega)
  · intro t h1 h2 _
    exact hget_eq_none (fun kv hkv => by have := hB.hdom kv hkv; omega)

/-- Claim C7: on every reachable book, the `asks()` iterator yields strictly
ascending prices and the `bids()` iterator strictly descending prices (the bids
heap, keyed by ascending raw tick, is traversed in reverse). -/
theorem C7_iterators_sorted (N E d : ℕ) (hNE : 2 * E < N) (hNW : N < W16)
    {b : Book} (hr : Reach N E b) :
    (asks_iter N d b).Pairwise (fun x y => x.price < y.price) ∧
    (bids_iter N d b).Pairwise (fun x y => y.price < x.price) := by
  obtain ⟨hA, hB⟩ := reach_inv N E hNE hNW hr
  obtain ⟨⟨alen, a0lt, abest_le, a8, a7, ahdom, ahval, ahsort, abelow⟩, -⟩ := hA
  obtain ⟨⟨blen, b0lt, bbest_le, b8, b7, bhdom, bhval, bhsort, bbelow⟩, -⟩ := hB
  constructor
  · unfold asks_iter
    rw [List.pairwise_append]
    refine ⟨?_, ?_, ?_⟩
    · rw [List.pairwise_filterMap]
      refine List.Pairwise.imp ?_
        (List.Pairwise.sublist (List.drop_sublist _ _) (List.pairwise_lt_range N))
      intro i j hij x hx y hy
      by_cases hci : aget b.asks i < eps
      · rw [if_pos hci] at hx
        exact absurd hx (by simp)
      · rw [if_neg hci] at hx
        by_cases hcj : aget b.asks j < eps
        · rw [if_pos hcj] at hy
          exact absurd hy (by simp)
        · rw [if_neg hcj] at hy
          rw [Option.mem_some_iff] at hx hy
          rw [← hx, ← hy]
          dsimp only
          rw [add32_eq (a7 i (le_of_not_lt hci)), add32_eq (a7 j (le_of_not_lt hcj))]
          exact price_lt_price d (by omega)
    · rw [List.pairwise_map]
      exact ahsort.imp (fun h => price_lt_price d h)
    · intro x hx y hy
      rw [List.mem_filterMap] at hx
      obtain ⟨i, hi, hfi⟩ := hx
      rw [List.mem_map] at hy
      obtain ⟨kv, hkv, hfy⟩ := hy
      have hiN : i < N := List.mem_range.mp (List.mem_of_mem_drop hi)
      by_cases hci : aget b.asks i < eps
      · rw [if_pos hci] at hfi
        exact absurd hfi (by simp)
      · rw [if_neg hci] at hfi
        rw [Option.some_inj] at hfi
        rw [← hfi, ← hfy]
        dsimp only
        rw [add32_eq (a7 i (le_of_not_lt hci))]
        have hd := ahdom kv hkv
        exact price_lt_price d (by omega)
  · unfold bids_iter
    rw [List.pairwise_append]
    refine ⟨?_, ?_, ?_⟩
    · rw [List.pairwise_filterMap]
      refine List.Pairwise.imp ?_
        (List.Pairwise.sublist (List.drop_sublist _ _) (List.pairwise_lt_range N))
      intro i j hij x hx y hy
      by_cases hci : aget b.bids i < eps
      · rw [if_pos hci] at hx
        exact absurd hx (by simp)
      · rw [if_neg hci] at hx
        by_cases hcj : aget b.bids j < eps
        · rw [if_pos hcj] at hy
          exact absurd hy (by simp)
        · rw [if_neg hcj] at hy
          rw [Option.mem_some_iff] at hx hy
          rw [← hx, ← hy]
          dsimp only
          have h1 := b7 i (le_of_not_lt hci)
          have h2 := b7 j (le_of_not_lt hcj)
          rw [sub32_eq h1 b0lt, sub32_eq h2 b0lt]
          exact price_lt_price d (by omega)
    · rw [List.pairwise_map, List.pairwise_reverse]
      exact bhsort.imp (fun h => price_lt_price d h)
    · intro x hx y hy
      rw [List.mem_filterMap] at hx
      obtain ⟨i, hi, hfi⟩ := hx
      rw [List.mem_map] at hy
      obtain ⟨kv, hkv, hfy⟩ := hy
      rw [List.mem_reverse] at hkv
      have hiN : i < N := List.mem_range.mp (List.mem_of_mem_drop hi)
      by_cases hci : aget b.bids i < eps
      · rw [if_pos hci] at hfi
        exact absurd hfi (by simp)
      · rw [if_neg hci] at hfi
        rw [Option.some_inj] at hfi
        rw [← hfi, ← hfy]
        dsimp only
        rw [sub32_eq (b7 i (le_of_not_lt hci)) b0lt]
        have hd := bhdom kv hkv
        exact price_lt_price d (by omega)

/-- Claim C8: on every reachable book, a first ask strictly inside the window
below the current best (`asks_0_tick ≤ tick < asks_0_tick + best_ask_i`) makes
step A set `best_ask_i := tick − asks_0_tick` and change nothing else (the level
is inserted afterwards); symmetrically a first bid with
`bids_0_tick − best_bid_i < tick ≤ bids_0_tick` sets
`best_bid_i := bids_0_tick − tick`. -/
theorem C8_window_best_update (N E : ℕ) (hNE : 2 * E < N) (hNW : N < W16)
    {b : Book} (hr : Reach N E b) {la lb : TickLevel}
    (ha1 : b.asks_0_tick ≤ la.tick) (ha2 : la.tick < b.asks_0_tick + b.best_ask_i)
    (hb1 : b.bids_0_tick - b.best_bid_i < lb.tick) (hb2 : lb.tick ≤ b.bids_0_tick) :
    asks_step_a N E b la = { b with best_ask_i := la.tick - b.asks_0_tick } ∧
    bids_step_a N E b lb = { b with best_bid_i := b.bids_0_tick - lb.tick } := by
  obtain ⟨hA, hB⟩ := reach_inv N E hNE hNW hr
  obtain ⟨⟨alen, a0lt, abest_le, a8, a7, ahdom, ahval, ahsort, abelow⟩, -⟩ := hA
  obtain ⟨⟨blen, b0lt, bbest_le, b8, b7, bhdom, bhval, bhsort, bbelow⟩, -⟩ := hB
  constructor
  · unfold asks_step_a
    dsimp only
    rw [if_neg (show ¬ la.tick < b.asks_0_tick from by omega),
      if_pos (show la.tick < add32 b.best_ask_i b.asks_0_tick from by
        rw [add32_eq (show b.best_ask_i + b.asks_0_tick < W32 from by omega)]
        omega),
      sub32_eq ha1 (show la.tick < W32 from by omega),
      toU16_eq (show la.tick - b.asks_0_tick < W16 from by omega)]
  · unfold bids_step_a
    dsimp only
    rw [if_neg (show ¬ b.bids_0_tick < lb.tick from by omega),
      sub32_eq b8 b0lt,
      if_pos hb1,
      sub32_eq hb2 b0lt,
      toU16_eq (show b.bids_0_tick - lb.tick < W16 from by omega)]

/-- Claim C9: on every reachable book, processing an update with no asks and no
bids changes only the stored sequence id; anchors, best indices, arrays and
heaps are all unchanged even though the step-C routines still run. -/
theorem C9_empty_update_frame (N E : ℕ) (hNE : 2 * E < N) (hNW : N < W16)
    {b : Book} (hr : Reach N E b) (s : ℕ) :
    process_tick_update N E b ⟨s, [], []⟩ = { b with sequence_id := s } := by
  obtain ⟨hA, hB⟩ := reach_inv N E hNE hNW hr
  have hA0 : AskInv N E { b with sequence_id := s } := askinv_congr N E hA rfl rfl rfl rfl
  have hB0 : BidInv N E { b with sequence_id := s } := bidinv_congr N E hB rfl rfl rfl rfl
  show bids_stage N E (asks_stage N E { b with sequence_id := s } ⟨s, [], []⟩) ⟨s, [], []⟩ = _
  have h1 : asks_stage N E { b with sequence_id := s } ⟨s, [], []⟩ =
      { b with sequence_id := s } := asksC_id N E hA0
  rw [h1]
  exact bidsC_id N E hB0

/-- Claim C10: on every reachable book the best indices are strictly below
`CACHE_SLOTS` and both arrays have length `CACHE_SLOTS`, so `asks[best_ask_i]`,
`bids[best_bid_i]` and the step-C slot read are in bounds. -/
theorem C10_best_indices_in_bounds (N E : ℕ) (hNE : 2 * E < N) (hNW : N < W16)
    {b : Book} (hr : Reach N E b) :
    b.asks.length = N ∧ b.bids.length = N ∧ b.best_ask_i < N ∧ b.best_bid_i < N := by
  obtain ⟨hA, hB⟩ := reach_inv N E hNE hNW hr
  have h1 := hA.best_le
  have h2 := hB.best_le
  exact ⟨hA.alen, hB.blen, by omega, by omega⟩

/-- Witness for C1: one valid strict-size update stream on a 4-slot book with one
empty slot; the conservation theorem instantiated at tick 100. -/
theorem C1_witness :
    (∀ u ∈ [(⟨1, [⟨100, 5⟩], [⟨90, 2⟩]⟩ : TickUpdate)], ValidUpdate 1 u ∧ StrictSizes u) ∧
    live_ask 4 (apply_updates 4 1 [⟨1, [⟨100, 5⟩], [⟨90, 2⟩]⟩]) 100 =
      agg_asks [⟨1, [⟨100, 5⟩], [⟨90, 2⟩]⟩] 100 ∧
    live_bid 4 (apply_updates 4 1 [⟨1, [⟨100, 5⟩], [⟨90, 2⟩]⟩]) 100 =
      agg_bids [⟨1, [⟨100, 5⟩], [⟨90, 2⟩]⟩] 100 :=
  ⟨by decide,
   (C1_amended_conservation 4 1 (by decide) (by decide) [⟨1, [⟨100, 5⟩], [⟨90, 2⟩]⟩]
     (by decide) 100 (by decide)).1,
   (C1_amended_conservation 4 1 (by decide) (by decide) [⟨1, [⟨100, 5⟩], [⟨90, 2⟩]⟩]
     (by decide) 100 (by decide)).2⟩

/-- Counterexample for C1 as stated: an update stream that is valid in the
claim's sense (sorted, sizes non-negative) whose aggregation holds the level
`(101, 1e-15)` — live under the claim's `≥ 1e-15` reading — while after
processing, the book holds nothing at tick 101: the favorable rebalance evicts
with a strict `> EPSILON` test and silently drops the exactly-`EPSILON` level. -/
theorem C1_counterexample :
    (∀ u ∈ [(⟨1, [⟨101, eps⟩, ⟨102, 5⟩], []⟩ : TickUpdate), ⟨2, [⟨97, 3⟩], []⟩],
      ValidUpdate 1 u) ∧
    agg_asks_claimed [⟨1, [⟨101, eps⟩, ⟨102, 5⟩], []⟩, ⟨2, [⟨97, 3⟩], []⟩] 101 = some eps ∧
    live_ask_claimed 4
      (apply_updates 4 1 [⟨1, [⟨101, eps⟩, ⟨102, 5⟩], []⟩, ⟨2, [⟨97, 3⟩], []⟩]) 101 =
      none :=
  ⟨by decide, by decide, by decide⟩

/-- Witness for C2: a reachable book with a live slot on each side; the best
index is the least live index on both. -/
theorem C2_witness :
    Reach 4 1 (process_tick_update 4 1 (Book.new 4) ⟨1, [⟨100, 5⟩], [⟨90, 2⟩]⟩) ∧
    IsLeast {i | eps <
        aget (process_tick_update 4 1 (Book.new 4) ⟨1, [⟨100, 5⟩], [⟨90, 2⟩]⟩).asks i}
      (process_tick_update 4 1 (Book.new 4) ⟨1, [⟨100, 5⟩], [⟨90, 2⟩]⟩).best_ask_i ∧
    IsLeast {i | eps <
        aget (process_tick_update 4 1 (Book.new 4) ⟨1, [⟨100, 5⟩], [⟨90, 2⟩]⟩).bids i}
      (process_tick_update 4 1 (Book.new 4) ⟨1, [⟨100, 5⟩], [⟨90, 2⟩]⟩).best_bid_i :=
  have hr : Reach 4 1 (process_tick_update 4 1 (Book.new 4) ⟨1, [⟨100, 5⟩], [⟨90, 2⟩]⟩) :=
    Reach.step Reach.base (by decide)
  ⟨hr, (C2_amended_best_is_min 4 1 (by decide) (by decide) hr).1 ⟨1, by decide⟩,
    (C2_amended_best_is_min 4 1 (by decide) (by decide) hr).2 ⟨1, by decide⟩⟩

/-- Counterexample for C2 as stated: after a valid update stream, slot 2 holds
exactly `1e-15` — live under the claim's `≥ 1e-15` reading, dead under the
code's strict scan — so the least such index is 2 while `best_ask_i` is 1. -/
theorem C2_counterexample :
    (∀ u ∈ [(⟨1, [⟨100, 5⟩, ⟨101, eps⟩], []⟩ : TickUpdate), ⟨2, [⟨100, 0⟩], []⟩],
      ValidUpdate 1 u) ∧
    eps ≤ aget (apply_updates 3 1
      [⟨1, [⟨100, 5⟩, ⟨101, eps⟩], []⟩, ⟨2, [⟨100, 0⟩], []⟩]).asks 2 ∧
    (∀ j < 2, ¬ eps ≤ aget (apply_updates 3 1
      [⟨1, [⟨100, 5⟩, ⟨101, eps⟩], []⟩, ⟨2, [⟨100, 0⟩], []⟩]).asks j) ∧
    (apply_updates 3 1
      [⟨1, [⟨100, 5⟩, ⟨101, eps⟩], []⟩, ⟨2, [⟨100, 0⟩], []⟩]).best_ask_i = 1 :=
  ⟨by decide, by decide, by decide, by decide⟩

/-- Witness for C3: a dead 3-slot book with a stale best index 1 on each side;
the completed scan routines leave both books unchanged. -/
theorem C3_witness :
    (∀ i < 3, ¬ eps < aget (⟨0, 100, 50, 1, 1, [0, 0, 0], [0, 0, 0], [], []⟩ : Book).asks i) ∧
    rebalance_asks_higher_and_update_best 3 1
      ⟨0, 100, 50, 1, 1, [0, 0, 0], [0, 0, 0], [], []⟩ =
      ⟨0, 100, 50, 1, 1, [0, 0, 0], [0, 0, 0], [], []⟩ ∧
    rebalance_bids_lower_and_update_best 3 1
      ⟨0, 100, 50, 1, 1, [0, 0, 0], [0, 0, 0], [], []⟩ =
      ⟨0, 100, 50, 1, 1, [0, 0, 0], [0, 0, 0], [], []⟩ :=
  ⟨by decide,
   (@C3_amended_scan_keeps_best 3 1 ⟨0, 100, 50, 1, 1, [0, 0, 0], [0, 0, 0], [], []⟩
     ⟨0, 100, 50, 1, 1, [0, 0, 0], [0, 0, 0], [], []⟩ (by decide) (by decide) (by decide)
     (by decide) (by decide) (by decide) (by decide)).1,
   (@C3_amended_scan_keeps_best 3 1 ⟨0, 100, 50, 1, 1, [0, 0, 0], [0, 0, 0], [], []⟩
     ⟨0, 100, 50, 1, 1, [0, 0, 0], [0, 0, 0], [], []⟩ (by decide) (by decide) (by decide)
     (by decide) (by decide) (by decide) (by decide)).2⟩

/-- Counterexample for C3 as stated: after a valid update stream no ask slot is
live (even under the claim's `≥ 1e-15` reading), yet `best_ask_i` is 1, not 0:
the scan leaves the stale index in place. -/
theorem C3_counterexample :
    (∀ u ∈ [(⟨1, [⟨100, 5⟩], []⟩ : TickUpdate), ⟨2, [⟨100, 0⟩], []⟩], ValidUpdate 1 u) ∧
    (∀ i < 3, ¬ eps ≤ aget (apply_updates 3 1
      [⟨1, [⟨100, 5⟩], []⟩, ⟨2, [⟨100, 0⟩], []⟩]).asks i) ∧
    (apply_updates 3 1 [⟨1, [⟨100, 5⟩], []⟩, ⟨2, [⟨100, 0⟩], []⟩]).best_ask_i = 1 :=
  ⟨by decide, by decide, by decide⟩

/-- Witness for C4: a bid tick respecting the no-overflow bound; the favorable
rebalance anchors at `tick + CACHE_EMPTY_SLOTS` exactly. -/
theorem C4_witness :
    50 + 1 < W32 ∧ (rebalance_bids_higher 4 1 (Book.new 4) 50).bids_0_tick = 50 + 1 :=
  ⟨by decide, C4_amended_no_overflow 4 1 (Book.new 4) 50 (by decide)⟩

/-- Counterexample for C4 as stated: a sorted non-negative single-bid update at
tick `2^32 − 1`, strictly above the fresh anchor 0; the computed new anchor is
0, not `2^32 − 1 + CACHE_EMPTY_SLOTS = 2^32`: the `u32` addition wrapped. -/
theorem C4_counterexample :
    (Book.new 4).bids_0_tick < 4294967295 ∧ (0 : ℚ) ≤ 1 ∧
    (process_tick_update 4 1 (Book.new 4) ⟨1, [], [⟨4294967295, 1⟩]⟩).bids_0_tick = 0 ∧
    (4294967295 + 1 : ℕ) ≠ 0 :=
  ⟨by decide, by decide, by decide, by decide⟩

/-- Witness for C6: a reachable book with a live slot at ask tick 100 and bid
tick 90; neither tick has a heap entry on its side. -/
theorem C6_witness :
    Reach 4 1 (process_tick_update 4 1 (Book.new 4) ⟨1, [⟨100, 5⟩], [⟨90, 2⟩]⟩) ∧
    hget (process_tick_update 4 1 (Book.new 4) ⟨1, [⟨100, 5⟩], [⟨90, 2⟩]⟩).asks_heap 100 =
      none ∧
    hget (process_tick_update 4 1 (Book.new 4) ⟨1, [⟨100, 5⟩], [⟨90, 2⟩]⟩).bids_heap 90 =
      none :=
  have hr : Reach 4 1 (process_tick_update 4 1 (Book.new 4) ⟨1, [⟨100, 5⟩], [⟨90, 2⟩]⟩) :=
    Reach.step Reach.base (by decide)
  ⟨hr, (C6_no_duplication 4 1 (by decide) (by decide) hr).1 100 (by decide) (by decide)
      (by decide),
    (C6_no_duplication 4 1 (by decide) (by decide) hr).2 90 (by decide) (by decide)
      (by decide)⟩

/-- Witness for C7: the iterators of a reachable book with live levels on both
sides, at 2 decimals. -/
theorem C7_witness :
    Reach 4 1 (process_tick_update 4 1 (Book.new 4) ⟨1, [⟨100, 5⟩], [⟨90, 2⟩]⟩) ∧
    (asks_iter 4 2 (process_tick_update 4 1 (Book.new 4) ⟨1, [⟨100, 5⟩], [⟨90, 2⟩]⟩)).Pairwise
      (fun x y => x.price < y.price) ∧
    (bids_iter 4 2 (process_tick_update 4 1 (Book.new 4) ⟨1, [⟨100, 5⟩], [⟨90, 2⟩]⟩)).Pairwise
      (fun x y => y.price < x.price) :=
  have hr : Reach 4 1 (process_tick_update 4 1 (Book.new 4) ⟨1, [⟨100, 5⟩], [⟨90, 2⟩]⟩) :=
    Reach.step Reach.base (by decide)
  ⟨hr, (C7_iterators_sorted 4 1 2 (by decide) (by decide) hr).1,
    (C7_iterators_sorted 4 1 2 (by decide) (by decide) hr).2⟩

/-- Witness for C8: on a reachable book with anchors 99/91 and best offsets 1/1,
a first ask at tick 99 and a first bid at tick 91 hit the else-if branches,
which set the best offsets and change nothing else. -/
theorem C8_witness :
    Reach 4 1 (process_tick_update 4 1 (Book.new 4) ⟨1, [⟨100, 5⟩], [⟨90, 2⟩]⟩) ∧
    asks_step_a 4 1 (process_tick_update 4 1 (Book.new 4) ⟨1, [⟨100, 5⟩], [⟨90, 2⟩]⟩)
        ⟨99, 7⟩ =
      { process_tick_update 4 1 (Book.new 4) ⟨1, [⟨100, 5⟩], [⟨90, 2⟩]⟩ with
        best_ask_i := 99 -
          (process_tick_update 4 1 (Book.new 4) ⟨1, [⟨100, 5⟩], [⟨90, 2⟩]⟩).asks_0_tick } ∧
    bids_step_a 4 1 (process_tick_update 4 1 (Book.new 4) ⟨1, [⟨100, 5⟩], [⟨90, 2⟩]⟩)
        ⟨91, 7⟩ =
      { process_tick_update 4 1 (Book.new 4) ⟨1, [⟨100, 5⟩], [⟨90, 2⟩]⟩ with
        best_bid_i :=
          (process_tick_update 4 1 (Book.new 4) ⟨1, [⟨100, 5⟩], [⟨90, 2⟩]⟩).bids_0_tick -
            91 } :=
  have hr : Reach 4 1 (process_tick_update 4 1 (Book.new 4) ⟨1, [⟨100, 5⟩], [⟨90, 2⟩]⟩) :=
    Reach.step Reach.base (by decide)
  ⟨hr, (@C8_window_best_update 4 1 (by decide) (by decide)
      (process_tick_update 4 1 (Book.new 4) ⟨1, [⟨100, 5⟩], [⟨90, 2⟩]⟩) hr ⟨99, 7⟩ ⟨91, 7⟩
      (by decide) (by decide) (by decide) (by decide)).1,
    (@C8_window_best_update 4 1 (by decide) (by decide)
      (process_tick_update 4 1 (Book.new 4) ⟨1, [⟨100, 5⟩], [⟨90, 2⟩]⟩) hr ⟨99, 7⟩ ⟨91, 7⟩
      (by decide) (by decide) (by decide) (by decide)).2⟩

/-- Witness for C9: processing an empty update with sequence id 7 on a reachable
book only rewrites the sequence id. -/
theorem C9_witness :
    Reach 4 1 (process_tick_update 4 1 (Book.new 4) ⟨1, [⟨100, 5⟩], [⟨90, 2⟩]⟩) ∧
    process_tick_update 4 1 (process_tick_update 4 1 (Book.new 4) ⟨1, [⟨100, 5⟩], [⟨90, 2⟩]⟩)
        ⟨7, [], []⟩ =
      { process_tick_update 4 1 (Book.new 4) ⟨1, [⟨100, 5⟩], [⟨90, 2⟩]⟩ with
        sequence_id := 7 } :=
  have hr : Reach 4 1 (process_tick_update 4 1 (Book.new 4) ⟨1, [⟨100, 5⟩], [⟨90, 2⟩]⟩) :=
    Reach.step Reach.base (by decide)
  ⟨hr, C9_empty_update_frame 4 1 (by decide) (by decide) hr 7⟩

/-- Witness for C10: the bounds instantiated on a reachable book. -/
theorem C10_witness :
    Reach 4 1 (process_tick_update 4 1 (Book.new 4) ⟨1, [⟨100, 5⟩], [⟨90, 2⟩]⟩) ∧
    ((process_tick_update 4 1 (Book.new 4) ⟨1, [⟨100, 5⟩], [⟨90, 2⟩]⟩).asks.length = 4 ∧
     (process_tick_update 4 1 (Book.new 4) ⟨1, [⟨100, 5⟩], [⟨90, 2⟩]⟩).bids.length = 4 ∧
     (process_tick_update 4 1 (Book.new 4) ⟨1, [⟨100, 5⟩], [⟨90, 2⟩]⟩).best_ask_i < 4 ∧
     (process_tick_update 4 1 (Book.new 4) ⟨1, [⟨100, 5⟩], [⟨90, 2⟩]⟩).best_bid_i < 4) :=
  have hr : Reach 4 1 (process_tick_update 4 1 (Book.new 4) ⟨1, [⟨100, 5⟩], [⟨90, 2⟩]⟩) :=
    Reach.step Reach.base (by decide)
  ⟨hr, C10_best_indices_in_bounds 4 1 (by decide) (by decide) hr⟩

end OBook
